import Mathlib

/-!
Shallow embedding of the `mao_core` repository (Rust) in Lean 4, together
with theorems settling the frozen claims about its specification.

The embedding mirrors, definition by definition:
  * `src/mao/automaton.rs` — the interaction automaton (arena of nodes,
    cursor, insertion, removal, replay, structural equality);
  * `src/mao/mao_core.rs` — the event pipeline (`update_turn`,
    `get_card_effects`, `next_player`, `propagate_on_event_results_and_execute`,
    `on_turn_ends`, `on_penality`, rule activationable/deactivation, stack
    refill and drawing);
  * the supporting data types from `src/mao_event.rs`, `src/config.rs`,
    `src/card/…`, `src/stack.rs`, `src/player.rs`.

Machine integers (`usize`, `isize`) are modelled as `Nat`/`Int`; Rust
panics (`unwrap`, `todo!`, `unreachable!`, assertion failures, division by
zero, out-of-range `Vec::drain`) are modelled as an explicit `panicked`
outcome; `Result<_, Error>` is modelled with an `error` outcome.  Function
pointers carried by the data (interaction handlers, rule callbacks) are
modelled as opaque tags (`Nat`), with the behaviour of external rule
modules — which are dynamically loaded native code, not part of the
repository — supplied as explicit semantic parameters.
-/

namespace MaoSpec

/-- Rust `str::contains` on `&str` (substring test): prefix test helper. -/
def charsHavePre : List Char → List Char → Bool
  | [], _ => true
  | _ :: _, [] => false
  | a :: as, b :: bs => a == b && charsHavePre as bs

/-- Rust `str::contains`: does some suffix of `hay` start with `pat`? -/
def charsContain (pat : List Char) : List Char → Bool
  | [] => charsHavePre pat []
  | h :: t => charsHavePre pat (h :: t) || charsContain pat t

/-- `hay.contains(pat)` for strings (Rust substring containment). -/
def strContains (hay pat : String) : Bool :=
  charsContain pat.toList hay.toList

/-! ## Automaton data model (`src/mao/automaton.rs`, `src/mao/mao_action.rs`) -/

/-- `PlayerAction` from `src/mao/automaton.rs` (constructor order as in the
Rust source; the derived `Ord` there compares by declaration order). -/
inductive PlayerAction where
  | selectCard
  | selectPlayer
  | selectPlayableStack
  | selectDrawableStack
  | selectDiscardableStack
  | selectRule
  | doAction
  deriving DecidableEq, Repr

instance : Inhabited PlayerAction := ⟨.selectCard⟩

/-- Declaration index of a `PlayerAction` constructor (for the derived Rust `Ord`). -/
def PlayerAction.rank : PlayerAction → Nat
  | .selectCard => 0
  | .selectPlayer => 1
  | .selectPlayableStack => 2
  | .selectDrawableStack => 3
  | .selectDiscardableStack => 4
  | .selectRule => 5
  | .doAction => 6

/-- `IdString` from `src/mao/mao_action.rs`. -/
inductive IdString where
  | str (s : String)
  | idx (n : Nat)
  deriving DecidableEq, Repr

/-- `MaoInteraction` from `src/mao/mao_action.rs` (field order `data`, `action`
as in the Rust struct; the derived `Ord` compares fields in that order). -/
structure MaoInteraction where
  data : Option IdString
  action : PlayerAction
  deriving DecidableEq, Repr

instance : Inhabited MaoInteraction := ⟨⟨none, default⟩⟩

/-- `NodeState` from `src/mao/automaton.rs`; the handler function pointer
`func : Option<CallbackInteraction>` is modelled as an opaque tag. -/
structure NodeState where
  action : MaoInteraction
  rule : Option String
  func : Option Nat
  deriving DecidableEq, Repr

instance : Inhabited NodeState := ⟨⟨default, none, none⟩⟩

/-- Rust `PartialEq for NodeState`: compares `action` and `rule`, ignores `func`. -/
def NodeState.peq (a b : NodeState) : Bool :=
  a.action == b.action && a.rule == b.rule

/-- Rust derived `Ord` on `PlayerAction` (declaration order). -/
def paCompare (a b : PlayerAction) : Ordering := compare a.rank b.rank

/-- Rust derived `Ord` on `IdString` (`String` variant before `Index`). -/
def idStringCompare : IdString → IdString → Ordering
  | .str a, .str b => compare a b
  | .str _, .idx _ => .lt
  | .idx _, .str _ => .gt
  | .idx a, .idx b => compare a b

/-- Rust `Option` ordering: `None < Some`. -/
def optCompare (f : α → α → Ordering) : Option α → Option α → Ordering
  | none, none => .eq
  | none, some _ => .lt
  | some _, none => .gt
  | some a, some b => f a b

/-- Rust derived `Ord` on `MaoInteraction`: `data` then `action`. -/
def miCompare (a b : MaoInteraction) : Ordering :=
  (optCompare idStringCompare a.data b.data).then (paCompare a.action b.action)

/-- Rust `Ord for NodeState`: `(action, rule)` lexicographically. -/
def nsCompare (a b : NodeState) : Ordering :=
  (miCompare a.action b.action).then (optCompare compare a.rule b.rule)

/-- `indextree` arena node: payload, parent link, children (in insertion
order) and a removed flag.  `remove` detaches the node, so removed nodes
appear in no children list. -/
structure Node where
  state : NodeState
  parent : Option Nat
  children : List Nat
  removed : Bool
  deriving DecidableEq, Repr

/-- `Automaton` from `src/mao/automaton.rs`. -/
structure Automaton where
  arena : List Node
  current_state : Nat
  root : Nat
  previous_interactions : List MaoInteraction
  deriving DecidableEq, Repr

/-- `MaoInteractionResult` (handler function pointers as opaque tags; the
`Nodes` case carries the node payloads the Rust version returns by
reference). -/
inductive MaoInteractionResult where
  | noInteractionFound
  | leaf (interactions : List MaoInteraction) (func : Nat)
  | nodes (states : List NodeState)
  | advancedNextState
  deriving DecidableEq, Repr

/-- The `Error` variants of `src/error.rs` the embedded operations can raise. -/
inductive Err where
  | onMaoInteraction (msg : String)
  | ruleAlreadyActivated (rule_name : String)
  | ruleNotActivated (rule_name : String)
  | invalidRuleIndex (rule_index len : Nat)
  | invalidPlayerIndex (player_index len : Nat)
  | invalidStackIndex (stack_index len : Nat)
  | noStackAvailable
  | notEnoughCards
  deriving DecidableEq, Repr

/-- Outcome of a fallible Rust computation: `Ok`, `Err`, or a panic. -/
inductive Res (α : Type u) where
  | ok (a : α)
  | error (e : Err)
  | panicked
  deriving DecidableEq, Repr

/-- Sequencing of fallible computations (Rust `?` plus panic propagation). -/
def Res.bind : Res α → (α → Res β) → Res β
  | .ok a, f => f a
  | .error e, _ => .error e
  | .panicked, _ => .panicked

instance : Monad Res where
  pure := .ok
  bind := Res.bind

/-- `map` on fallible computations. -/
def Res.map (f : α → β) : Res α → Res β
  | .ok a => .ok (f a)
  | .error e => .error e
  | .panicked => .panicked

@[simp]
theorem Res.ok_bind (a : α) (f : α → Res β) : (Res.ok a >>= f) = f a := rfl

@[simp]
theorem Res.error_bind (e : Err) (f : α → Res β) :
    ((Res.error e : Res α) >>= f) = Res.error e := rfl

@[simp]
theorem Res.panicked_bind (f : α → Res β) :
    ((Res.panicked : Res α) >>= f) = Res.panicked := rfl

@[simp]
theorem Res.map_ok (f : α → β) (a : α) : Res.map f (Res.ok a) = Res.ok (f a) := rfl

namespace Automaton

/-- Payload of node `id` (arena lookup; ids are always valid in real runs). -/
def stateAt (a : Automaton) (id : Nat) : NodeState :=
  match a.arena.get? id with
  | some n => n.state
  | none => default

/-- Parent link of node `id`. -/
def parentOf (a : Automaton) (id : Nat) : Option Nat :=
  match a.arena.get? id with
  | some n => n.parent
  | none => none

/-- Is node `id` removed from the arena? -/
def isRemoved (a : Automaton) (id : Nat) : Bool :=
  match a.arena.get? id with
  | some n => n.removed
  | none => true

/-- `children_of`: live children of a node, in insertion order. -/
def childrenOf (a : Automaton) (id : Nat) : List Nat :=
  match a.arena.get? id with
  | some n => n.children.filter (fun c => ! isRemoved a c)
  | none => []

/-- `get_node_id_of`: first live child matching by token with no handler. -/
def getNodeIdOf (a : Automaton) (id : Nat) (action : PlayerAction) : Option Nat :=
  (childrenOf a id).find? (fun cid =>
    (stateAt a cid).action.action == action && (stateAt a cid).func == none)

/-- `get_node_id_from_children`: first live child equal to `ns` under the
Rust `PartialEq` for `NodeState` (token + payload + rule, handler ignored). -/
def getNodeIdFromChildren (a : Automaton) (id : Nat) (ns : NodeState) : Option Nat :=
  (childrenOf a id).find? (fun cid =>
    ! isRemoved a cid && NodeState.peq ns (stateAt a cid))

/-- `clear_path`: strip the `rule` tag from every non-final step. -/
def clearPath : List NodeState → List NodeState
  | [] => []
  | [x] => [x]
  | x :: xs => { x with rule := none } :: clearPath xs

/-- `verify_action_path` (the two `assert!`s): the last step has a handler,
no other step does.  `false` models the assertion panic. -/
def verifyActionPath (p : List NodeState) : Bool :=
  (match p.getLast? with
   | some v => v.func.isSome
   | none => false) &&
  p.dropLast.all (fun v => v.func == none)

/-- `convert_into_node_ids`, walking loop (root excluded from the result). -/
def convertGo (a : Automaton) (cur : Nat) : List NodeState → Option (List Nat)
  | [] => some []
  | ns :: rest =>
      match getNodeIdFromChildren a cur ns with
      | some nid => (convertGo a nid rest).map (nid :: ·)
      | none => none

/-- `convert_into_node_ids`. -/
def convertIntoNodeIds (a : Automaton) (path : List NodeState) : Option (List Nat) :=
  convertGo a a.root path

/-- `get_leaves`: live children holding a handler. -/
def getLeaves (a : Automaton) (id : Nat) : List Nat :=
  (childrenOf a id).filter (fun cid => (stateAt a cid).func.isSome)

/-- `NodeId::append_value`: allocate a node at the end of the arena and
record it as last child of `parent`.  Returns the new automaton and id. -/
def appendNode (a : Automaton) (parent : Nat) (st : NodeState) : Automaton × Nat :=
  let nid := a.arena.length
  match a.arena.get? parent with
  | some pn =>
      let arena1 := a.arena.set parent { pn with children := pn.children ++ [nid] }
      ({ a with arena := arena1 ++ [⟨st, some parent, [], false⟩] }, nid)
  | none => (a, nid)

/-- `insert_iter` walking phase over the non-final steps (reuse an existing
handler-less child by token, else create one carrying the step's payload). -/
def insertWalk (a : Automaton) (parent : Nat) : List NodeState → Automaton × Nat
  | [] => (a, parent)
  | d :: rest =>
      match getNodeIdOf a parent d.action.action with
      | some par => insertWalk a par rest
      | none =>
          let p := appendNode a parent ⟨d.action, none, d.func⟩
          insertWalk p.1 p.2 rest

/-- `insert_iter`: `none` models the `panic!` on inserting a duplicate leaf. -/
def insertIter (a : Automaton) (datas : List NodeState) : Option Automaton :=
  match datas.getLast? with
  | none => some a
  | some last =>
      let w := insertWalk a a.root datas.dropLast
      let leaves := (getLeaves w.1 w.2).map (fun cid => stateAt w.1 cid)
      if leaves.any (fun s => NodeState.peq s last) then none
      else some (appendNode w.1 w.2 last).1

/-- The automaton `FromIterator` builds before inserting anything: a lone
synthetic root (default `NodeState`, no handler), cursor at root. -/
def empty : Automaton :=
  { arena := [⟨default, none, [], false⟩]
    current_state := 0
    root := 0
    previous_interactions := [] }

/-- One `FromIterator`/`Extend` step: assert the path's shape, strip the
non-final rule tags, insert. -/
def insertChecked (a : Automaton) (p : List NodeState) : Option Automaton :=
  if verifyActionPath p then insertIter a (clearPath p) else none

/-- `Extend for Automaton`. -/
def extend (a : Automaton) (paths : List (List NodeState)) : Option Automaton :=
  paths.foldlM insertChecked a

/-- `FromIterator for Automaton`. -/
def fromIter (paths : List (List NodeState)) : Option Automaton :=
  extend empty paths

/-- `NodeId::remove`: mark removed, detach from the parent's child list. -/
def removeNode (a : Automaton) (nid : Nat) : Automaton :=
  match a.arena.get? nid with
  | none => a
  | some n =>
      let arena1 := a.arena.set nid { n with removed := true, parent := none }
      match n.parent with
      | none => { a with arena := arena1 }
      | some pid =>
          match arena1.get? pid with
          | some pn =>
              { a with arena := arena1.set pid { pn with children := pn.children.erase nid } }
          | none => { a with arena := arena1 }

/-- The leaf-upward pruning loop of `remove_paths` (ids already reversed):
delete each node of the chain that has no remaining live children. -/
def removeChain (a : Automaton) (ids : List Nat) : Automaton :=
  ids.foldl (fun acc nid =>
    if (childrenOf acc nid).isEmpty then removeNode acc nid else acc) a

/-- `remove_paths` for a single path. -/
def removeOnePath (a : Automaton) (p : List NodeState) : Option Automaton :=
  if p.isEmpty then some a
  else
    let cp := clearPath p
    if verifyActionPath cp then
      match convertIntoNodeIds a cp with
      | some ids => some (removeChain a ids.reverse)
      | none => some a
    else none

/-- `remove_paths`. -/
def removePaths (a : Automaton) (paths : List (List NodeState)) : Option Automaton :=
  paths.foldlM removeOnePath a

/-- `reset`: cursor back to root, previous interactions cleared. -/
def reset (a : Automaton) : Automaton :=
  { a with current_state := a.root, previous_interactions := [] }

/-- Ancestor chain `[id, parent, …, root]` (fuelled parent walk; the fuel
`arena.length` is enough for every acyclic arena). -/
def ancestorsGo (a : Automaton) : Nat → Nat → List Nat
  | 0, id => [id]
  | fuel + 1, id =>
      id :: (match parentOf a id with
             | some p => ancestorsGo a fuel p
             | none => [])

/-- `ancestors` from the cursor. -/
def ancestorIds (a : Automaton) : List Nat :=
  ancestorsGo a a.arena.length a.current_state

/-- `get_executed_actions`: ancestors of the cursor, root popped, reversed. -/
def getExecutedActions (a : Automaton) : List NodeState :=
  ((ancestorIds a).map (stateAt a)).dropLast.reverse

/-- `search_type`: live children of the cursor matching by token. -/
def searchType (a : Automaton) (action : PlayerAction) : List Nat :=
  (childrenOf a a.current_state).filter (fun cid =>
    (stateAt a cid).action.action == action)

/-- `put_node_at_end`: swap the first handler-less candidate to the end. -/
def putNodeAtEnd (ns : List NodeState) : List NodeState :=
  match ns.findIdx? (fun v => v.func == none) with
  | none => ns
  | some i =>
      let j := ns.length - 1
      match ns.get? i, ns.get? j with
      | some x, some y => (ns.set i y).set j x
      | _, _ => ns

/-- Store a committed step's payload on a node (`…action.data = interaction.data`). -/
def setDataAt (a : Automaton) (id : Nat) (d : Option IdString) : Automaton :=
  match a.arena.get? id with
  | some n => { a with arena := a.arena.set id { n with state := { n.state with action := { n.state.action with data := d } } } }
  | none => a

/-- `on_action`. -/
def onAction (a : Automaton) (interaction : MaoInteraction) :
    Automaton × MaoInteractionResult :=
  let nodes := searchType a interaction.action
  match nodes with
  | [] => (a, .noInteractionFound)
  | [nid] =>
      match (stateAt a nid).func with
      | some f =>
          let interactions := (getExecutedActions a).map (·.action) ++ [interaction]
          let a2 := { reset a with previous_interactions := interactions }
          (a2, .leaf interactions f)
      | none =>
          let a2 := setDataAt { a with current_state := nid } nid interaction.data
          (a2, .advancedNextState)
  | _ :: _ :: _ =>
      (a, .nodes (putNodeAtEnd (nodes.map (stateAt a))))

/-- `on_action_indexed`.  Note that in the non-`Nodes` cases the mutation an
inner `on_action` call performed is kept even though an error is returned,
exactly as in the Rust source. -/
def onActionIndexed (a : Automaton) (interaction : MaoInteraction) (index : Nat) :
    Automaton × Res MaoInteractionResult :=
  let p := onAction a interaction
  match p.2 with
  | .nodes ns =>
      match ns.get? index with
      | some node =>
          match node.func with
          | some f =>
              let interactions := (getExecutedActions p.1).map (·.action) ++ [interaction]
              let a2 := { reset p.1 with previous_interactions := interactions }
              (a2, .ok (.leaf interactions f))
          | none =>
              match getNodeIdOf p.1 p.1.current_state interaction.action with
              | some nid =>
                  let a2 := setDataAt { p.1 with current_state := nid } nid interaction.data
                  (a2, .ok .advancedNextState)
              | none => (p.1, .panicked)
      | none =>
          (p.1, .error (.onMaoInteraction "Invalid index when retrieving action"))
  | _ => (p.1, .error (.onMaoInteraction "Provided index does not lead to multiple nodes"))

/-- `cancel_last`: move the cursor to its parent unless already at the root;
returns the state that was cancelled. -/
def cancelLast (a : Automaton) : Automaton × Option NodeState :=
  match parentOf a a.current_state with
  | some p => ({ a with current_state := p }, some (stateAt a a.current_state))
  | none => (a, none)

/-- Comparator used by `same_node`'s `sort_by` (Rust `Ord for NodeState`). -/
def nsLe (x y : Nat × NodeState) : Bool :=
  nsCompare x.2 y.2 != Ordering.gt

/-- `same_node`: order-independent recursive structural comparison.  The
fuel argument bounds the recursion depth; every acyclic arena is compared
exactly when given fuel exceeding its depth. -/
def sameNode (x y : Automaton) : Nat → Nat → Nat → Bool
  | 0, _, _ => false
  | fuel + 1, i, j =>
      let xs := childrenOf x i
      let ys := childrenOf y j
      if xs.length != ys.length then false
      else
        let xp := (xs.map (fun c => (c, stateAt x c))).mergeSort nsLe
        let yp := (ys.map (fun c => (c, stateAt y c))).mergeSort nsLe
        (xp.zip yp).all (fun q =>
          (q.1.2.func.isSome == q.2.2.func.isSome) &&
          (if q.1.2.func.isSome then NodeState.peq q.1.2 q.2.2
           else q.1.2.action == q.2.2.action) &&
          sameNode x y fuel q.1.1 q.2.1)

/-- `PartialEq for Automaton`: `same_node` from the two roots (fuel chosen
larger than any possible depth of either arena). -/
def beqAut (x y : Automaton) : Bool :=
  sameNode x y (x.arena.length + y.arena.length + 1) x.root y.root

/-! ### Arena well-formedness and the cursor invariant -/

/-- Raw (unfiltered) children list of node `i`. -/
def childrenAt (a : Automaton) (i : Nat) : List Nat :=
  match a.arena.get? i with
  | some n => n.children
  | none => []

/-- Reachability from the root along live child links. -/
inductive NodeReach (a : Automaton) : Nat → Prop where
  | root : NodeReach a a.root
  | step {p c : Nat} : NodeReach a p → c ∈ childrenOf a p → NodeReach a c

/-- Arena well-formedness: the shape every automaton built and maintained
by the embedded operations has. -/
structure AutWF (a : Automaton) : Prop where
  root_live : isRemoved a a.root = false
  root_parent : parentOf a a.root = none
  root_not_child : ∀ i, a.root ∉ childrenAt a i
  child_parent : ∀ i c, c ∈ childrenAt a i → parentOf a c = some i
  child_bounds : ∀ i c, c ∈ childrenAt a i → c < a.arena.length ∧ i < c
  children_nodup : ∀ i, (childrenAt a i).Nodup
  parent_lt : ∀ c p, parentOf a c = some p → p < c

/-- The claimed cursor invariant: the current state is a live node
reachable from the root. -/
structure CursorOk (a : Automaton) : Prop where
  live : isRemoved a a.current_state = false
  reach : NodeReach a a.current_state

theorem isRemoved_false_lt {a : Automaton} {i : Nat}
    (h : isRemoved a i = false) : i < a.arena.length := by
  by_contra hge
  have hn : a.arena[i]? = none := List.getElem?_eq_none (by omega)
  simp [isRemoved, List.get?_eq_getElem?, hn] at h

theorem childrenOf_subset_childrenAt {a : Automaton} {i c : Nat}
    (h : c ∈ childrenOf a i) : c ∈ childrenAt a i := by
  unfold childrenOf childrenAt at *
  cases hg : a.arena[i]? with
  | none => simp [List.get?_eq_getElem?, hg] at h
  | some n =>
      simp [List.get?_eq_getElem?, hg] at h ⊢
      exact h.1

theorem childrenOf_live {a : Automaton} {i c : Nat}
    (h : c ∈ childrenOf a i) : isRemoved a c = false := by
  unfold childrenOf at h
  cases hg : a.arena[i]? with
  | none => simp [List.get?_eq_getElem?, hg] at h
  | some n =>
      simp only [List.get?_eq_getElem?, hg] at h
      have := (List.mem_filter.mp h).2
      simpa using this

theorem nodeReach_live {a : Automaton} (wf : AutWF a) {i : Nat}
    (h : NodeReach a i) : isRemoved a i = false := by
  induction h with
  | root => exact wf.root_live
  | step _ hc _ => exact childrenOf_live hc

/-- Transfer of reachability to an automaton with the same root whose live
child relation contains the original one. -/
theorem nodeReach_mono {x y : Automaton} (hroot : y.root = x.root)
    (hch : ∀ j c, c ∈ childrenOf x j → c ∈ childrenOf y j) {n : Nat}
    (h : NodeReach x n) : NodeReach y n := by
  induction h with
  | root => rw [← hroot]; exact NodeReach.root
  | step _ hc ih => exact NodeReach.step ih (hch _ _ hc)

theorem lt_of_getElem?_some {α : Type u} {l : List α} {i : Nat} {x : α}
    (h : l[i]? = some x) : i < l.length := by
  by_contra hge
  rw [List.getElem?_eq_none (by omega)] at h
  cases h

theorem childrenOf_eq_filter (a : Automaton) (j : Nat) :
    childrenOf a j = (childrenAt a j).filter (fun c => ! isRemoved a c) := by
  unfold childrenOf childrenAt
  cases hg : a.arena[j]? <;> simp [List.get?_eq_getElem?, hg]

/-- Two automata with the same root, cursor and arena skeleton (children,
parents, removed flags, length): everything the invariants mention. -/
structure SkelEq (x y : Automaton) : Prop where
  root_eq : x.root = y.root
  cur_eq : x.current_state = y.current_state
  len_eq : x.arena.length = y.arena.length
  ch_eq : ∀ j, childrenAt x j = childrenAt y j
  par_eq : ∀ j, parentOf x j = parentOf y j
  rem_eq : ∀ j, isRemoved x j = isRemoved y j

theorem SkelEq.childrenOf_eq {x y : Automaton} (h : SkelEq x y) (j : Nat) :
    childrenOf x j = childrenOf y j := by
  rw [childrenOf_eq_filter, childrenOf_eq_filter, h.ch_eq j]
  apply List.filter_congr
  intro c _
  rw [h.rem_eq c]

theorem SkelEq.autWF {x y : Automaton} (h : SkelEq x y) (wf : AutWF x) : AutWF y where
  root_live := by rw [← h.rem_eq, ← h.root_eq]; exact wf.root_live
  root_parent := by rw [← h.par_eq, ← h.root_eq]; exact wf.root_parent
  root_not_child := fun i => by
    rw [← h.ch_eq i, ← h.root_eq]; exact wf.root_not_child i
  child_parent := fun i c hc => by
    rw [← h.par_eq]
    exact wf.child_parent i c (by rw [h.ch_eq i]; exact hc)
  child_bounds := fun i c hc => by
    rw [← h.len_eq]
    exact wf.child_bounds i c (by rw [h.ch_eq i]; exact hc)
  children_nodup := fun i => by rw [← h.ch_eq i]; exact wf.children_nodup i
  parent_lt := fun c p hp => wf.parent_lt c p (by rw [h.par_eq]; exact hp)

theorem SkelEq.nodeReach {x y : Automaton} (h : SkelEq x y) {n : Nat}
    (hr : NodeReach x n) : NodeReach y n :=
  nodeReach_mono h.root_eq.symm (fun j c hc => by rw [← h.childrenOf_eq j]; exact hc) hr

theorem SkelEq.cursorOk {x y : Automaton} (h : SkelEq x y) (c : CursorOk x) :
    CursorOk y where
  live := by rw [← h.rem_eq, ← h.cur_eq]; exact c.live
  reach := by rw [← h.cur_eq]; exact h.nodeReach c.reach

theorem nodeAt_setDataAt (a : Automaton) (i : Nat) (d : Option IdString) (j : Nat) :
    (setDataAt a i d).arena[j]? =
      if j = i then
        (a.arena[i]?).map (fun n =>
          { n with state := { n.state with action := { n.state.action with data := d } } })
      else a.arena[j]? := by
  unfold setDataAt
  cases hg : a.arena[i]? with
  | none =>
      simp only [List.get?_eq_getElem?, hg, Option.map_none]
      split <;> simp_all
  | some n =>
      have hlt := lt_of_getElem?_some hg
      simp only [List.get?_eq_getElem?, hg, Option.map_some, List.getElem?_set]
      by_cases hji : j = i
      · subst hji; simp [hlt]
      · simp [hji, Ne.symm hji]

theorem skelEq_setDataAt (a : Automaton) (i : Nat) (d : Option IdString) :
    SkelEq (setDataAt a i d) a where
  root_eq := by unfold setDataAt; cases a.arena.get? i <;> rfl
  cur_eq := by unfold setDataAt; cases a.arena.get? i <;> rfl
  len_eq := by
    unfold setDataAt; cases a.arena.get? i <;> simp
  ch_eq := fun j => by
    unfold childrenAt
    rw [List.get?_eq_getElem?, List.get?_eq_getElem?, nodeAt_setDataAt]
    by_cases hji : j = i
    · subst hji; simp only [if_pos rfl]; cases a.arena[j]? <;> rfl
    · simp only [if_neg hji]
  par_eq := fun j => by
    unfold parentOf
    rw [List.get?_eq_getElem?, List.get?_eq_getElem?, nodeAt_setDataAt]
    by_cases hji : j = i
    · subst hji; simp only [if_pos rfl]; cases a.arena[j]? <;> rfl
    · simp only [if_neg hji]
  rem_eq := fun j => by
    unfold isRemoved
    rw [List.get?_eq_getElem?, List.get?_eq_getElem?, nodeAt_setDataAt]
    by_cases hji : j = i
    · subst hji; simp only [if_pos rfl]; cases a.arena[j]? <;> rfl
    · simp only [if_neg hji]

theorem appendNode_snd (a : Automaton) (parent : Nat) (st : NodeState) :
    (appendNode a parent st).2 = a.arena.length := by
  unfold appendNode
  cases a.arena.get? parent <;> rfl

theorem appendNode_root (a : Automaton) (parent : Nat) (st : NodeState) :
    (appendNode a parent st).1.root = a.root := by
  unfold appendNode
  cases a.arena.get? parent <;> rfl

theorem appendNode_cur (a : Automaton) (parent : Nat) (st : NodeState) :
    (appendNode a parent st).1.current_state = a.current_state := by
  unfold appendNode
  cases a.arena.get? parent <;> rfl

theorem appendNode_length {a : Automaton} {parent : Nat} {pn : Node}
    (hg : a.arena[parent]? = some pn) (st : NodeState) :
    (appendNode a parent st).1.arena.length = a.arena.length + 1 := by
  unfold appendNode
  simp [List.get?_eq_getElem?, hg]

theorem nodeAt_appendNode {a : Automaton} {parent : Nat} {pn : Node}
    (hg : a.arena[parent]? = some pn) (st : NodeState) (j : Nat) :
    (appendNode a parent st).1.arena[j]? =
      if j = a.arena.length then some ⟨st, some parent, [], false⟩
      else if j = parent then
        some { pn with children := pn.children ++ [a.arena.length] }
      else a.arena[j]? := by
  have hplt := lt_of_getElem?_some hg
  unfold appendNode
  simp only [List.get?_eq_getElem?, hg]
  rw [List.getElem?_append]
  by_cases hjl : j = a.arena.length
  · subst hjl
    simp [List.length_set]
  · by_cases hjp : j = parent
    · subst hjp
      simp [List.length_set, hplt, List.getElem?_set, hjl]
    · rw [List.length_set]
      by_cases hlt : j < a.arena.length
      · simp only [if_pos hlt, if_neg hjl, if_neg hjp]
        rw [List.getElem?_set]
        rw [if_neg (show ¬ parent = j from fun h => hjp h.symm)]
      · simp only [if_neg hlt, if_neg hjl, if_neg hjp]
        have h1 : a.arena[j]? = none := List.getElem?_eq_none (by omega)
        have h2 : j - a.arena.length ≥ 1 := by omega
        rw [h1]
        cases hd : j - a.arena.length with
        | zero => omega
        | succ k => simp

theorem childrenAt_appendNode {a : Automaton} {parent : Nat} {pn : Node}
    (hg : a.arena[parent]? = some pn) (st : NodeState) (j : Nat) :
    childrenAt (appendNode a parent st).1 j =
      if j = a.arena.length then []
      else if j = parent then childrenAt a parent ++ [a.arena.length]
      else childrenAt a j := by
  unfold childrenAt
  rw [List.get?_eq_getElem?, nodeAt_appendNode hg]
  by_cases hjl : j = a.arena.length
  · simp [hjl]
  · by_cases hjp : j = parent
    · subst hjp
      simp [hjl, List.get?_eq_getElem?, hg]
    · simp [hjl, hjp, List.get?_eq_getElem?]

theorem parentOf_appendNode {a : Automaton} {parent : Nat} {pn : Node}
    (hg : a.arena[parent]? = some pn) (st : NodeState) (j : Nat) :
    parentOf (appendNode a parent st).1 j =
      if j = a.arena.length then some parent else parentOf a j := by
  unfold parentOf
  rw [List.get?_eq_getElem?, nodeAt_appendNode hg]
  by_cases hjl : j = a.arena.length
  · simp [hjl]
  · by_cases hjp : j = parent
    · subst hjp
      simp [hjl, List.get?_eq_getElem?, hg]
    · simp [hjl, hjp, List.get?_eq_getElem?]

theorem isRemoved_appendNode {a : Automaton} {parent : Nat} {pn : Node}
    (hg : a.arena[parent]? = some pn) (st : NodeState) (j : Nat) :
    isRemoved (appendNode a parent st).1 j =
      if j = a.arena.length then false else isRemoved a j := by
  unfold isRemoved
  rw [List.get?_eq_getElem?, nodeAt_appendNode hg]
  by_cases hjl : j = a.arena.length
  · simp [hjl]
  · by_cases hjp : j = parent
    · subst hjp
      simp [hjl, List.get?_eq_getElem?, hg]
    · simp [hjl, hjp, List.get?_eq_getElem?]

theorem isRemoved_false_of_mem_childrenAt {a : Automaton} (wf : AutWF a)
    {i c : Nat} (hc : c ∈ childrenAt a i) : c < a.arena.length :=
  (wf.child_bounds i c hc).1

theorem autWF_appendNode {a : Automaton} {parent : Nat} {pn : Node}
    (wf : AutWF a) (hg : a.arena[parent]? = some pn)
    (hlive : isRemoved a parent = false) (st : NodeState) :
    AutWF (appendNode a parent st).1 := by
  have hplt := lt_of_getElem?_some hg
  have hrl : a.root < a.arena.length := isRemoved_false_lt wf.root_live
  refine ⟨?_, ?_, ?_, ?_, ?_, ?_, ?_⟩
  · rw [appendNode_root, isRemoved_appendNode hg]
    simp only [if_neg (by omega : ¬ a.root = a.arena.length)]
    exact wf.root_live
  · rw [appendNode_root, parentOf_appendNode hg]
    simp only [if_neg (by omega : ¬ a.root = a.arena.length)]
    exact wf.root_parent
  · intro i
    rw [appendNode_root, childrenAt_appendNode hg]
    by_cases h1 : i = a.arena.length
    · simp [h1]
    · by_cases h2 : i = parent
      · simp only [if_neg h1, if_pos h2]
        intro hmem
        rcases List.mem_append.mp hmem with hmem | hmem
        · exact wf.root_not_child parent hmem
        · simp at hmem
          omega
      · simp only [if_neg h1, if_neg h2]
        exact wf.root_not_child i
  · intro i c hc
    rw [childrenAt_appendNode hg] at hc
    rw [parentOf_appendNode hg]
    by_cases h1 : i = a.arena.length
    · simp [h1] at hc
    · by_cases h2 : i = parent
      · subst h2
        simp only [if_neg h1, if_pos rfl] at hc
        rcases List.mem_append.mp hc with hc | hc
        · have hb := wf.child_bounds i c hc
          rw [if_neg (by omega)]
          exact wf.child_parent i c hc
        · simp at hc
          subst hc
          simp
      · simp only [if_neg h1, if_neg h2] at hc
        have hb := wf.child_bounds i c hc
        rw [if_neg (by omega)]
        exact wf.child_parent i c hc
  · intro i c hc
    rw [childrenAt_appendNode hg] at hc
    rw [appendNode_length hg]
    by_cases h1 : i = a.arena.length
    · simp [h1] at hc
    · by_cases h2 : i = parent
      · subst h2
        simp only [if_neg h1, if_pos rfl] at hc
        rcases List.mem_append.mp hc with hc | hc
        · have hb := wf.child_bounds i c hc
          omega
        · simp at hc
          omega
      · simp only [if_neg h1, if_neg h2] at hc
        have hb := wf.child_bounds i c hc
        omega
  · intro i
    rw [childrenAt_appendNode hg]
    by_cases h1 : i = a.arena.length
    · simp [h1]
    · by_cases h2 : i = parent
      · simp only [if_neg h1, if_pos h2]
        subst h2
        refine List.Nodup.append (wf.children_nodup i) (by simp) ?_
        intro x hx hx2
        simp only [List.mem_singleton] at hx2
        subst hx2
        have hb := wf.child_bounds i _ hx
        omega
      · simp only [if_neg h1, if_neg h2]
        exact wf.children_nodup i
  · intro c p hp
    rw [parentOf_appendNode hg] at hp
    by_cases h1 : c = a.arena.length
    · rw [if_pos h1] at hp
      cases hp
      omega
    · rw [if_neg h1] at hp
      exact wf.parent_lt c p hp

theorem childrenOf_appendNode_mono {a : Automaton} {parent : Nat} {pn : Node}
    (hg : a.arena[parent]? = some pn) (st : NodeState) {j c : Nat}
    (hc : c ∈ childrenOf a j) : c ∈ childrenOf (appendNode a parent st).1 j := by
  have hca := childrenOf_subset_childrenAt hc
  have hcl := childrenOf_live hc
  have hclt : c < a.arena.length := isRemoved_false_lt hcl
  have hja : a.arena[j]? ≠ none := by
    intro hn
    unfold childrenAt at hca
    simp [List.get?_eq_getElem?, hn] at hca
  have hjlt : j < a.arena.length := by
    by_contra hge
    exact hja (List.getElem?_eq_none (by omega))
  rw [childrenOf_eq_filter] at hc ⊢
  rw [childrenAt_appendNode hg]
  have hrem : isRemoved (appendNode a parent st).1 c = isRemoved a c := by
    rw [isRemoved_appendNode hg]
    rw [if_neg (by omega)]
  by_cases h2 : j = parent
  · subst h2
    rw [if_neg (by omega), if_pos rfl]
    rw [List.filter_append]
    apply List.mem_append_left
    rw [List.mem_filter] at hc ⊢
    exact ⟨hc.1, by rw [hrem]; exact hc.2⟩
  · rw [if_neg (by omega), if_neg h2]
    rw [List.mem_filter] at hc ⊢
    exact ⟨hc.1, by rw [hrem]; exact hc.2⟩

theorem isRemoved_appendNode_mono {a : Automaton} {parent : Nat} {pn : Node}
    (hg : a.arena[parent]? = some pn) (st : NodeState) {j : Nat}
    (hl : isRemoved a j = false) : isRemoved (appendNode a parent st).1 j = false := by
  have := isRemoved_false_lt hl
  rw [isRemoved_appendNode hg, if_neg (by omega)]
  exact hl

theorem removeNode_of_none {a : Automaton} {nid : Nat}
    (hn : a.arena[nid]? = none) : removeNode a nid = a := by
  unfold removeNode
  simp [List.get?_eq_getElem?, hn]

theorem removeNode_root (a : Automaton) (nid : Nat) :
    (removeNode a nid).root = a.root := by
  unfold removeNode
  split
  · rfl
  · split
    · rfl
    · dsimp only
      split <;> rfl

theorem removeNode_cur (a : Automaton) (nid : Nat) :
    (removeNode a nid).current_state = a.current_state := by
  unfold removeNode
  split
  · rfl
  · split
    · rfl
    · dsimp only
      split <;> rfl

theorem removeNode_length (a : Automaton) (nid : Nat) :
    (removeNode a nid).arena.length = a.arena.length := by
  unfold removeNode
  split
  · rfl
  · split
    · simp
    · dsimp only
      split <;> simp

theorem nodeAt_removeNode {a : Automaton} {nid : Nat} {n : Node}
    (hn : a.arena[nid]? = some n)
    (hne : ∀ pid, n.parent = some pid → pid ≠ nid) (j : Nat) :
    (removeNode a nid).arena[j]? =
      if j = nid then some { n with removed := true, parent := none }
      else
        match n.parent with
        | some pid =>
            if j = pid then
              (a.arena[pid]?).map (fun pn => { pn with children := pn.children.erase nid })
            else a.arena[j]?
        | none => a.arena[j]? := by
  have hlt := lt_of_getElem?_some hn
  unfold removeNode
  simp only [List.get?_eq_getElem?, hn]
  cases hp : n.parent with
  | none =>
      dsimp only
      rw [List.getElem?_set]
      by_cases hj : j = nid
      · subst hj
        rw [if_pos rfl, if_pos rfl, if_pos hlt]
      · rw [if_neg (fun h => hj h.symm), if_neg hj]
  | some pid =>
      have hpne : pid ≠ nid := hne pid hp
      dsimp only
      have h1 : (a.arena.set nid
          { n with removed := true, parent := none })[pid]? = a.arena[pid]? :=
        List.getElem?_set_ne (fun h => hpne h.symm)
      rw [h1]
      cases hg2 : a.arena[pid]? with
      | none =>
          dsimp only
          rw [List.getElem?_set]
          by_cases hj : j = nid
          · subst hj
            rw [if_pos rfl, if_pos rfl, if_pos hlt]
          · rw [if_neg (fun h => hj h.symm), if_neg hj]
            by_cases hj2 : j = pid
            · subst hj2
              rw [if_pos rfl, hg2]
              rfl
            · rw [if_neg hj2]
      | some pn =>
          have hplt := lt_of_getElem?_some hg2
          dsimp only
          rw [List.getElem?_set, List.getElem?_set, List.length_set]
          by_cases hj2 : j = pid
          · subst hj2
            rw [if_pos rfl, if_pos hplt, if_neg (fun h => hpne (h : j = nid)), hg2]
            simp
          · rw [if_neg (fun h => hj2 h.symm)]
            by_cases hj : j = nid
            · subst hj
              rw [if_pos rfl, if_pos rfl, if_pos hlt]
            · rw [if_neg (fun h => hj h.symm), if_neg hj, if_neg hj2]

theorem childrenAt_eq_of_nodeAt {a : Automaton} {i : Nat} {n : Node}
    (h : a.arena[i]? = some n) : childrenAt a i = n.children := by
  unfold childrenAt
  simp [List.get?_eq_getElem?, h]

theorem parentOf_eq_of_nodeAt {a : Automaton} {i : Nat} {n : Node}
    (h : a.arena[i]? = some n) : parentOf a i = n.parent := by
  unfold parentOf
  simp [List.get?_eq_getElem?, h]

theorem isRemoved_removeNode {a : Automaton} {nid : Nat} {n : Node}
    (hn : a.arena[nid]? = some n)
    (hne : ∀ pid, n.parent = some pid → pid ≠ nid) (j : Nat) :
    isRemoved (removeNode a nid) j = if j = nid then true else isRemoved a j := by
  unfold isRemoved
  rw [List.get?_eq_getElem?, List.get?_eq_getElem?, nodeAt_removeNode hn hne]
  by_cases hj : j = nid
  · simp [hj]
  · rw [if_neg hj, if_neg hj]
    cases hp : n.parent with
    | none => rfl
    | some pid =>
        dsimp only
        by_cases hj2 : j = pid
        · subst hj2
          rw [if_pos rfl]
          cases a.arena[j]? <;> rfl
        · rw [if_neg hj2]

theorem parentOf_removeNode {a : Automaton} {nid : Nat} {n : Node}
    (hn : a.arena[nid]? = some n)
    (hne : ∀ pid, n.parent = some pid → pid ≠ nid) (j : Nat) :
    parentOf (removeNode a nid) j = if j = nid then none else parentOf a j := by
  unfold parentOf
  rw [List.get?_eq_getElem?, List.get?_eq_getElem?, nodeAt_removeNode hn hne]
  by_cases hj : j = nid
  · simp [hj]
  · rw [if_neg hj, if_neg hj]
    cases hp : n.parent with
    | none => rfl
    | some pid =>
        dsimp only
        by_cases hj2 : j = pid
        · subst hj2
          rw [if_pos rfl]
          cases a.arena[j]? <;> rfl
        · rw [if_neg hj2]

theorem childrenAt_removeNode {a : Automaton} {nid : Nat} {n : Node}
    (hn : a.arena[nid]? = some n)
    (hne : ∀ pid, n.parent = some pid → pid ≠ nid) (j : Nat) :
    childrenAt (removeNode a nid) j =
      if j = nid then n.children
      else
        match n.parent with
        | some pid => if j = pid then (childrenAt a j).erase nid else childrenAt a j
        | none => childrenAt a j := by
  unfold childrenAt
  rw [List.get?_eq_getElem?, List.get?_eq_getElem?, nodeAt_removeNode hn hne]
  by_cases hj : j = nid
  · simp [hj]
  · rw [if_neg hj, if_neg hj]
    cases hp : n.parent with
    | none => rfl
    | some pid =>
        dsimp only
        by_cases hj2 : j = pid
        · subst hj2
          rw [if_pos rfl, if_pos rfl]
          cases a.arena[j]? <;> simp
        · rw [if_neg hj2, if_neg hj2]

theorem autWF_removeNode {a : Automaton} (wf : AutWF a) {nid : Nat}
    (hnr : nid ≠ a.root) : AutWF (removeNode a nid) := by
  cases hg : a.arena[nid]? with
  | none => rw [removeNode_of_none hg]; exact wf
  | some n =>
      have hne : ∀ pid, n.parent = some pid → pid ≠ nid := by
        intro pid hp
        have hpo : parentOf a nid = some pid := by
          rw [parentOf_eq_of_nodeAt hg, hp]
        have := wf.parent_lt nid pid hpo
        omega
      have hchn : childrenAt a nid = n.children := childrenAt_eq_of_nodeAt hg
      have hrootne : ¬ a.root = nid := fun h => hnr h.symm
      refine ⟨?_, ?_, ?_, ?_, ?_, ?_, ?_⟩
      · rw [removeNode_root, isRemoved_removeNode hg hne, if_neg hrootne]
        exact wf.root_live
      · rw [removeNode_root, parentOf_removeNode hg hne, if_neg hrootne]
        exact wf.root_parent
      · intro i
        rw [removeNode_root, childrenAt_removeNode hg hne]
        by_cases hj : i = nid
        · rw [if_pos hj, ← hchn]
          exact wf.root_not_child nid
        · rw [if_neg hj]
          cases hp : n.parent with
          | none => exact wf.root_not_child i
          | some pid =>
              dsimp only
              by_cases hj2 : i = pid
              · rw [if_pos hj2]
                intro hmem
                exact wf.root_not_child i (List.erase_subset _ _ hmem)
              · rw [if_neg hj2]
                exact wf.root_not_child i
      · intro i c hc
        rw [childrenAt_removeNode hg hne] at hc
        rw [parentOf_removeNode hg hne]
        by_cases hj : i = nid
        · rw [if_pos hj] at hc
          subst hj
          rw [← hchn] at hc
          have hb := wf.child_bounds i c hc
          rw [if_neg (by omega)]
          exact wf.child_parent i c hc
        · rw [if_neg hj] at hc
          cases hp : n.parent with
          | none =>
              rw [hp] at hc
              dsimp only at hc
              have hcp := wf.child_parent i c hc
              have hcnid : ¬ c = nid := by
                intro h
                subst h
                rw [parentOf_eq_of_nodeAt hg, hp] at hcp
                cases hcp
              rw [if_neg hcnid]
              exact hcp
          | some pid =>
              rw [hp] at hc
              dsimp only at hc
              by_cases hj2 : i = pid
              · subst hj2
                rw [if_pos rfl] at hc
                have hcmem : c ∈ childrenAt a i :=
                  List.erase_subset _ _ hc
                have hcne : c ≠ nid :=
                  ((List.Nodup.mem_erase_iff (wf.children_nodup i)).mp hc).1
                rw [if_neg hcne]
                exact wf.child_parent i c hcmem
              · rw [if_neg hj2] at hc
                have hcp := wf.child_parent i c hc
                have hcnid : ¬ c = nid := by
                  intro h
                  subst h
                  rw [parentOf_eq_of_nodeAt hg, hp] at hcp
                  cases hcp
                  exact hj2 rfl
                rw [if_neg hcnid]
                exact hcp
      · intro i c hc
        rw [childrenAt_removeNode hg hne] at hc
        rw [removeNode_length]
        by_cases hj : i = nid
        · rw [if_pos hj] at hc
          subst hj
          rw [← hchn] at hc
          exact wf.child_bounds i c hc
        · rw [if_neg hj] at hc
          cases hp : n.parent with
          | none =>
              rw [hp] at hc
              dsimp only at hc
              exact wf.child_bounds i c hc
          | some pid =>
              rw [hp] at hc
              dsimp only at hc
              by_cases hj2 : i = pid
              · rw [if_pos hj2] at hc
                exact wf.child_bounds i c (List.erase_subset _ _ hc)
              · rw [if_neg hj2] at hc
                exact wf.child_bounds i c hc
      · intro i
        rw [childrenAt_removeNode hg hne]
        by_cases hj : i = nid
        · rw [if_pos hj, ← hchn]
          exact wf.children_nodup nid
        · rw [if_neg hj]
          cases hp : n.parent with
          | none => exact wf.children_nodup i
          | some pid =>
              dsimp only
              by_cases hj2 : i = pid
              · rw [if_pos hj2]
                exact List.Nodup.erase nid (wf.children_nodup i)
              · rw [if_neg hj2]
                exact wf.children_nodup i
      · intro c p hp
        rw [parentOf_removeNode hg hne] at hp
        by_cases hj : c = nid
        · rw [if_pos hj] at hp
          cases hp
        · rw [if_neg hj] at hp
          exact wf.parent_lt c p hp

theorem removeChain_cons (a : Automaton) (id : Nat) (rest : List Nat) :
    removeChain a (id :: rest) =
      removeChain (if (childrenOf a id).isEmpty then removeNode a id else a) rest := rfl

theorem removeChain_root (ids : List Nat) (a : Automaton) :
    (removeChain a ids).root = a.root := by
  induction ids generalizing a with
  | nil => rfl
  | cons id rest ih =>
      rw [removeChain_cons]
      by_cases hemp : (childrenOf a id).isEmpty
      · rw [if_pos hemp, ih, removeNode_root]
      · rw [if_neg hemp, ih]

theorem removeChain_cur (ids : List Nat) (a : Automaton) :
    (removeChain a ids).current_state = a.current_state := by
  induction ids generalizing a with
  | nil => rfl
  | cons id rest ih =>
      rw [removeChain_cons]
      by_cases hemp : (childrenOf a id).isEmpty
      · rw [if_pos hemp, ih, removeNode_cur]
      · rw [if_neg hemp, ih]

theorem autWF_removeChain {ids : List Nat} {a : Automaton} (wf : AutWF a)
    (hne : ∀ id ∈ ids, id ≠ a.root) : AutWF (removeChain a ids) := by
  induction ids generalizing a with
  | nil => exact wf
  | cons id rest ih =>
      rw [removeChain_cons]
      by_cases hemp : (childrenOf a id).isEmpty
      · rw [if_pos hemp]
        refine ih (autWF_removeNode wf (hne id (by simp))) ?_
        intro i hi
        rw [removeNode_root]
        exact hne i (by simp [hi])
      · rw [if_neg hemp]
        exact ih wf (fun i hi => hne i (by simp [hi]))

theorem mem_childrenOf_of_find {a : Automaton} {cur : Nat} {ns : NodeState} {nid : Nat}
    (h : getNodeIdFromChildren a cur ns = some nid) : nid ∈ childrenOf a cur := by
  unfold getNodeIdFromChildren at h
  exact List.mem_of_find?_eq_some h

theorem convertGo_ne_root {a : Automaton} (wf : AutWF a) :
    ∀ (path : List NodeState) (cur : Nat) (ids : List Nat),
      convertGo a cur path = some ids → ∀ id ∈ ids, id ≠ a.root := by
  intro path
  induction path with
  | nil =>
      intro cur ids h id hid
      unfold convertGo at h
      cases h
      simp at hid
  | cons ns rest ih =>
      intro cur ids h id hid
      unfold convertGo at h
      cases hf : getNodeIdFromChildren a cur ns with
      | none => rw [hf] at h; dsimp only at h; cases h
      | some nid =>
          rw [hf] at h
          dsimp only at h
          cases hc : convertGo a nid rest with
          | none =>
              rw [hc] at h
              rw [show Option.map (fun x => nid :: x) (none : Option (List Nat)) = none from rfl] at h
              cases h
          | some tail =>
              rw [hc] at h
              rw [show Option.map (fun x => nid :: x) (some tail) = some (nid :: tail) from rfl] at h
              cases h
              rcases List.mem_cons.mp hid with hid | hid
              · subst hid
                intro hroot
                have hmem := childrenOf_subset_childrenAt (mem_childrenOf_of_find hf)
                rw [hroot] at hmem
                exact wf.root_not_child cur hmem
              · exact ih nid tail hc id hid

theorem removeOnePath_inv {a b : Automaton} {p : List NodeState} (wf : AutWF a)
    (h : removeOnePath a p = some b) :
    AutWF b ∧ b.root = a.root ∧ b.current_state = a.current_state := by
  unfold removeOnePath at h
  by_cases hemp : p.isEmpty
  · rw [if_pos hemp] at h
    cases h
    exact ⟨wf, rfl, rfl⟩
  · rw [if_neg hemp] at h
    dsimp only at h
    by_cases hver : verifyActionPath (clearPath p)
    · rw [if_pos hver] at h
      cases hc : convertIntoNodeIds a (clearPath p) with
      | none =>
          rw [hc] at h
          dsimp only at h
          cases h
          exact ⟨wf, rfl, rfl⟩
      | some ids =>
          rw [hc] at h
          dsimp only at h
          cases h
          have hne := convertGo_ne_root wf (clearPath p) a.root ids hc
          refine ⟨autWF_removeChain wf ?_, removeChain_root _ _, removeChain_cur _ _⟩
          intro id hid
          exact hne id (List.mem_reverse.mp hid)
    · rw [if_neg hver] at h
      cases h

theorem removePaths_inv {ps : List (List NodeState)} {a b : Automaton} (wf : AutWF a)
    (h : removePaths a ps = some b) :
    AutWF b ∧ b.root = a.root ∧ b.current_state = a.current_state := by
  induction ps generalizing a with
  | nil =>
      unfold removePaths at h
      cases h
      exact ⟨wf, rfl, rfl⟩
  | cons p rest ih =>
      unfold removePaths at h
      rw [List.foldlM_cons] at h
      cases h1 : removeOnePath a p with
      | none => rw [h1] at h; cases h
      | some a2 =>
          rw [h1] at h
          obtain ⟨wf2, hr2, hc2⟩ := removeOnePath_inv wf h1
          obtain ⟨wfb, hrb, hcb⟩ := ih wf2 h
          exact ⟨wfb, hrb.trans hr2, hcb.trans hc2⟩

theorem exists_nodeAt_of_live {a : Automaton} {i : Nat}
    (h : isRemoved a i = false) : ∃ n, a.arena[i]? = some n := by
  cases hg : a.arena[i]? with
  | none =>
      unfold isRemoved at h
      rw [List.get?_eq_getElem?, hg] at h
      cases h
  | some n => exact ⟨n, rfl⟩

theorem autWF_set_cursor {a : Automaton} (wf : AutWF a) (c : Nat)
    (l : List MaoInteraction) :
    AutWF { a with current_state := c, previous_interactions := l } :=
  ⟨wf.root_live, wf.root_parent, wf.root_not_child, wf.child_parent,
   wf.child_bounds, wf.children_nodup, wf.parent_lt⟩

theorem nodeReach_set_cursor {a : Automaton} {n : Nat} (h : NodeReach a n)
    (c : Nat) (l : List MaoInteraction) :
    NodeReach { a with current_state := c, previous_interactions := l } n :=
  nodeReach_mono
    (show ({ a with current_state := c, previous_interactions := l } : Automaton).root
        = a.root from rfl)
    (fun _ _ hc => hc) h

theorem mem_childrenOf_of_getNodeIdOf {a : Automaton} {id : Nat}
    {action : PlayerAction} {nid : Nat}
    (h : getNodeIdOf a id action = some nid) : nid ∈ childrenOf a id := by
  unfold getNodeIdOf at h
  exact List.mem_of_find?_eq_some h

theorem insertWalk_cons (a : Automaton) (parent : Nat) (d : NodeState)
    (rest : List NodeState) :
    insertWalk a parent (d :: rest) =
      match getNodeIdOf a parent d.action.action with
      | some par => insertWalk a par rest
      | none =>
          insertWalk (appendNode a parent ⟨d.action, none, d.func⟩).1
            (appendNode a parent ⟨d.action, none, d.func⟩).2 rest := rfl

theorem insertWalk_inv :
    ∀ (l : List NodeState) (a : Automaton) (parent : Nat),
      AutWF a → isRemoved a parent = false →
      AutWF (insertWalk a parent l).1 ∧
      isRemoved (insertWalk a parent l).1 (insertWalk a parent l).2 = false ∧
      (insertWalk a parent l).1.root = a.root ∧
      (insertWalk a parent l).1.current_state = a.current_state ∧
      (∀ j c, c ∈ childrenOf a j → c ∈ childrenOf (insertWalk a parent l).1 j) ∧
      (∀ j, isRemoved a j = false → isRemoved (insertWalk a parent l).1 j = false) := by
  intro l
  induction l with
  | nil =>
      intro a parent wf hp
      exact ⟨wf, hp, rfl, rfl, fun _ _ h => h, fun _ h => h⟩
  | cons d rest ih =>
      intro a parent wf hp
      cases hf : getNodeIdOf a parent d.action.action with
      | some par =>
          simp only [insertWalk_cons, hf]
          have hmem := mem_childrenOf_of_getNodeIdOf hf
          exact ih a par wf (childrenOf_live hmem)
      | none =>
          simp only [insertWalk_cons, hf]
          obtain ⟨pn, hg⟩ := exists_nodeAt_of_live hp
          have wf2 := autWF_appendNode wf hg hp ⟨d.action, none, d.func⟩
          have live2 : isRemoved (appendNode a parent ⟨d.action, none, d.func⟩).1
              (appendNode a parent ⟨d.action, none, d.func⟩).2 = false := by
            rw [appendNode_snd, isRemoved_appendNode hg, if_pos rfl]
          obtain ⟨wfr, liver, rootr, curr, monor, livemonor⟩ :=
            ih (appendNode a parent ⟨d.action, none, d.func⟩).1
               (appendNode a parent ⟨d.action, none, d.func⟩).2 wf2 live2
          refine ⟨wfr, liver, rootr.trans (appendNode_root _ _ _),
            curr.trans (appendNode_cur _ _ _), ?_, ?_⟩
          · intro j c hc
            exact monor j c (childrenOf_appendNode_mono hg _ hc)
          · intro j hj
            exact livemonor j (isRemoved_appendNode_mono hg _ hj)

theorem insertIter_inv {a b : Automaton} {l : List NodeState} (wf : AutWF a)
    (h : insertIter a l = some b) :
    AutWF b ∧ b.root = a.root ∧ b.current_state = a.current_state ∧
    (∀ j c, c ∈ childrenOf a j → c ∈ childrenOf b j) ∧
    (∀ j, isRemoved a j = false → isRemoved b j = false) := by
  unfold insertIter at h
  cases hl : l.getLast? with
  | none =>
      rw [hl] at h
      cases h
      exact ⟨wf, rfl, rfl, fun _ _ hc => hc, fun _ hj => hj⟩
  | some last =>
      rw [hl] at h
      dsimp only at h
      obtain ⟨wfw, livew, rootw, curw, monow, livemonow⟩ :=
        insertWalk_inv l.dropLast a a.root wf wf.root_live
      by_cases hdup : ((getLeaves (insertWalk a a.root l.dropLast).1
          (insertWalk a a.root l.dropLast).2).map
            (fun cid => stateAt (insertWalk a a.root l.dropLast).1 cid)).any
          (fun s => NodeState.peq s last)
      · rw [if_pos hdup] at h
        cases h
      · rw [if_neg hdup] at h
        cases h
        obtain ⟨pn, hgw⟩ := exists_nodeAt_of_live livew
        refine ⟨autWF_appendNode wfw hgw livew last,
          (appendNode_root _ _ _).trans rootw,
          (appendNode_cur _ _ _).trans curw, ?_, ?_⟩
        · intro j c hc
          exact childrenOf_appendNode_mono hgw _ (monow j c hc)
        · intro j hj
          exact isRemoved_appendNode_mono hgw _ (livemonow j hj)

theorem insertChecked_inv {a b : Automaton} {p : List NodeState} (wf : AutWF a)
    (h : insertChecked a p = some b) :
    AutWF b ∧ b.root = a.root ∧ b.current_state = a.current_state ∧
    (∀ j c, c ∈ childrenOf a j → c ∈ childrenOf b j) ∧
    (∀ j, isRemoved a j = false → isRemoved b j = false) := by
  unfold insertChecked at h
  by_cases hver : verifyActionPath p
  · rw [if_pos hver] at h
    exact insertIter_inv wf h
  · rw [if_neg hver] at h
    cases h

theorem extend_inv {ps : List (List NodeState)} {a b : Automaton} (wf : AutWF a)
    (h : extend a ps = some b) :
    AutWF b ∧ b.root = a.root ∧ b.current_state = a.current_state ∧
    (∀ j c, c ∈ childrenOf a j → c ∈ childrenOf b j) ∧
    (∀ j, isRemoved a j = false → isRemoved b j = false) := by
  induction ps generalizing a with
  | nil =>
      unfold extend at h
      cases h
      exact ⟨wf, rfl, rfl, fun _ _ hc => hc, fun _ hj => hj⟩
  | cons p rest ih =>
      unfold extend at h
      rw [List.foldlM_cons] at h
      cases h1 : insertChecked a p with
      | none => rw [h1] at h; cases h
      | some a2 =>
          rw [h1] at h
          obtain ⟨wf2, hr2, hc2, hm2, hl2⟩ := insertChecked_inv wf h1
          obtain ⟨wfb, hrb, hcb, hmb, hlb⟩ := ih wf2 h
          exact ⟨wfb, hrb.trans hr2, hcb.trans hc2,
            fun j c hc => hmb j c (hm2 j c hc), fun j hj => hlb j (hl2 j hj)⟩

theorem autWF_empty : AutWF Automaton.empty := by
  have hch : ∀ i, childrenAt Automaton.empty i = [] := by
    intro i; cases i with
    | zero => rfl
    | succ n => rfl
  have hpar : ∀ i, parentOf Automaton.empty i = none := by
    intro i; cases i with
    | zero => rfl
    | succ n => rfl
  refine ⟨rfl, rfl, ?_, ?_, ?_, ?_, ?_⟩
  · intro i
    rw [hch]
    simp
  · intro i c hc
    rw [hch] at hc
    simp at hc
  · intro i c hc
    rw [hch] at hc
    simp at hc
  · intro i
    rw [hch]
    exact List.nodup_nil
  · intro c p hp
    rw [hpar] at hp
    cases hp

theorem fromIter_inv {ps : List (List NodeState)} {a : Automaton}
    (h : fromIter ps = some a) :
    AutWF a ∧ CursorOk a ∧ a.current_state = a.root := by
  unfold fromIter at h
  obtain ⟨wfa, hra, hca, _, _⟩ := extend_inv autWF_empty h
  have hcr : a.current_state = a.root := by
    rw [hca, hra]
    rfl
  refine ⟨wfa, ⟨?_, ?_⟩, hcr⟩
  · rw [hcr]
    exact wfa.root_live
  · rw [hcr]
    exact NodeReach.root

theorem nodeReach_parent {a : Automaton} (wf : AutWF a) {i p : Nat}
    (hr : NodeReach a i) (hp : parentOf a i = some p) :
    NodeReach a p ∧ isRemoved a p = false := by
  cases hr with
  | root =>
      rw [wf.root_parent] at hp
      cases hp
  | step hq hc =>
      have hpar := wf.child_parent _ _ (childrenOf_subset_childrenAt hc)
      rw [hpar] at hp
      cases hp
      exact ⟨hq, nodeReach_live wf hq⟩

theorem SkelEq.symm {x y : Automaton} (h : SkelEq x y) : SkelEq y x :=
  ⟨h.root_eq.symm, h.cur_eq.symm, h.len_eq.symm,
   fun j => (h.ch_eq j).symm, fun j => (h.par_eq j).symm, fun j => (h.rem_eq j).symm⟩

theorem mem_childrenOf_of_searchType {a : Automaton} {action : PlayerAction}
    {nid : Nat} (h : nid ∈ searchType a action) :
    nid ∈ childrenOf a a.current_state := by
  unfold searchType at h
  exact (List.mem_filter.mp h).1

theorem onAction_inv {a : Automaton} (wf : AutWF a) (ck : CursorOk a)
    (it : MaoInteraction) :
    AutWF (onAction a it).1 ∧ CursorOk (onAction a it).1 := by
  cases hs : searchType a it.action with
  | nil =>
      simp only [onAction, hs]
      exact ⟨wf, ck⟩
  | cons nid rest =>
      cases rest with
      | nil =>
          have hmem : nid ∈ childrenOf a a.current_state :=
            mem_childrenOf_of_searchType (by rw [hs]; exact List.mem_singleton.2 rfl)
          cases hfn : (stateAt a nid).func with
          | some f =>
              simp only [onAction, hs, hfn]
              exact ⟨autWF_set_cursor wf a.root _, wf.root_live, NodeReach.root⟩
          | none =>
              simp only [onAction, hs, hfn]
              have wfu : AutWF { a with current_state := nid } :=
                autWF_set_cursor wf nid a.previous_interactions
              have cku : CursorOk { a with current_state := nid } :=
                ⟨childrenOf_live hmem,
                 nodeReach_set_cursor (NodeReach.step ck.reach hmem) nid
                   a.previous_interactions⟩
              exact ⟨(skelEq_setDataAt { a with current_state := nid } nid it.data).symm.autWF wfu,
                     (skelEq_setDataAt { a with current_state := nid } nid it.data).symm.cursorOk cku⟩
      | cons n2 r2 =>
          simp only [onAction, hs]
          exact ⟨wf, ck⟩

theorem onActionIndexed_inv {a : Automaton} (wf : AutWF a) (ck : CursorOk a)
    (it : MaoInteraction) (idx : Nat) :
    AutWF (onActionIndexed a it idx).1 ∧ CursorOk (onActionIndexed a it idx).1 := by
  obtain ⟨wf1, ck1⟩ := onAction_inv wf ck it
  cases h2 : (onAction a it).2 with
  | nodes ns =>
      cases hn : ns.get? idx with
      | none =>
          simp only [onActionIndexed, h2, hn]
          exact ⟨wf1, ck1⟩
      | some node =>
          cases hfn : node.func with
          | some f =>
              simp only [onActionIndexed, h2, hn, hfn]
              exact ⟨autWF_set_cursor wf1 (onAction a it).1.root _,
                     wf1.root_live, NodeReach.root⟩
          | none =>
              cases hg : getNodeIdOf (onAction a it).1 (onAction a it).1.current_state
                  it.action with
              | some nid =>
                  simp only [onActionIndexed, h2, hn, hfn, hg]
                  have hmem := mem_childrenOf_of_getNodeIdOf hg
                  have wfu : AutWF { (onAction a it).1 with current_state := nid } :=
                    autWF_set_cursor wf1 nid (onAction a it).1.previous_interactions
                  have cku : CursorOk { (onAction a it).1 with current_state := nid } :=
                    ⟨childrenOf_live hmem,
                     nodeReach_set_cursor (NodeReach.step ck1.reach hmem) nid
                       (onAction a it).1.previous_interactions⟩
                  exact ⟨(skelEq_setDataAt { (onAction a it).1 with current_state := nid } nid it.data).symm.autWF wfu,
                         (skelEq_setDataAt { (onAction a it).1 with current_state := nid } nid it.data).symm.cursorOk cku⟩
              | none =>
                  simp only [onActionIndexed, h2, hn, hfn, hg]
                  exact ⟨wf1, ck1⟩
  | noInteractionFound =>
      simp only [onActionIndexed, h2]
      exact ⟨wf1, ck1⟩
  | leaf l f =>
      simp only [onActionIndexed, h2]
      exact ⟨wf1, ck1⟩
  | advancedNextState =>
      simp only [onActionIndexed, h2]
      exact ⟨wf1, ck1⟩

theorem cancelLast_inv {a : Automaton} (wf : AutWF a) (ck : CursorOk a) :
    AutWF (cancelLast a).1 ∧ CursorOk (cancelLast a).1 := by
  cases hp : parentOf a a.current_state with
  | none =>
      simp only [cancelLast, hp]
      exact ⟨wf, ck⟩
  | some par =>
      simp only [cancelLast, hp]
      obtain ⟨hrp, hlp⟩ := nodeReach_parent wf ck.reach hp
      exact ⟨autWF_set_cursor wf par a.previous_interactions,
             hlp, nodeReach_set_cursor hrp par a.previous_interactions⟩

theorem reset_inv {a : Automaton} (wf : AutWF a) :
    AutWF (reset a) ∧ CursorOk (reset a) := by
  exact ⟨autWF_set_cursor wf a.root [], wf.root_live, NodeReach.root⟩

/-- Automata reachable by the public operations, with `removePaths` invoked
only while the cursor sits at the root (the calling convention under which
the cursor invariant survives path removal). -/
inductive Reachable : Automaton → Prop where
  | build : ∀ (ps : List (List NodeState)) (a : Automaton),
      fromIter ps = some a → Reachable a
  | extendStep : ∀ (a : Automaton) (ps : List (List NodeState)) (b : Automaton),
      Reachable a → extend a ps = some b → Reachable b
  | removeStep : ∀ (a : Automaton) (ps : List (List NodeState)) (b : Automaton),
      Reachable a → a.current_state = a.root → removePaths a ps = some b →
      Reachable b
  | onActionStep : ∀ (a : Automaton) (it : MaoInteraction),
      Reachable a → Reachable (onAction a it).1
  | onActionIndexedStep : ∀ (a : Automaton) (it : MaoInteraction) (idx : Nat),
      Reachable a → Reachable (onActionIndexed a it idx).1
  | cancelStep : ∀ (a : Automaton),
      Reachable a → Reachable (cancelLast a).1
  | resetStep : ∀ (a : Automaton),
      Reachable a → Reachable (reset a)

theorem reachable_wf {a : Automaton} (h : Reachable a) : AutWF a ∧ CursorOk a := by
  induction h with
  | build ps a hfi =>
      obtain ⟨wf, ck, _⟩ := fromIter_inv hfi
      exact ⟨wf, ck⟩
  | extendStep a ps b _ hext ih =>
      obtain ⟨wf, ck⟩ := ih
      obtain ⟨wfb, hr, hc, hm, hl⟩ := extend_inv wf hext
      refine ⟨wfb, ?_, ?_⟩
      · rw [hc]
        exact hl _ ck.live
      · rw [hc]
        exact nodeReach_mono hr hm ck.reach
  | removeStep a ps b _ hcur hrem ih =>
      obtain ⟨wf, ck⟩ := ih
      obtain ⟨wfb, hr, hc⟩ := removePaths_inv wf hrem
      have hbc : b.current_state = b.root := by rw [hc, hcur, ← hr]
      refine ⟨wfb, ?_, ?_⟩
      · rw [hbc]
        exact wfb.root_live
      · rw [hbc]
        exact NodeReach.root
  | onActionStep a it _ ih =>
      exact onAction_inv ih.1 ih.2 it
  | onActionIndexedStep a it idx _ ih =>
      exact onActionIndexed_inv ih.1 ih.2 it idx
  | cancelStep a _ ih =>
      exact cancelLast_inv ih.1 ih.2
  | resetStep a _ ih =>
      exact reset_inv ih.1

/-- A two-step path (`SelectCard` branch, then a `SelectPlayableStack` leaf)
used to exhibit `remove_paths` pulling the node out from under the cursor. -/
def cursorPath : List NodeState :=
  [⟨⟨none, .selectCard⟩, none, none⟩, ⟨⟨none, .selectPlayableStack⟩, none, some 0⟩]

/-- Replay a list of interactions through `onAction`, collecting results. -/
def replayGo (a : Automaton) : List MaoInteraction → Automaton × List MaoInteractionResult
  | [] => (a, [])
  | it :: rest =>
      let p := onAction a it
      let q := replayGo p.1 rest
      (q.1, p.2 :: q.2)

/-- Token of a path's first step. -/
def headTok : List NodeState → PlayerAction
  | [] => default
  | d :: _ => d.action.action

/-- A path's steps laid out as a chain in the arena: at each level the
cursor-relative `search_type` lookup is a singleton, and the node carries the
step's action and handler. -/
def SpineAt (a : Automaton) : Nat → List Nat → List NodeState → Prop
  | _, [], [] => True
  | c, nid :: ids, d :: rest =>
      (childrenOf a c).filter
          (fun cid => (stateAt a cid).action.action == d.action.action) = [nid] ∧
      (stateAt a nid).action = d.action ∧
      (stateAt a nid).func = d.func ∧
      parentOf a nid = some c ∧
      SpineAt a nid ids rest
  | _, _, _ => False

/-- The exact ancestor chain `[c, …, root]` of a node. -/
inductive AncChain (a : Automaton) : Nat → List Nat → Prop where
  | base : parentOf a a.root = none → AncChain a a.root [a.root]
  | step {c p : Nat} {l : List Nat} :
      parentOf a c = some p → AncChain a p l → AncChain a c (c :: l)

theorem clearPath_map_action : ∀ p : List NodeState,
    (clearPath p).map (fun d => d.action) = p.map (fun d => d.action)
  | [] => rfl
  | [x] => rfl
  | x :: y :: xs => by
      rw [show clearPath (x :: y :: xs) =
        { x with rule := none } :: clearPath (y :: xs) from rfl]
      rw [List.map_cons, List.map_cons, clearPath_map_action (y :: xs)]

theorem clearPath_map_func : ∀ p : List NodeState,
    (clearPath p).map (fun d => d.func) = p.map (fun d => d.func)
  | [] => rfl
  | [x] => rfl
  | x :: y :: xs => by
      rw [show clearPath (x :: y :: xs) =
        { x with rule := none } :: clearPath (y :: xs) from rfl]
      rw [List.map_cons, List.map_cons, clearPath_map_func (y :: xs)]

theorem clearPath_length (p : List NodeState) :
    (clearPath p).length = p.length := by
  have h := congrArg List.length (clearPath_map_action p)
  simpa using h

theorem clearPath_getLast? : ∀ p : List NodeState,
    (clearPath p).getLast? = p.getLast?
  | [] => rfl
  | [x] => rfl
  | x :: y :: xs => by
      rw [show clearPath (x :: y :: xs) =
        { x with rule := none } :: clearPath (y :: xs) from rfl]
      cases hc : clearPath (y :: xs) with
      | nil =>
          exfalso
          have hlen := clearPath_length (y :: xs)
          rw [hc] at hlen
          simp at hlen
      | cons z zs =>
          rw [List.getLast?_cons_cons, ← hc, clearPath_getLast? (y :: xs)]
          exact (List.getLast?_cons_cons).symm

theorem clearPath_headTok (p : List NodeState) :
    headTok (clearPath p) = headTok p := by
  match p with
  | [] => rfl
  | [x] => rfl
  | x :: y :: xs => rfl

theorem list_set_self {α : Type u} (l : List α) (i : Nat) (x : α)
    (h : l[i]? = some x) : l.set i x = l := by
  apply List.ext_getElem?
  intro j
  by_cases hij : i = j
  · subst hij
    simp [List.getElem?_set, lt_of_getElem?_some h, h]
  · rw [List.getElem?_set, if_neg hij]

theorem setDataAt_id {a : Automaton} {i : Nat} {n : Node}
    (hg : a.arena[i]? = some n) :
    setDataAt a i n.state.action.data = a := by
  unfold setDataAt
  rw [List.get?_eq_getElem?, hg]
  show { a with arena := a.arena.set i n } = a
  rw [list_set_self a.arena i n hg]

theorem ancestorsGo_of_chain {a : Automaton} (wf : AutWF a) :
    ∀ {c : Nat} {l : List Nat}, AncChain a c l → ∀ fuel, c < fuel →
      ancestorsGo a fuel c = l := by
  intro c l h
  induction h with
  | base hr =>
      intro fuel hfuel
      cases fuel with
      | zero => omega
      | succ f =>
          unfold ancestorsGo
          rw [hr]
  | step hp _ ih =>
      intro fuel hfuel
      cases fuel with
      | zero => omega
      | succ f =>
          unfold ancestorsGo
          rw [hp]
          have hplt := wf.parent_lt _ _ hp
          dsimp only
          rw [ih f (by omega)]

theorem ancChain_set_cursor {a : Automaton} {c : Nat} {l : List Nat}
    (h : AncChain a c l) (x : Nat) (pr : List MaoInteraction) :
    AncChain { a with current_state := x, previous_interactions := pr } c l := by
  induction h with
  | base hr => exact AncChain.base hr
  | step hp _ ih => exact AncChain.step hp ih

theorem spineAt_set_cursor {a : Automaton} :
    ∀ {l : List NodeState} {c : Nat} {ids : List Nat},
      SpineAt a c ids l → ∀ (x : Nat) (pr : List MaoInteraction),
      SpineAt { a with current_state := x, previous_interactions := pr } c ids l := by
  intro l
  induction l with
  | nil =>
      intro c ids h x pr
      cases ids with
      | nil => exact h
      | cons i is => exact absurd h (by simp [SpineAt])
  | cons d rest ih =>
      intro c ids h x pr
      cases ids with
      | nil => exact absurd h (by simp [SpineAt])
      | cons nid is =>
          obtain ⟨h1, h2, h3, h4, h5⟩ := h
          exact ⟨h1, h2, h3, h4, ih h5 x pr⟩

theorem replayGo_nil (a : Automaton) : replayGo a [] = (a, []) := rfl

theorem replayGo_cons (a : Automaton) (it : MaoInteraction)
    (rest : List MaoInteraction) :
    replayGo a (it :: rest) =
      ((replayGo (onAction a it).1 rest).1,
       (onAction a it).2 :: (replayGo (onAction a it).1 rest).2) := rfl

theorem replayGo_spine : ∀ (l : List NodeState) (c : Nat) (ids : List Nat)
    (a : Automaton) (anc : List Nat) (pre : List MaoInteraction),
    AutWF a → SpineAt a c ids l → a.current_state = c →
    c < a.arena.length →
    AncChain a c (c :: anc) →
    ((c :: anc).map (stateAt a)).dropLast.reverse.map (fun v => v.action) = pre →
    l ≠ [] →
    (∀ d ∈ l.dropLast, d.func = none) →
    (∀ dl, l.getLast? = some dl → dl.func.isSome = true) →
    ∃ f, replayGo a (l.map (fun d => d.action)) =
      ({ reset a with previous_interactions := pre ++ l.map (fun d => d.action) },
       List.replicate (l.length - 1) MaoInteractionResult.advancedNextState ++
         [MaoInteractionResult.leaf (pre ++ l.map (fun d => d.action)) f]) := by
  intro l
  induction l with
  | nil =>
      intro c ids a anc pre _ _ _ _ _ _ hne _ _
      exact absurd rfl hne
  | cons d rest ih =>
      intro c ids a anc pre wf hsp hcur hclt hchain hpre hne hdrop hlast
      cases ids with
      | nil => exact absurd hsp (by simp [SpineAt])
      | cons nid is =>
          obtain ⟨hfil, hact, hfun, hpar, hsub⟩ := hsp
          have hst : searchType a d.action.action = [nid] := by
            unfold searchType
            rw [hcur]
            exact hfil
          have hnidmem : nid ∈ childrenOf a c := by
            have hmem : nid ∈ (childrenOf a c).filter
                (fun cid => (stateAt a cid).action.action == d.action.action) := by
              rw [hfil]
              exact List.mem_singleton.2 rfl
            exact (List.mem_filter.mp hmem).1
          have hnidlive := childrenOf_live hnidmem
          have hnidlt := isRemoved_false_lt hnidlive
          cases rest with
          | nil =>
              have hl : d.func.isSome = true := hlast d rfl
              obtain ⟨f, hf⟩ : ∃ f, d.func = some f := Option.isSome_iff_exists.mp hl
              have hfn : (stateAt a nid).func = some f := by rw [hfun, hf]
              have hanc2 : ancestorIds a = c :: anc := by
                unfold ancestorIds
                rw [hcur]
                exact ancestorsGo_of_chain wf hchain _ hclt
              have hexec : (getExecutedActions a).map (fun v => v.action) = pre := by
                unfold getExecutedActions
                rw [hanc2]
                exact hpre
              have hoa : onAction a d.action =
                  ({ reset a with previous_interactions := pre ++ [d.action] },
                   MaoInteractionResult.leaf (pre ++ [d.action]) f) := by
                simp only [onAction, hst, hfn]
                rw [hexec]
              refine ⟨f, ?_⟩
              rw [List.map_cons, List.map_nil, replayGo_cons, hoa]
              simp [replayGo_nil]
          | cons e rest2 =>
              have hdfn : d.func = none := hdrop d (by simp)
              have hfn : (stateAt a nid).func = none := by rw [hfun, hdfn]
              obtain ⟨n, hn⟩ := exists_nodeAt_of_live hnidlive
              have hsn : stateAt a nid = n.state := by
                unfold stateAt
                rw [List.get?_eq_getElem?, hn]
              have hdata : d.action.data = n.state.action.data := by
                rw [← hact, hsn]
              have ha2 : setDataAt { a with current_state := nid } nid d.action.data
                  = { a with current_state := nid } := by
                rw [hdata]
                exact setDataAt_id hn
              have wf' : AutWF { a with current_state := nid } :=
                autWF_set_cursor wf nid a.previous_interactions
              have hsp' : SpineAt { a with current_state := nid } nid is (e :: rest2) :=
                spineAt_set_cursor hsub nid a.previous_interactions
              have hch' : AncChain { a with current_state := nid } nid (nid :: c :: anc) :=
                AncChain.step hpar (ancChain_set_cursor hchain nid a.previous_interactions)
              have hclt' : nid < ({ a with current_state := nid } : Automaton).arena.length :=
                hnidlt
              have hpre' : ((nid :: c :: anc).map
                    (stateAt { a with current_state := nid })).dropLast.reverse.map
                    (fun v => v.action) = pre ++ [d.action] := by
                show ((nid :: c :: anc).map (stateAt a)).dropLast.reverse.map
                    (fun v => v.action) = pre ++ [d.action]
                rw [List.map_cons, List.map_cons, List.dropLast_cons₂,
                  ← List.map_cons (stateAt a) c anc, List.reverse_cons, List.map_append,
                  hpre, List.map_cons, List.map_nil, hact]
              have hdrop' : ∀ x ∈ (e :: rest2).dropLast, x.func = none := by
                intro x hx
                exact hdrop x (by
                  rw [List.dropLast_cons₂]
                  exact List.mem_cons_of_mem d hx)
              have hlast' : ∀ dl, (e :: rest2).getLast? = some dl → dl.func.isSome = true := by
                intro dl hdl
                exact hlast dl (by rw [List.getLast?_cons_cons]; exact hdl)
              obtain ⟨f, hIH⟩ := ih nid is { a with current_state := nid } (c :: anc)
                (pre ++ [d.action]) wf' hsp' rfl hclt' hch' hpre' (by simp) hdrop' hlast'
              have hoa : onAction a d.action =
                  ({ a with current_state := nid },
                   MaoInteractionResult.advancedNextState) := by
                simp only [onAction, hst, hfn]
                rw [ha2]
              refine ⟨f, ?_⟩
              rw [List.map_cons, replayGo_cons, hoa]
              simp only
              rw [hIH]
              have hreset : reset { a with current_state := nid } = reset a := rfl
              simp [hreset, List.replicate_succ, List.append_assoc]

theorem insertWalk_chain : ∀ (l : List NodeState) (a : Automaton) (L : Nat) (n : Node),
    a.arena[L]? = some n →
    (∀ d0, l.head? = some d0 → getNodeIdOf a L d0.action.action = none) →
    (insertWalk a L l).1.arena.length = a.arena.length + l.length ∧
    (insertWalk a L l).1.root = a.root ∧
    (insertWalk a L l).1.current_state = a.current_state ∧
    (l = [] → insertWalk a L l = (a, L)) ∧
    (l ≠ [] →
      (insertWalk a L l).2 = a.arena.length + l.length - 1 ∧
      (∀ j, j < a.arena.length → j ≠ L → (insertWalk a L l).1.arena[j]? = a.arena[j]?) ∧
      (insertWalk a L l).1.arena[L]? =
        some { n with children := n.children ++ [a.arena.length] } ∧
      (∀ i di, l[i]? = some di →
        (insertWalk a L l).1.arena[a.arena.length + i]? = some
          { state := ⟨di.action, none, di.func⟩,
            parent := some (if i = 0 then L else a.arena.length + i - 1),
            children := if i = l.length - 1 then [] else [a.arena.length + i + 1],
            removed := false })) := by
  intro l
  induction l with
  | nil =>
      intro a L n hn _
      exact ⟨by simp [insertWalk], rfl, rfl, fun _ => rfl, fun h => absurd rfl h⟩
  | cons d rest ih =>
      intro a L n hn hfr
      have hLlt := lt_of_getElem?_some hn
      have hgno : getNodeIdOf a L d.action.action = none := hfr d rfl
      have hsnd : (appendNode a L ⟨d.action, none, d.func⟩).2 = a.arena.length :=
        appendNode_snd a L _
      have hiw : insertWalk a L (d :: rest) =
          insertWalk (appendNode a L ⟨d.action, none, d.func⟩).1
            a.arena.length rest := by
        rw [insertWalk_cons, hgno, hsnd]
      have ha2len : (appendNode a L ⟨d.action, none, d.func⟩).1.arena.length
          = a.arena.length + 1 := appendNode_length hn _
      have hga2 : (appendNode a L ⟨d.action, none, d.func⟩).1.arena[a.arena.length]? =
          some ⟨⟨d.action, none, d.func⟩, some L, [], false⟩ := by
        rw [nodeAt_appendNode hn, if_pos rfl]
      have hfr2 : ∀ e0, rest.head? = some e0 →
          getNodeIdOf (appendNode a L ⟨d.action, none, d.func⟩).1
            a.arena.length e0.action.action = none := by
        intro e0 _
        have hch2 : childrenOf (appendNode a L ⟨d.action, none, d.func⟩).1
            a.arena.length = [] := by
          unfold childrenOf
          rw [List.get?_eq_getElem?, hga2]
          rfl
        unfold getNodeIdOf
        rw [hch2]
        rfl
      obtain ⟨ihlen, ihroot, ihcur, ihnil, ihne⟩ :=
        ih (appendNode a L ⟨d.action, none, d.func⟩).1
          a.arena.length
          ⟨⟨d.action, none, d.func⟩, some L, [], false⟩
          hga2 hfr2
      rw [hiw]
      refine ⟨?_, ?_, ?_, ?_, ?_⟩
      · rw [ihlen, ha2len]
        simp only [List.length_cons]
        omega
      · rw [ihroot, appendNode_root]
      · rw [ihcur, appendNode_cur]
      · intro h
        cases h
      · intro _
        by_cases hrest : rest = []
        · subst hrest
          rw [ihnil rfl]
          refine ⟨?_, ?_, ?_, ?_⟩
          · simp
          · intro j hj hjL
            show (appendNode a L ⟨d.action, none, d.func⟩).1.arena[j]? = a.arena[j]?
            rw [nodeAt_appendNode hn, if_neg (by omega), if_neg hjL]
          · show (appendNode a L ⟨d.action, none, d.func⟩).1.arena[L]? = _
            rw [nodeAt_appendNode hn, if_neg (by omega), if_pos rfl]
          · intro i di hdi
            cases i with
            | zero =>
                have hd : d = di := by simpa using hdi
                subst hd
                rw [Nat.add_zero]
                show (appendNode a L ⟨d.action, none, d.func⟩).1.arena[a.arena.length]? = _
                simpa using hga2
            | succ k =>
                rw [show ([d] : List NodeState)[k + 1]? = none from by simp] at hdi
                cases hdi
        · obtain ⟨ihr2, ihold, ihL, ihchain⟩ := ihne hrest
          have hrl : 1 ≤ rest.length := List.length_pos.mpr hrest
          refine ⟨?_, ?_, ?_, ?_⟩
          · rw [ihr2, ha2len]
            simp only [List.length_cons]
            omega
          · intro j hj hjL
            rw [ihold j (by rw [ha2len]; omega) (by omega)]
            rw [nodeAt_appendNode hn, if_neg (by omega), if_neg hjL]
          · rw [ihold L (by rw [ha2len]; omega) (by omega)]
            rw [nodeAt_appendNode hn, if_neg (by omega), if_pos rfl]
          · intro i di hdi
            cases i with
            | zero =>
                have hd : d = di := by simpa using hdi
                subst hd
                have hfact := ihL
                rw [ha2len] at hfact
                simp only [List.nil_append] at hfact
                rw [Nat.add_zero]
                rw [if_pos rfl, if_neg (by simp only [List.length_cons]; omega)]
                exact hfact
            | succ k =>
                have hk : rest[k]? = some di := by simpa using hdi
                have hfact := ihchain k di hk
                rw [ha2len] at hfact
                rw [show a.arena.length + 1 + k = a.arena.length + (k + 1)
                  from by omega] at hfact
                have e2 : (if k = 0 then a.arena.length
                    else a.arena.length + (k + 1) - 1) = a.arena.length + (k + 1) - 1 := by
                  split <;> omega
                rw [e2] at hfact
                have e3 : (if k = rest.length - 1 then ([] : List Nat)
                      else [a.arena.length + (k + 1) + 1]) =
                    (if k + 1 = (d :: rest).length - 1 then []
                      else [a.arena.length + (k + 1) + 1]) := by
                  by_cases hkk : k = rest.length - 1
                  · rw [if_pos hkk, if_pos (by simp only [List.length_cons]; omega)]
                  · rw [if_neg hkk, if_neg (by simp only [List.length_cons]; omega)]
                rw [e3] at hfact
                rw [if_neg (Nat.succ_ne_zero k)]
                exact hfact

theorem spineAt_chain {b : Automaton} :
    ∀ (steps : List NodeState) (c start : Nat),
      (∀ i di, steps[i]? = some di →
        (stateAt b (start + i)).action = di.action ∧
        (stateAt b (start + i)).func = di.func ∧
        isRemoved b (start + i) = false ∧
        parentOf b (start + i) = some (if i = 0 then c else start + i - 1) ∧
        childrenAt b (start + i) =
          (if i = steps.length - 1 then [] else [start + i + 1])) →
      (steps ≠ [] →
        (childrenOf b c).filter
          (fun cid => (stateAt b cid).action.action == headTok steps) = [start]) →
      SpineAt b c ((List.range steps.length).map (fun i => start + i)) steps := by
  intro steps
  induction steps with
  | nil =>
      intro c start _ _
      exact trivial
  | cons d rest ihs =>
      intro c start hnodes hfirst
      have hids : (List.range (d :: rest).length).map (fun i => start + i)
          = start :: (List.range rest.length).map (fun i => (start + 1) + i) := by
        rw [List.length_cons, List.range_succ_eq_map, List.map_cons, Nat.add_zero,
          List.map_map]
        congr 1
        apply List.map_congr_left
        intro i _
        simp only [Function.comp]
        omega
      rw [hids]
      obtain ⟨h0a, h0f, h0r, h0p, h0c⟩ := hnodes 0 d (by simp)
      rw [Nat.add_zero] at h0a h0f h0r h0p h0c
      refine ⟨hfirst (by simp), h0a, h0f, by simpa using h0p, ?_⟩
      apply ihs start (start + 1)
      · intro i di hdi
        obtain ⟨ha, hf, hr, hp, hc⟩ := hnodes (i + 1) di (by simpa using hdi)
        rw [show start + (i + 1) = start + 1 + i from by omega] at ha hf hr hp hc
        refine ⟨ha, hf, hr, ?_, ?_⟩
        · rw [if_neg (Nat.succ_ne_zero i)] at hp
          rw [hp]
          by_cases hi : i = 0
          · subst hi
            simp
          · rw [if_neg hi]
        · rw [hc]
          have hlt : i < rest.length := lt_of_getElem?_some hdi
          by_cases hi : i = rest.length - 1
          · rw [if_pos hi, if_pos (by simp only [List.length_cons]; omega)]
          · rw [if_neg hi, if_neg (by simp only [List.length_cons]; omega)]
      · intro hrne
        have hrl : 1 ≤ rest.length := List.length_pos.mpr hrne
        have h0c' : childrenAt b start = [start + 1] := by
          rw [h0c, if_neg (by simp only [List.length_cons]; omega)]
        obtain ⟨e, rest2, hre⟩ : ∃ e rest2, rest = e :: rest2 := by
          cases rest with
          | nil => exact absurd rfl hrne
          | cons e r2 => exact ⟨e, r2, rfl⟩
        obtain ⟨h1a, _, h1r, _, _⟩ := hnodes 1 e (by rw [hre]; simp)
        have hco : childrenOf b start = [start + 1] := by
          rw [childrenOf_eq_filter, h0c']
          simp [h1r]
        rw [hco, hre]
        simp [headTok, h1a]

theorem spineAt_transfer_deep {a b : Automaton} (wf : AutWF a)
    (hold : ∀ j, j ≠ a.root → j < a.arena.length → b.arena[j]? = a.arena[j]?) :
    ∀ (q : List NodeState) (c : Nat) (ids : List Nat),
      SpineAt a c ids q → c ≠ a.root → c < a.arena.length →
      SpineAt b c ids q := by
  intro q
  induction q with
  | nil =>
      intro c ids h _ _
      cases ids with
      | nil => exact trivial
      | cons i is => exact absurd h (by simp [SpineAt])
  | cons d rest ihq =>
      intro c ids h hcne hclt
      cases ids with
      | nil => exact absurd h (by simp [SpineAt])
      | cons nid is =>
          obtain ⟨hfil, hact, hfun, hpar, hsub⟩ := h
          have hnb : b.arena[c]? = a.arena[c]? := hold c hcne hclt
          have hcAt : childrenAt b c = childrenAt a c := by
            unfold childrenAt
            rw [List.get?_eq_getElem?, List.get?_eq_getElem?, hnb]
          have hmem_props : ∀ x ∈ childrenAt a c, x ≠ a.root ∧ x < a.arena.length :=
            fun x hx => ⟨fun hxr => wf.root_not_child c (hxr ▸ hx),
              (wf.child_bounds c x hx).1⟩
          have hchOf : childrenOf b c = childrenOf a c := by
            rw [childrenOf_eq_filter, childrenOf_eq_filter, hcAt]
            apply List.filter_congr
            intro x hx
            obtain ⟨hxr, hxl⟩ := hmem_props x hx
            have hre : isRemoved b x = isRemoved a x := by
              unfold isRemoved
              rw [List.get?_eq_getElem?, List.get?_eq_getElem?, hold x hxr hxl]
            rw [hre]
          have hstEq : ∀ x ∈ childrenAt a c, stateAt b x = stateAt a x := by
            intro x hx
            obtain ⟨hxr, hxl⟩ := hmem_props x hx
            unfold stateAt
            rw [List.get?_eq_getElem?, List.get?_eq_getElem?, hold x hxr hxl]
          have hfil2 : (childrenOf b c).filter
              (fun cid => (stateAt b cid).action.action == d.action.action) = [nid] := by
            rw [hchOf,
              List.filter_congr (fun x hx => by
                rw [hstEq x (childrenOf_subset_childrenAt hx)])]
            exact hfil
          have hnidmem : nid ∈ childrenOf a c := by
            have hmem : nid ∈ (childrenOf a c).filter
                (fun cid => (stateAt a cid).action.action == d.action.action) := by
              rw [hfil]
              exact List.mem_singleton.2 rfl
            exact (List.mem_filter.mp hmem).1
          have hnidAt := childrenOf_subset_childrenAt hnidmem
          obtain ⟨hnr, hnl⟩ := hmem_props nid hnidAt
          have hstn : stateAt b nid = stateAt a nid := hstEq nid hnidAt
          have hpn : parentOf b nid = parentOf a nid := by
            unfold parentOf
            rw [List.get?_eq_getElem?, List.get?_eq_getElem?, hold nid hnr hnl]
          exact ⟨hfil2, by rw [hstn]; exact hact, by rw [hstn]; exact hfun,
            by rw [hpn]; exact hpar, ihq nid is hsub hnr hnl⟩

theorem spineAt_transfer_root {a b : Automaton} (wf : AutWF a)
    (hold : ∀ j, j ≠ a.root → j < a.arena.length → b.arena[j]? = a.arena[j]?)
    {extra : List Nat}
    (hrootch : childrenAt b a.root = childrenAt a a.root ++ extra)
    {q : List NodeState} {ids : List Nat}
    (hextra : ∀ e ∈ extra, (stateAt b e).action.action ≠ headTok q)
    (h : SpineAt a a.root ids q) :
    SpineAt b a.root ids q := by
  cases q with
  | nil =>
      cases ids with
      | nil => exact trivial
      | cons i is => exact absurd h (by simp [SpineAt])
  | cons d rest =>
      cases ids with
      | nil => exact absurd h (by simp [SpineAt])
      | cons nid is =>
          obtain ⟨hfil, hact, hfun, hpar, hsub⟩ := h
          have hmem_props : ∀ x ∈ childrenAt a a.root, x ≠ a.root ∧ x < a.arena.length :=
            fun x hx => ⟨fun hxr => wf.root_not_child a.root (hxr ▸ hx),
              (wf.child_bounds a.root x hx).1⟩
          have hstEq : ∀ x ∈ childrenAt a a.root, stateAt b x = stateAt a x := by
            intro x hx
            obtain ⟨hxr, hxl⟩ := hmem_props x hx
            unfold stateAt
            rw [List.get?_eq_getElem?, List.get?_eq_getElem?, hold x hxr hxl]
          have hchOf : childrenOf b a.root
              = childrenOf a a.root ++ extra.filter (fun e => ! isRemoved b e) := by
            rw [childrenOf_eq_filter, childrenOf_eq_filter, hrootch, List.filter_append]
            congr 1
            apply List.filter_congr
            intro x hx
            obtain ⟨hxr, hxl⟩ := hmem_props x hx
            have hre : isRemoved b x = isRemoved a x := by
              unfold isRemoved
              rw [List.get?_eq_getElem?, List.get?_eq_getElem?, hold x hxr hxl]
            rw [hre]
          have hfil2 : (childrenOf b a.root).filter
              (fun cid => (stateAt b cid).action.action == d.action.action) = [nid] := by
            rw [hchOf, List.filter_append]
            have hleft : (childrenOf a a.root).filter
                (fun cid => (stateAt b cid).action.action == d.action.action) = [nid] := by
              rw [List.filter_congr (fun x hx => by
                rw [hstEq x (childrenOf_subset_childrenAt hx)])]
              exact hfil
            have hright : (extra.filter (fun e => ! isRemoved b e)).filter
                (fun cid => (stateAt b cid).action.action == d.action.action) = [] := by
              rw [List.filter_eq_nil_iff]
              intro x hx
              have hxe : x ∈ extra := List.mem_of_mem_filter hx
              have := hextra x hxe
              simpa [headTok] using this
            rw [hleft, hright]
            simp
          have hnidmem : nid ∈ childrenOf a a.root := by
            have hmem : nid ∈ (childrenOf a a.root).filter
                (fun cid => (stateAt a cid).action.action == d.action.action) := by
              rw [hfil]
              exact List.mem_singleton.2 rfl
            exact (List.mem_filter.mp hmem).1
          have hnidAt := childrenOf_subset_childrenAt hnidmem
          obtain ⟨hnr, hnl⟩ := hmem_props nid hnidAt
          have hstn : stateAt b nid = stateAt a nid := hstEq nid hnidAt
          have hpn : parentOf b nid = parentOf a nid := by
            unfold parentOf
            rw [List.get?_eq_getElem?, List.get?_eq_getElem?, hold nid hnr hnl]
          exact ⟨hfil2, by rw [hstn]; exact hact, by rw [hstn]; exact hfun,
            by rw [hpn]; exact hpar,
            spineAt_transfer_deep wf hold rest nid is hsub hnr hnl⟩

theorem root_filter_new {a b : Automaton} (wf : AutWF a)
    (hold : ∀ j, j ≠ a.root → j < a.arena.length → b.arena[j]? = a.arena[j]?)
    {N : Nat} (hchb : childrenAt b a.root = childrenAt a a.root ++ [N])
    (hNlive : isRemoved b N = false)
    {tok : PlayerAction} (hNtok : (stateAt b N).action.action = tok)
    (hfresh : ∀ c ∈ childrenOf a a.root, (stateAt a c).action.action ≠ tok) :
    childrenOf b a.root = childrenOf a a.root ++ [N] ∧
    (childrenOf b a.root).filter
      (fun cid => (stateAt b cid).action.action == tok) = [N] := by
  have hmem_props : ∀ x ∈ childrenAt a a.root, x ≠ a.root ∧ x < a.arena.length :=
    fun x hx => ⟨fun hxr => wf.root_not_child a.root (hxr ▸ hx),
      (wf.child_bounds a.root x hx).1⟩
  have hstEq : ∀ x ∈ childrenAt a a.root, stateAt b x = stateAt a x := by
    intro x hx
    obtain ⟨hxr, hxl⟩ := hmem_props x hx
    unfold stateAt
    rw [List.get?_eq_getElem?, List.get?_eq_getElem?, hold x hxr hxl]
  have hchOf : childrenOf b a.root = childrenOf a a.root ++ [N] := by
    rw [childrenOf_eq_filter, hchb, List.filter_append]
    have h1 : (childrenAt a a.root).filter (fun c => ! isRemoved b c)
        = childrenOf a a.root := by
      rw [childrenOf_eq_filter]
      apply List.filter_congr
      intro x hx
      obtain ⟨hxr, hxl⟩ := hmem_props x hx
      have hre : isRemoved b x = isRemoved a x := by
        unfold isRemoved
        rw [List.get?_eq_getElem?, List.get?_eq_getElem?, hold x hxr hxl]
      rw [hre]
    rw [h1]
    simp [hNlive]
  refine ⟨hchOf, ?_⟩
  rw [hchOf, List.filter_append]
  have hleft : (childrenOf a a.root).filter
      (fun cid => (stateAt b cid).action.action == tok) = [] := by
    rw [List.filter_eq_nil_iff]
    intro x hx
    have hxa := hstEq x (childrenOf_subset_childrenAt hx)
    rw [hxa]
    simp [hfresh x hx]
  have hright : ([N] : List Nat).filter
      (fun cid => (stateAt b cid).action.action == tok) = [N] := by
    simp [hNtok]
  rw [hleft, hright]
  simp

theorem stateAt_eq_of_nodeAt {a : Automaton} {i : Nat} {n : Node}
    (h : a.arena[i]? = some n) : stateAt a i = n.state := by
  unfold stateAt
  simp [List.get?_eq_getElem?, h]

theorem isRemoved_eq_of_nodeAt {a : Automaton} {i : Nat} {n : Node}
    (h : a.arena[i]? = some n) : isRemoved a i = n.removed := by
  unfold isRemoved
  simp [List.get?_eq_getElem?, h]

theorem clearPath_dropLast_rule : ∀ p : List NodeState,
    ∀ d ∈ (clearPath p).dropLast, d.rule = none
  | [] => by intro d hd; simp [clearPath] at hd
  | [x] => by intro d hd; simp [clearPath] at hd
  | x :: y :: xs => by
      intro d hd
      rw [show clearPath (x :: y :: xs) =
        { x with rule := none } :: clearPath (y :: xs) from rfl] at hd
      have hcne : clearPath (y :: xs) ≠ [] := by
        intro hc
        have := clearPath_length (y :: xs)
        rw [hc] at this
        simp at this
      obtain ⟨z, zs, hz⟩ : ∃ z zs, clearPath (y :: xs) = z :: zs := by
        cases hzz : clearPath (y :: xs) with
        | nil => exact absurd hzz hcne
        | cons z zs => exact ⟨z, zs, rfl⟩
      rw [hz, List.dropLast_cons₂] at hd
      rcases List.mem_cons.mp hd with hd | hd
      · subst hd
        rfl
      · have := clearPath_dropLast_rule (y :: xs)
        rw [hz] at this
        exact this d hd

theorem insertIter_fresh {a b : Automaton} (wf : AutWF a) {l : List NodeState}
    (hne : l ≠ [])
    (hrule : ∀ d ∈ l.dropLast, d.rule = none)
    (h : insertIter a l = some b)
    (hfresh : ∀ c ∈ childrenOf a a.root, (stateAt a c).action.action ≠ headTok l) :
    (∀ j, j ≠ a.root → j < a.arena.length → b.arena[j]? = a.arena[j]?) ∧
    childrenAt b a.root = childrenAt a a.root ++ [a.arena.length] ∧
    isRemoved b a.arena.length = false ∧
    (stateAt b a.arena.length).action.action = headTok l ∧
    SpineAt b a.root ((List.range l.length).map (fun i => a.arena.length + i)) l ∧
    (∀ i di, l[i]? = some di →
      b.arena[a.arena.length + i]? = some
        ⟨di, some (if i = 0 then a.root else a.arena.length + i - 1),
         if i = l.length - 1 then [] else [a.arena.length + i + 1], false⟩) ∧
    b.arena.length = a.arena.length + l.length := by
  obtain ⟨rn, hrootg⟩ := exists_nodeAt_of_live wf.root_live
  have hrlt : a.root < a.arena.length := isRemoved_false_lt wf.root_live
  have hAt : childrenAt a a.root = rn.children := childrenAt_eq_of_nodeAt hrootg
  have hlpos : 1 ≤ l.length := List.length_pos.mpr hne
  unfold insertIter at h
  cases hl : l.getLast? with
  | none =>
      rw [List.getLast?_eq_none_iff] at hl
      exact absurd hl hne
  | some last =>
      rw [hl] at h
      dsimp only at h
      cases hdl : l.dropLast with
      | nil =>
          have hlen1 : l.length = 1 := by
            have hld := congrArg List.length hdl
            rw [List.length_dropLast] at hld
            simp at hld
            omega
          obtain ⟨x, hx⟩ := List.length_eq_one.mp hlen1
          have hxl : x = last := by
            rw [hx] at hl
            simpa using hl
          rw [hxl] at hx
          subst hx
          rw [hdl] at h
          rw [show insertWalk a a.root [] = (a, a.root) from rfl] at h
          dsimp only at h
          have hdup : ((getLeaves a a.root).map (fun cid => stateAt a cid)).any
              (fun s => NodeState.peq s last) = false := by
            rw [List.any_eq_false]
            intro s hs
            obtain ⟨cid, hcid, rfl⟩ := List.mem_map.mp hs
            have hcid2 : cid ∈ childrenOf a a.root := List.mem_of_mem_filter hcid
            have htok := hfresh cid hcid2
            unfold NodeState.peq
            intro hcontra
            rw [Bool.and_eq_true] at hcontra
            obtain ⟨h1, _⟩ := hcontra
            rw [beq_iff_eq] at h1
            exact htok (show (stateAt a cid).action.action = headTok [last] from by
              rw [h1]; rfl)
          rw [hdup, if_neg Bool.false_ne_true] at h
          cases h
          have hbN : (appendNode a a.root last).1.arena[a.arena.length]? =
              some ⟨last, some a.root, [], false⟩ := by
            rw [nodeAt_appendNode hrootg, if_pos rfl]
          have hbroot : (appendNode a a.root last).1.arena[a.root]? =
              some { rn with children := rn.children ++ [a.arena.length] } := by
            rw [nodeAt_appendNode hrootg, if_neg (by omega), if_pos rfl]
          have hold : ∀ j, j ≠ a.root → j < a.arena.length →
              (appendNode a a.root last).1.arena[j]? = a.arena[j]? := by
            intro j hjr hjl
            rw [nodeAt_appendNode hrootg, if_neg (by omega), if_neg hjr]
          have hchb : childrenAt (appendNode a a.root last).1 a.root
              = childrenAt a a.root ++ [a.arena.length] := by
            rw [childrenAt_eq_of_nodeAt hbroot, hAt]
          have hlive : isRemoved (appendNode a a.root last).1 a.arena.length = false :=
            isRemoved_eq_of_nodeAt hbN
          have hstN : stateAt (appendNode a a.root last).1 a.arena.length = last :=
            stateAt_eq_of_nodeAt hbN
          have htokN : (stateAt (appendNode a a.root last).1
              a.arena.length).action.action = headTok [last] := by
            rw [hstN]
            rfl
          obtain ⟨hchOf, hfil⟩ := root_filter_new wf hold hchb hlive htokN hfresh
          refine ⟨hold, hchb, hlive, htokN, ?_, ?_, ?_⟩
          · apply spineAt_chain
            · intro i di hdi
              cases i with
              | zero =>
                  have hd : last = di := by simpa using hdi
                  subst hd
                  rw [Nat.add_zero]
                  refine ⟨by rw [hstN], by rw [hstN], hlive, ?_, ?_⟩
                  · simp [parentOf_eq_of_nodeAt hbN]
                  · simp [childrenAt_eq_of_nodeAt hbN]
              | succ k =>
                  rw [show ([last] : List NodeState)[k + 1]? = none from by simp] at hdi
                  cases hdi
            · intro _
              exact hfil
          · intro i di hdi
            cases i with
            | zero =>
                have hd : last = di := by simpa using hdi
                subst hd
                rw [Nat.add_zero]
                simpa using hbN
            | succ k =>
                rw [show ([last] : List NodeState)[k + 1]? = none from by simp] at hdi
                cases hdi
          · rw [appendNode_length hrootg]
            rfl
      | cons d ds =>
          have hlh : l.head? = some d := by
            cases l with
            | nil => exact absurd rfl hne
            | cons x xs =>
                cases xs with
                | nil =>
                    rw [show ([x] : List NodeState).dropLast = [] from rfl] at hdl
                    cases hdl
                | cons y ys =>
                    rw [show ((x :: y :: ys : List NodeState)).dropLast
                      = x :: (y :: ys).dropLast from rfl] at hdl
                    injection hdl with h1 _
                    rw [List.head?_cons, h1]
          have htk : headTok l = d.action.action := by
            cases l with
            | nil => exact absurd rfl hne
            | cons x xs =>
                have hxd : x = d := by simpa using hlh
                rw [show headTok (x :: xs) = x.action.action from rfl, hxd]
          have hfrw : ∀ d0, l.dropLast.head? = some d0 →
              getNodeIdOf a a.root d0.action.action = none := by
            intro d0 hd0
            rw [hdl] at hd0
            have hd0d : d = d0 := by simpa using hd0
            subst hd0d
            unfold getNodeIdOf
            rw [List.find?_eq_none]
            intro x hx
            have hxt := hfresh x hx
            rw [htk] at hxt
            simp [hxt]
          obtain ⟨wlen, wroot, wcur, _, wnef⟩ :=
            insertWalk_chain l.dropLast a a.root rn hrootg hfrw
          have hdlne : l.dropLast ≠ [] := by rw [hdl]; simp
          obtain ⟨w2eq, wold, wL, wchain⟩ := wnef hdlne
          have hdl1 : 1 ≤ l.dropLast.length := List.length_pos.mpr hdlne
          have hm : l.dropLast.length = l.length - 1 := by
            rw [List.length_dropLast]
          have hm2 : 2 ≤ l.length := by omega
          obtain ⟨dlast, hdlast⟩ : ∃ z, l.dropLast.getLast? = some z := by
            cases hgz : l.dropLast.getLast? with
            | none =>
                rw [List.getLast?_eq_none_iff] at hgz
                exact absurd hgz hdlne
            | some z => exact ⟨z, rfl⟩
          have hdi0 : l.dropLast[l.dropLast.length - 1]? = some dlast := by
            rw [← List.getLast?_eq_getElem?]
            exact hdlast
          have hbr := wchain (l.dropLast.length - 1) dlast hdi0
          rw [if_pos rfl] at hbr
          have hw2idx : a.arena.length + (l.dropLast.length - 1)
              = (insertWalk a a.root l.dropLast).2 := by
            rw [w2eq]
            omega
          rw [hw2idx] at hbr
          have hchw2 : childrenAt (insertWalk a a.root l.dropLast).1
              (insertWalk a a.root l.dropLast).2 = [] := childrenAt_eq_of_nodeAt hbr
          have hlv : getLeaves (insertWalk a a.root l.dropLast).1
              (insertWalk a a.root l.dropLast).2 = [] := by
            unfold getLeaves
            rw [childrenOf_eq_filter, hchw2]
            rfl
          rw [hlv] at h
          simp only [List.map_nil, List.any_nil] at h
          rw [if_neg Bool.false_ne_true] at h
          cases h
          have hsplit : l.dropLast ++ [last] = l :=
            List.dropLast_append_getLast? last (by rw [hl]; rfl)
          have hold : ∀ j, j ≠ a.root → j < a.arena.length →
              (appendNode (insertWalk a a.root l.dropLast).1
                (insertWalk a a.root l.dropLast).2 last).1.arena[j]? = a.arena[j]? := by
            intro j hjr hjl
            rw [nodeAt_appendNode hbr, if_neg (by rw [wlen]; omega),
              if_neg (by rw [← hw2idx]; omega)]
            exact wold j hjl hjr
          have hbroot : (appendNode (insertWalk a a.root l.dropLast).1
              (insertWalk a a.root l.dropLast).2 last).1.arena[a.root]? =
              some { rn with children := rn.children ++ [a.arena.length] } := by
            rw [nodeAt_appendNode hbr, if_neg (by rw [wlen]; omega),
              if_neg (by rw [← hw2idx]; omega)]
            exact wL
          have hchb : childrenAt (appendNode (insertWalk a a.root l.dropLast).1
              (insertWalk a a.root l.dropLast).2 last).1 a.root
              = childrenAt a a.root ++ [a.arena.length] := by
            rw [childrenAt_eq_of_nodeAt hbroot, hAt]
          have hleaf : (appendNode (insertWalk a a.root l.dropLast).1
              (insertWalk a a.root l.dropLast).2 last).1.arena[a.arena.length
                + (l.length - 1)]? =
              some ⟨last, some (insertWalk a a.root l.dropLast).2, [], false⟩ := by
            rw [nodeAt_appendNode hbr,
              if_pos (show a.arena.length + (l.length - 1)
                = (insertWalk a a.root l.dropLast).1.arena.length from by
                  rw [wlen]; omega)]
          have hbchain : ∀ i di, l.dropLast[i]? = some di →
              (appendNode (insertWalk a a.root l.dropLast).1
                (insertWalk a a.root l.dropLast).2 last).1.arena[a.arena.length + i]?
                = some
                  { state := ⟨di.action, none, di.func⟩,
                    parent := some (if i = 0 then a.root else a.arena.length + i - 1),
                    children := [a.arena.length + i + 1],
                    removed := false } := by
            intro i di hdi
            have hilt : i < l.dropLast.length := lt_of_getElem?_some hdi
            by_cases hi2 : i = l.dropLast.length - 1
            · rw [hi2] at hdi
              rw [hdi0] at hdi
              have hdieq : dlast = di := by simpa using hdi
              subst hdieq
              rw [hi2, hw2idx]
              rw [nodeAt_appendNode hbr,
                if_neg (by rw [← hw2idx, wlen]; omega), if_pos rfl]
              simp only [List.nil_append]
              rw [show (insertWalk a a.root l.dropLast).1.arena.length
                = (insertWalk a a.root l.dropLast).2 + 1 from by rw [wlen, w2eq]; omega]
            · have hfact := wchain i di hdi
              rw [if_neg hi2] at hfact
              rw [nodeAt_appendNode hbr, if_neg (by rw [wlen]; omega),
                if_neg (by rw [← hw2idx]; omega)]
              exact hfact
          have h0 : (appendNode (insertWalk a a.root l.dropLast).1
              (insertWalk a a.root l.dropLast).2 last).1.arena[a.arena.length]? =
              some
                { state := ⟨d.action, none, d.func⟩,
                  parent := some a.root,
                  children := [a.arena.length + 1],
                  removed := false } := by
            have := hbchain 0 d (by rw [hdl]; simp)
            rw [Nat.add_zero] at this
            rw [this]
            rw [if_pos rfl]
          have hlive : isRemoved (appendNode (insertWalk a a.root l.dropLast).1
              (insertWalk a a.root l.dropLast).2 last).1 a.arena.length = false :=
            isRemoved_eq_of_nodeAt h0
          have htokN : (stateAt (appendNode (insertWalk a a.root l.dropLast).1
              (insertWalk a a.root l.dropLast).2 last).1
              a.arena.length).action.action = headTok l := by
            rw [stateAt_eq_of_nodeAt h0, htk]
          obtain ⟨hchOf, hfil⟩ := root_filter_new wf hold hchb hlive htokN hfresh
          refine ⟨hold, hchb, hlive, htokN, ?_, ?_, ?_⟩
          · apply spineAt_chain
            · intro i di hdi
              have hilt : i < l.length := lt_of_getElem?_some hdi
              by_cases hi : i = l.length - 1
              · have hlget : l[l.length - 1]? = some last := by
                  rw [← List.getLast?_eq_getElem?]
                  exact hl
                rw [hi, hlget] at hdi
                have hdieq : last = di := by simpa using hdi
                subst hdieq
                rw [hi]
                refine ⟨by rw [stateAt_eq_of_nodeAt hleaf],
                  by rw [stateAt_eq_of_nodeAt hleaf],
                  isRemoved_eq_of_nodeAt hleaf, ?_, ?_⟩
                · rw [parentOf_eq_of_nodeAt hleaf]
                  rw [if_neg (by omega)]
                  rw [show (insertWalk a a.root l.dropLast).2
                    = a.arena.length + (l.length - 1) - 1 from by rw [w2eq]; omega]
                · rw [childrenAt_eq_of_nodeAt hleaf]
                  rw [if_pos rfl]
              · have hidl : l.dropLast[i]? = some di := by
                  have hgoal : l[i]? = l.dropLast[i]? := by
                    conv_lhs => rw [← hsplit]
                    rw [List.getElem?_append]
                    rw [if_pos (by omega)]
                  rw [← hgoal]
                  exact hdi
                have hfact := hbchain i di hidl
                refine ⟨by rw [stateAt_eq_of_nodeAt hfact],
                  by rw [stateAt_eq_of_nodeAt hfact],
                  isRemoved_eq_of_nodeAt hfact, ?_, ?_⟩
                · rw [parentOf_eq_of_nodeAt hfact]
                · rw [childrenAt_eq_of_nodeAt hfact]
                  rw [if_neg hi]
            · intro _
              exact hfil
          · intro i di hdi
            have hilt : i < l.length := lt_of_getElem?_some hdi
            have hlget : l[l.length - 1]? = some last := by
              rw [← List.getLast?_eq_getElem?]
              exact hl
            by_cases hi : i = l.length - 1
            · rw [hi, hlget] at hdi
              have hdieq : last = di := by simpa using hdi
              subst hdieq
              rw [hi]
              rw [if_neg (by omega), if_pos rfl]
              rw [show a.arena.length + (l.length - 1) - 1
                = (insertWalk a a.root l.dropLast).2 from by rw [w2eq]; omega]
              exact hleaf
            · have hidl : l.dropLast[i]? = some di := by
                have hgoal : l[i]? = l.dropLast[i]? := by
                  conv_lhs => rw [← hsplit]
                  rw [List.getElem?_append]
                  rw [if_pos (by omega)]
                rw [← hgoal]
                exact hdi
              have hfact := hbchain i di hidl
              have hmemdl : di ∈ l.dropLast := List.mem_iff_getElem?.mpr ⟨i, hidl⟩
              have hr := hrule di hmemdl
              have hstate : (⟨di.action, none, di.func⟩ : NodeState) = di := by
                cases di with
                | mk ac ru fn =>
                    simp only at hr
                    rw [hr]
              rw [if_neg hi, ← hstate]
              exact hfact
          · rw [appendNode_length hbr, wlen, List.length_dropLast]
            omega

theorem insertChecked_fresh {a b : Automaton} (wf : AutWF a) {p : List NodeState}
    (h : insertChecked a p = some b)
    (hfresh : ∀ c ∈ childrenOf a a.root, (stateAt a c).action.action ≠ headTok p) :
    verifyActionPath p = true ∧
    (∀ j, j ≠ a.root → j < a.arena.length → b.arena[j]? = a.arena[j]?) ∧
    childrenAt b a.root = childrenAt a a.root ++ [a.arena.length] ∧
    isRemoved b a.arena.length = false ∧
    (stateAt b a.arena.length).action.action = headTok p ∧
    SpineAt b a.root ((List.range p.length).map (fun i => a.arena.length + i))
      (clearPath p) ∧
    (∀ i di, (clearPath p)[i]? = some di →
      b.arena[a.arena.length + i]? = some
        ⟨di, some (if i = 0 then a.root else a.arena.length + i - 1),
         if i = p.length - 1 then [] else [a.arena.length + i + 1], false⟩) ∧
    b.arena.length = a.arena.length + p.length := by
  unfold insertChecked at h
  by_cases hver : verifyActionPath p
  · rw [if_pos hver] at h
    have hpne : p ≠ [] := by
      intro hp
      subst hp
      simp [verifyActionPath] at hver
    have hcne : clearPath p ≠ [] := by
      intro hcp
      have hcl := clearPath_length p
      rw [hcp] at hcl
      simp at hcl
      exact hpne (List.length_eq_zero.mp hcl.symm)
    have hfresh2 : ∀ c ∈ childrenOf a a.root,
        (stateAt a c).action.action ≠ headTok (clearPath p) := by
      intro c hc
      rw [clearPath_headTok]
      exact hfresh c hc
    obtain ⟨h1, h2, h3, h4, h5, h6, h7⟩ :=
      insertIter_fresh wf hcne (clearPath_dropLast_rule p) h hfresh2
    rw [clearPath_length] at h5 h6 h7
    rw [clearPath_headTok] at h4
    exact ⟨hver, h1, h2, h3, h4, h5, h6, h7⟩
  · rw [if_neg hver] at h
    cases h

theorem extend_spines : ∀ (ps : List (List NodeState)) (a b : Automaton),
    AutWF a → extend a ps = some b →
    (ps.map headTok).Pairwise (fun s t => s ≠ t) →
    (∀ p ∈ ps, ∀ c ∈ childrenOf a a.root,
      (stateAt a c).action.action ≠ headTok p) →
    ((∀ p ∈ ps, verifyActionPath p = true ∧
        ∃ ids, SpineAt b a.root ids (clearPath p)) ∧
     (∀ q ids, SpineAt a a.root ids q → headTok q ∉ ps.map headTok →
        SpineAt b a.root ids q)) := by
  intro ps
  induction ps with
  | nil =>
      intro a b wf h _ _
      unfold extend at h
      cases h
      exact ⟨fun p hp => absurd hp (List.not_mem_nil p), fun q ids hq _ => hq⟩
  | cons p rest ih =>
      intro a b wf h hpw hfr
      unfold extend at h
      rw [List.foldlM_cons] at h
      cases h1 : insertChecked a p with
      | none =>
          rw [h1] at h
          cases h
      | some a1 =>
          rw [h1] at h
          obtain ⟨wf1, hroot1, hcur1, _, _⟩ := insertChecked_inv wf h1
          obtain ⟨hver, hold, hchb, hlive, htokN, hsp, _, _⟩ :=
            insertChecked_fresh wf h1 (hfr p (by simp))
          obtain ⟨hchOf, _⟩ := root_filter_new wf hold hchb hlive htokN
            (hfr p (by simp))
          rw [List.map_cons, List.pairwise_cons] at hpw
          obtain ⟨hphead, hpw2⟩ := hpw
          have hfr1 : ∀ q ∈ rest, ∀ c ∈ childrenOf a1 a1.root,
              (stateAt a1 c).action.action ≠ headTok q := by
            intro q hq c hc
            rw [hroot1] at hc
            rw [hchOf] at hc
            rcases List.mem_append.mp hc with hcold | hcN
            · have hc2 := childrenOf_subset_childrenAt hcold
              have hcr : c ≠ a.root := fun hh => wf.root_not_child a.root (hh ▸ hc2)
              have hcl : c < a.arena.length := (wf.child_bounds _ _ hc2).1
              have hse : stateAt a1 c = stateAt a c := by
                unfold stateAt
                rw [List.get?_eq_getElem?, List.get?_eq_getElem?, hold c hcr hcl]
              rw [hse]
              exact hfr q (by simp [hq]) c hcold
            · have hceq : c = a.arena.length := by simpa using hcN
              subst hceq
              rw [htokN]
              exact hphead (headTok q) (List.mem_map_of_mem headTok hq)
          obtain ⟨ihmain, ihpres⟩ := ih a1 b wf1 h hpw2 hfr1
          refine ⟨?_, ?_⟩
          · intro q hq
            rcases List.mem_cons.mp hq with hq | hq
            · subst hq
              refine ⟨hver, (List.range q.length).map (fun i => a.arena.length + i), ?_⟩
              have hsp1 : SpineAt a1 a1.root
                  ((List.range q.length).map (fun i => a.arena.length + i))
                  (clearPath q) := by
                rw [hroot1]
                exact hsp
              have hnotin : headTok (clearPath q) ∉ rest.map headTok := by
                rw [clearPath_headTok]
                intro hmem
                exact hphead _ hmem rfl
              have hres := ihpres (clearPath q)
                ((List.range q.length).map (fun i => a.arena.length + i)) hsp1 hnotin
              rw [← hroot1]
              exact hres
            · obtain ⟨hv, ids, hsq⟩ := ihmain q hq
              refine ⟨hv, ids, ?_⟩
              rw [← hroot1]
              exact hsq
          · intro q ids hq hnot
            simp only [List.map_cons, List.mem_cons, not_or] at hnot
            obtain ⟨hnp, hnrest⟩ := hnot
            have hq1 : SpineAt a1 a.root ids q := by
              apply spineAt_transfer_root wf hold hchb ?_ hq
              intro e he
              have heq : e = a.arena.length := by simpa using he
              subst heq
              rw [htokN]
              exact fun hh => hnp (hh.symm)
            have hq2 : SpineAt a1 a1.root ids q := by
              rw [hroot1]
              exact hq1
            have hres := ihpres q ids hq2 hnrest
            rw [← hroot1]
            exact hres

theorem fromIter_spines {ps : List (List NodeState)} {a : Automaton}
    (hfi : fromIter ps = some a)
    (hdisj : (ps.map headTok).Pairwise (fun s t => s ≠ t)) :
    AutWF a ∧ a.current_state = a.root ∧
    ∀ p ∈ ps, verifyActionPath p = true ∧
      ∃ ids, SpineAt a a.root ids (clearPath p) := by
  unfold fromIter at hfi
  have hfr0 : ∀ p ∈ ps, ∀ c ∈ childrenOf Automaton.empty Automaton.empty.root,
      (stateAt Automaton.empty c).action.action ≠ headTok p := by
    intro p _ c hc
    rw [show childrenOf Automaton.empty Automaton.empty.root = [] from rfl] at hc
    simp at hc
  obtain ⟨hmain, _⟩ := extend_spines ps Automaton.empty a autWF_empty hfi hdisj hfr0
  obtain ⟨wfa, hra, hca, _, _⟩ := extend_inv autWF_empty hfi
  refine ⟨wfa, by rw [hca, hra]; rfl, ?_⟩
  intro p hp
  obtain ⟨hv, ids, hsp⟩ := hmain p hp
  refine ⟨hv, ids, ?_⟩
  rw [hra]
  exact hsp

theorem peq_refl (s : NodeState) : NodeState.peq s s = true := by
  unfold NodeState.peq
  simp

theorem zip_self {α : Type u} : ∀ l : List α, l.zip l = l.map (fun a => (a, a))
  | [] => rfl
  | x :: xs => by
      rw [List.zip_cons_cons, List.map_cons, zip_self xs]

theorem all_func_eq : ∀ (x y : List NodeState),
    x.map (fun d => d.func) = y.map (fun d => d.func) →
    x.all (fun v => v.func == none) = y.all (fun v => v.func == none) := by
  intro x
  induction x with
  | nil =>
      intro y h
      cases y with
      | nil => rfl
      | cons z zs => simp at h
  | cons w ws ih =>
      intro y h
      cases y with
      | nil => simp at h
      | cons z zs =>
          simp only [List.map_cons, List.cons.injEq] at h
          rw [List.all_cons, List.all_cons, h.1, ih zs h.2]

theorem verify_clearPath (p : List NodeState) :
    verifyActionPath (clearPath p) = verifyActionPath p := by
  unfold verifyActionPath
  rw [clearPath_getLast?]
  have h2 : (clearPath p).dropLast.all (fun v => v.func == none)
      = p.dropLast.all (fun v => v.func == none) :=
    all_func_eq _ _ (by
      rw [List.map_dropLast, List.map_dropLast, clearPath_map_func])
  rw [h2]

theorem find?_unique {α : Type u} {l : List α} {p : α → Bool} {a : α}
    (ha : a ∈ l) (hpa : p a = true) (huniq : ∀ x ∈ l, p x = true → x = a) :
    l.find? p = some a := by
  induction l with
  | nil => cases ha
  | cons x xs ih =>
      by_cases hx : p x = true
      · rw [List.find?_cons_of_pos _ hx]
        rw [huniq x (by simp) hx]
      · rw [List.find?_cons_of_neg _ (by simp [hx])]
        apply ih
        · rcases List.mem_cons.mp ha with h | h
          · subst h
            exact absurd hpa hx
          · exact h
        · intro y hy hpy
          exact huniq y (by simp [hy]) hpy

theorem convertGo_of_chain {b : Automaton} :
    ∀ (steps : List NodeState) (c start : Nat),
      (∀ i di, steps[i]? = some di →
        stateAt b (start + i) = di ∧
        isRemoved b (start + i) = false ∧
        childrenOf b (start + i) =
          (if i = steps.length - 1 then [] else [start + i + 1])) →
      (∀ d0, steps.head? = some d0 → getNodeIdFromChildren b c d0 = some start) →
      convertGo b c steps = some ((List.range steps.length).map (fun i => start + i)) := by
  intro steps
  induction steps with
  | nil =>
      intro c start _ _
      rfl
  | cons d rest ihs =>
      intro c start hnodes hfirst
      have hids : (List.range (d :: rest).length).map (fun i => start + i)
          = start :: (List.range rest.length).map (fun i => (start + 1) + i) := by
        rw [List.length_cons, List.range_succ_eq_map, List.map_cons, Nat.add_zero,
          List.map_map]
        congr 1
        apply List.map_congr_left
        intro i _
        simp only [Function.comp]
        omega
      have hn2 : ∀ i di, rest[i]? = some di →
          stateAt b (start + 1 + i) = di ∧
          isRemoved b (start + 1 + i) = false ∧
          childrenOf b (start + 1 + i) =
            (if i = rest.length - 1 then [] else [start + 1 + i + 1]) := by
        intro i di hdi
        obtain ⟨ha, hr, hc⟩ := hnodes (i + 1) di (by simpa using hdi)
        rw [show start + (i + 1) = start + 1 + i from by omega] at ha hr hc
        refine ⟨ha, hr, ?_⟩
        rw [hc]
        have hlt : i < rest.length := lt_of_getElem?_some hdi
        by_cases hi : i = rest.length - 1
        · rw [if_pos hi, if_pos (by simp only [List.length_cons]; omega)]
        · rw [if_neg hi, if_neg (by simp only [List.length_cons]; omega)]
      have hf2 : ∀ e0, rest.head? = some e0 →
          getNodeIdFromChildren b start e0 = some (start + 1) := by
        intro e0 he0
        have hrne : rest ≠ [] := by
          intro hr0
          rw [hr0] at he0
          cases he0
        have hrl : 1 ≤ rest.length := List.length_pos.mpr hrne
        obtain ⟨_, _, h0c⟩ := hnodes 0 d (by simp)
        rw [Nat.add_zero] at h0c
        rw [if_neg (by simp only [List.length_cons]; omega)] at h0c
        have he0g : rest[0]? = some e0 := by
          rw [← List.head?_eq_getElem?]
          exact he0
        obtain ⟨h1a, h1r, _⟩ := hnodes 1 e0 (by simpa using he0g)
        unfold getNodeIdFromChildren
        rw [h0c]
        rw [List.find?_cons_of_pos _ (by
          rw [h1r, h1a]
          simp [peq_refl])]
      unfold convertGo
      rw [hfirst d rfl]
      dsimp only
      rw [ihs start (start + 1) hn2 hf2]
      rw [show (some ((List.range rest.length).map (fun i => start + 1 + i))).map
        (fun x => start :: x)
        = some (start :: (List.range rest.length).map (fun i => start + 1 + i))
        from rfl]
      rw [hids]

theorem removeNode_eq {d : Automaton} {nid pid : Nat} {n np : Node}
    (hn : d.arena[nid]? = some n) (hp : n.parent = some pid) (hpid : pid ≠ nid)
    (hnp : d.arena[pid]? = some np) :
    removeNode d nid = { d with
      arena := (d.arena.set nid { n with removed := true, parent := none }).set pid
        { np with children := np.children.erase nid } } := by
  unfold removeNode
  rw [List.get?_eq_getElem?, hn]
  dsimp only
  rw [hp]
  dsimp only
  rw [List.get?_eq_getElem?, List.getElem?_set,
    if_neg (fun hh => hpid hh.symm), hnp]

theorem removeChain_cascade {R N : Nat} (hRN : R < N) {rootKids moreKids : List Nat}
    (hNnot : N ∉ rootKids) :
    ∀ (k : Nat) (d : Automaton) (nr : Node),
      1 ≤ k →
      (∀ i, i < k → ∃ ni : Node, d.arena[N + i]? = some ni ∧
        ni.parent = some (if i = 0 then R else N + i - 1) ∧
        ni.children = (if i = k - 1 then [] else [N + i + 1]) ∧
        ni.removed = false) →
      d.arena[R]? = some nr →
      nr.children = rootKids ++ (N :: moreKids) →
      (removeChain d ((List.range k).reverse.map (fun i => N + i))).arena.length
          = d.arena.length ∧
      (∀ j, j < N → j ≠ R →
        (removeChain d ((List.range k).reverse.map (fun i => N + i))).arena[j]?
          = d.arena[j]?) ∧
      (removeChain d ((List.range k).reverse.map (fun i => N + i))).arena[R]?
          = some { nr with children := rootKids ++ moreKids } ∧
      (∀ i, i < k → ∃ ni : Node,
        (removeChain d ((List.range k).reverse.map (fun i => N + i))).arena[N + i]?
          = some ni ∧ ni.children = [] ∧ ni.removed = true) ∧
      (∀ j, N + k ≤ j →
        (removeChain d ((List.range k).reverse.map (fun i => N + i))).arena[j]?
          = d.arena[j]?) := by
  intro k
  induction k with
  | zero =>
      intro d nr hk
      omega
  | succ k ih =>
      intro d nr _ hnodes hroot hrootch
      have hlist : (List.range (k + 1)).reverse.map (fun i => N + i)
          = (N + k) :: (List.range k).reverse.map (fun i => N + i) := by
        rw [List.range_succ, List.reverse_append]
        rfl
      obtain ⟨nk, hnk, hnkp, hnkc, hnkr⟩ := hnodes k (by omega)
      rw [if_pos (by omega : k = k + 1 - 1)] at hnkc
      have hNklt := lt_of_getElem?_some hnk
      have hchNk : childrenOf d (N + k) = [] := by
        rw [childrenOf_eq_filter, childrenAt_eq_of_nodeAt hnk, hnkc]
        rfl
      rw [hlist, removeChain_cons, hchNk,
        if_pos (show ([] : List Nat).isEmpty = true from rfl)]
      cases hk0 : k with
      | zero =>
          subst hk0
          rw [Nat.add_zero] at hnk hnkp hNklt hchNk
          rw [if_pos rfl] at hnkp
          have hrm := removeNode_eq hnk hnkp (by omega) hroot
          rw [Nat.add_zero, hrm]
          rw [show removeChain { d with
              arena := (d.arena.set N { nk with removed := true, parent := none }).set R
                { nr with children := nr.children.erase N } }
              ((List.range 0).reverse.map (fun i => N + i))
            = { d with
                arena := (d.arena.set N { nk with removed := true, parent := none }).set R
                  { nr with children := nr.children.erase N } } from rfl]
          have hRlt : R < d.arena.length := lt_of_getElem?_some hroot
          have herase : nr.children.erase N = rootKids ++ moreKids := by
            rw [hrootch, List.erase_append_right _ hNnot, List.erase_cons_head]
          refine ⟨by simp, ?_, ?_, ?_, ?_⟩
          · intro j hj hjR
            show ((d.arena.set N _).set R _)[j]? = _
            rw [List.getElem?_set, if_neg (fun hh => hjR hh.symm),
              List.getElem?_set, if_neg (by omega)]
          · show ((d.arena.set N _).set R _)[R]? = _
            rw [List.getElem?_set, if_pos rfl, List.length_set,
              if_pos (by omega : R < d.arena.length), herase]
          · intro i hi
            have hieq : i = 0 := by omega
            subst hieq
            refine ⟨{ nk with removed := true, parent := none }, ?_, hnkc, rfl⟩
            show ((d.arena.set N _).set R _)[N + 0]? = _
            rw [Nat.add_zero, List.getElem?_set, if_neg (by omega),
              List.getElem?_set, if_pos rfl, if_pos (by omega : N < d.arena.length)]
          · intro j hj
            show ((d.arena.set N _).set R _)[j]? = _
            rw [List.getElem?_set, if_neg (by omega),
              List.getElem?_set, if_neg (by omega)]
      | succ k2 =>
          have hkpos : 1 ≤ k := by omega
          rw [← hk0] at *
          obtain ⟨nk1, hnk1, hnk1p, hnk1c, hnk1r⟩ := hnodes (k - 1) (by omega)
          rw [if_neg (by omega)] at hnk1c
          have hNk1lt := lt_of_getElem?_some hnk1
          have hidx : N + k - 1 = N + (k - 1) := by omega
          rw [if_neg (by omega), hidx] at hnkp
          have hrm := removeNode_eq hnk hnkp (by omega) hnk1
          rw [hrm]
          have hkk : N + k = N + (k - 1) + 1 := by omega
          have herase1 : nk1.children.erase (N + k) = [] := by
            rw [hnk1c]
            rw [show N + (k - 1) + 1 = N + k from by omega]
            rw [List.erase_cons_head]
          set d2 : Automaton := { d with
            arena := (d.arena.set (N + k)
              { nk with removed := true, parent := none }).set
                (N + (k - 1)) { nk1 with children := nk1.children.erase (N + k) } }
            with hd2
          have hd2at : ∀ j, j ≠ N + k → j ≠ N + (k - 1) → d2.arena[j]? = d.arena[j]? := by
            intro j h1 h2
            show ((d.arena.set _ _).set _ _)[j]? = _
            rw [List.getElem?_set, if_neg (fun hh => h2 hh.symm),
              List.getElem?_set, if_neg (fun hh => h1 hh.symm)]
          have hd2k1 : d2.arena[N + (k - 1)]? =
              some { nk1 with children := [] } := by
            show ((d.arena.set _ _).set _ _)[N + (k - 1)]? = _
            rw [List.getElem?_set, if_pos rfl, List.length_set,
              if_pos (by omega : N + (k - 1) < d.arena.length), herase1]
          have hd2k : d2.arena[N + k]? =
              some { nk with removed := true, parent := none } := by
            show ((d.arena.set _ _).set _ _)[N + k]? = _
            rw [List.getElem?_set, if_neg (by omega),
              List.getElem?_set, if_pos rfl,
              if_pos (by omega : N + k < d.arena.length)]
          have hd2len : d2.arena.length = d.arena.length := by
            show ((d.arena.set _ _).set _ _).length = _
            simp
          obtain ⟨ihlen, ihold, ihroot, ihchain, ihhigh⟩ := ih d2 nr hkpos
            (by
              intro i hi
              by_cases hik : i = k - 1
              · subst hik
                exact ⟨{ nk1 with children := [] }, hd2k1,
                  by simpa using hnk1p, by simp [if_pos rfl], by simpa using hnk1r⟩
              · obtain ⟨ni, hni, hnip, hnic, hnir⟩ := hnodes i (by omega)
                refine ⟨ni, ?_, hnip, ?_, hnir⟩
                · rw [hd2at (N + i) (by omega) (by omega)]
                  exact hni
                · rw [hnic, if_neg (by omega), if_neg hik])
            (by
              rw [hd2at R (by omega) (by omega)]
              exact hroot)
            hrootch
          refine ⟨by rw [ihlen, hd2len], ?_, ihroot, ?_, ?_⟩
          · intro j hj hjR
            rw [ihold j hj hjR, hd2at j (by omega) (by omega)]
          · intro i hi
            by_cases hik : i = k
            · subst hik
              refine ⟨{ nk with removed := true, parent := none }, ?_, hnkc, rfl⟩
              rw [ihhigh (N + i) (by omega)]
              exact hd2k
            · exact ihchain i (by omega)
          · intro j hj
            rw [ihhigh j (by omega), hd2at j (by omega) (by omega)]

theorem sameNode_succ (x y : Automaton) (fuel i j : Nat) :
    sameNode x y (fuel + 1) i j =
      (if (childrenOf x i).length != (childrenOf y j).length then false
       else
         ((((childrenOf x i).map (fun c => (c, stateAt x c))).mergeSort nsLe).zip
           (((childrenOf y j).map (fun c => (c, stateAt y c))).mergeSort nsLe)).all
           (fun q =>
             (q.1.2.func.isSome == q.2.2.func.isSome) &&
             (if q.1.2.func.isSome then NodeState.peq q.1.2 q.2.2
              else q.1.2.action == q.2.2.action) &&
             sameNode x y fuel q.1.1 q.2.1)) := rfl

theorem sameNode_of_eq {x y : Automaton} (wfy : AutWF y)
    (hch : ∀ k, k < y.arena.length → childrenOf x k = childrenOf y k)
    (hst : ∀ k m, k < y.arena.length → m ∈ childrenOf y k →
      stateAt x m = stateAt y m) :
    ∀ (fuel i : Nat), y.arena.length ≤ fuel + i → i < y.arena.length →
      sameNode x y (fuel + 1) i i = true := by
  intro fuel
  induction fuel with
  | zero =>
      intro i hle hlt
      omega
  | succ f ihf =>
      intro i hle hlt
      rw [sameNode_succ, hch i hlt, bne_self_eq_false, if_neg Bool.false_ne_true]
      have hmap : (childrenOf y i).map (fun c => (c, stateAt x c))
          = (childrenOf y i).map (fun c => (c, stateAt y c)) := by
        apply List.map_congr_left
        intro c hcmem
        rw [hst i c hlt hcmem]
      rw [hmap, zip_self, List.all_eq_true]
      intro pr hpr
      obtain ⟨q0, hq0mem, hq0eq⟩ := List.mem_map.mp hpr
      subst hq0eq
      have hq2 : q0 ∈ (childrenOf y i).map (fun c => (c, stateAt y c)) :=
        List.mem_mergeSort.mp hq0mem
      obtain ⟨c, hcmem, hceq⟩ := List.mem_map.mp hq2
      subst hceq
      have hb := wfy.child_bounds i c (childrenOf_subset_childrenAt hcmem)
      have hrec := ihf c (by omega) (by omega)
      simp [peq_refl, hrec]


theorem headTok_clearPath_getElem0 : ∀ (p : List NodeState) (d0 : NodeState),
    (clearPath p)[0]? = some d0 → d0.action.action = headTok p
  | [], d0 => by
      intro h
      rw [show clearPath ([] : List NodeState) = [] from rfl] at h
      cases h
  | [x], d0 => by
      intro h
      rw [show clearPath [x] = [x] from rfl] at h
      have hx : x = d0 := by simpa using h
      subst hx
      rfl
  | x :: y :: xs, d0 => by
      intro h
      rw [show clearPath (x :: y :: xs)
        = { x with rule := none } :: clearPath (y :: xs) from rfl] at h
      have hx : { x with rule := none } = d0 := by simpa using h
      subst hx
      rfl

/-- The arena indices at which the fresh chains of a path family begin, when
the chains are laid out consecutively starting at `base`. -/
def chainStarts : Nat → List (List NodeState) → List Nat
  | _, [] => []
  | base, p :: rest => base :: chainStarts (base + p.length) rest

/-- A path's cleared steps laid out as a fresh parent/child chain starting at
arena index `start`, hanging off the node `R`. -/
def PathChain (b : Automaton) (R start : Nat) (p : List NodeState) : Prop :=
  ∀ i di, (clearPath p)[i]? = some di →
    b.arena[start + i]? = some
      ⟨di, some (if i = 0 then R else start + i - 1),
       if i = p.length - 1 then [] else [start + i + 1], false⟩

/-- Consecutively laid out fresh chains for a family of paths, filling the
arena from `base` to its end. -/
def Chains (b : Automaton) (R : Nat) : Nat → List (List NodeState) → Prop
  | base, [] => b.arena.length = base
  | base, p :: rest =>
      PathChain b R base p ∧ verifyActionPath p = true ∧ p ≠ [] ∧
      Chains b R (base + p.length) rest

theorem chains_nil (b : Automaton) (R base : Nat) :
    Chains b R base [] = (b.arena.length = base) := rfl

theorem chains_cons (b : Automaton) (R base : Nat) (p : List NodeState)
    (rest : List (List NodeState)) :
    Chains b R base (p :: rest) =
      (PathChain b R base p ∧ verifyActionPath p = true ∧ p ≠ [] ∧
       Chains b R (base + p.length) rest) := rfl

/-- How an automaton `d` relates to a base automaton `a` while fresh chains
for the paths `ps` (laid out from `base`) are present: old nodes other than
the root are untouched, and the root's children are the old ones followed by
the chain heads. -/
structure MidSpec (a d : Automaton) (base : Nat)
    (ps : List (List NodeState)) : Prop where
  root_eq : d.root = a.root
  base_ge : a.arena.length ≤ base
  old : ∀ j, j < a.arena.length → j ≠ a.root → d.arena[j]? = a.arena[j]?
  rootn : ∃ nr : Node, d.arena[a.root]? = some nr ∧
    nr.children = childrenAt a a.root ++ chainStarts base ps
  chains : Chains d a.root base ps

theorem chains_transfer {b b2 : Automaton} {R : Nat} :
    ∀ (ps : List (List NodeState)) (base : Nat),
      Chains b R base ps →
      (∀ j, base ≤ j → b2.arena[j]? = b.arena[j]?) →
      b2.arena.length = b.arena.length →
      Chains b2 R base ps := by
  intro ps
  induction ps with
  | nil =>
      intro base h hag hlen
      rw [chains_nil] at h
      rw [chains_nil, hlen]
      exact h
  | cons p rest ih =>
      intro base h hag hlen
      rw [chains_cons] at h
      obtain ⟨hpc, hv, hne, hrec⟩ := h
      rw [chains_cons]
      refine ⟨?_, hv, hne, ?_⟩
      · intro i di hdi
        rw [hag (base + i) (by omega)]
        exact hpc i di hdi
      · exact ih (base + p.length) hrec (fun j hj => hag j (by omega)) hlen

theorem chains_heads {d : Automaton} {R : Nat} :
    ∀ (ps : List (List NodeState)) (base : Nat),
      Chains d R base ps →
      ∀ s ∈ chainStarts base ps, ∃ q, q ∈ ps ∧
        isRemoved d s = false ∧ (stateAt d s).action.action = headTok q := by
  intro ps
  induction ps with
  | nil =>
      intro base _ s hs
      rw [show chainStarts base ([] : List (List NodeState)) = [] from rfl] at hs
      cases hs
  | cons p rest ih =>
      intro base h s hs
      rw [chains_cons] at h
      obtain ⟨hpc, hv, hne, hrec⟩ := h
      rw [show chainStarts base (p :: rest)
        = base :: chainStarts (base + p.length) rest from rfl] at hs
      rcases List.mem_cons.mp hs with hs | hs
      · subst hs
        have hlp : 1 ≤ p.length := List.length_pos.mpr hne
        obtain ⟨d0, hd0⟩ : ∃ z, (clearPath p)[0]? = some z :=
          ⟨_, List.getElem?_eq_getElem (by rw [clearPath_length]; omega)⟩
        have hn0 := hpc 0 d0 hd0
        rw [Nat.add_zero] at hn0
        refine ⟨p, by simp, isRemoved_eq_of_nodeAt hn0, ?_⟩
        rw [stateAt_eq_of_nodeAt hn0]
        exact headTok_clearPath_getElem0 p d0 hd0
      · obtain ⟨q, hq, hrm, htk⟩ := ih (base + p.length) hrec s hs
        exact ⟨q, by simp [hq], hrm, htk⟩

theorem extend_MidSpec : ∀ (ps : List (List NodeState)) (a b : Automaton),
    AutWF a → extend a ps = some b →
    (∀ p ∈ ps, ∀ c ∈ childrenOf a a.root,
      (stateAt a c).action.action ≠ headTok p) →
    (ps.map headTok).Pairwise (fun s t => s ≠ t) →
    MidSpec a b a.arena.length ps := by
  intro ps
  induction ps with
  | nil =>
      intro a b wf h _ _
      unfold extend at h
      cases h
      obtain ⟨nr, hnr⟩ := exists_nodeAt_of_live wf.root_live
      refine ⟨rfl, Nat.le_refl _, fun j _ _ => rfl, ⟨nr, hnr, ?_⟩, ?_⟩
      · rw [childrenAt_eq_of_nodeAt hnr,
          show chainStarts a.arena.length ([] : List (List NodeState)) = []
            from rfl,
          List.append_nil]
      · rw [chains_nil]
  | cons p rest ih =>
      intro a b wf h hfr hpw
      unfold extend at h
      rw [List.foldlM_cons] at h
      cases h1 : insertChecked a p with
      | none =>
          rw [h1] at h
          cases h
      | some b1 =>
          rw [h1] at h
          obtain ⟨wf1, hroot1, hcur1, _, _⟩ := insertChecked_inv wf h1
          obtain ⟨hver, hold, hchb, hlive, htokN, hsp, hnode, hlen1⟩ :=
            insertChecked_fresh wf h1 (hfr p (by simp))
          obtain ⟨hchOf, _⟩ := root_filter_new wf hold hchb hlive htokN
            (hfr p (by simp))
          rw [List.map_cons, List.pairwise_cons] at hpw
          obtain ⟨hphead, hpw2⟩ := hpw
          have hrlt : a.root < a.arena.length := isRemoved_false_lt wf.root_live
          have hfr1 : ∀ q ∈ rest, ∀ c ∈ childrenOf b1 b1.root,
              (stateAt b1 c).action.action ≠ headTok q := by
            intro q hq c hc
            rw [hroot1] at hc
            rw [hchOf] at hc
            rcases List.mem_append.mp hc with hcold | hcN
            · have hc2 := childrenOf_subset_childrenAt hcold
              have hcr : c ≠ a.root := fun hh => wf.root_not_child a.root (hh ▸ hc2)
              have hcl : c < a.arena.length := (wf.child_bounds _ _ hc2).1
              have hse : stateAt b1 c = stateAt a c := by
                unfold stateAt
                rw [List.get?_eq_getElem?, List.get?_eq_getElem?, hold c hcr hcl]
              rw [hse]
              exact hfr q (by simp [hq]) c hcold
            · have hceq : c = a.arena.length := by simpa using hcN
              subst hceq
              rw [htokN]
              exact hphead (headTok q) (List.mem_map_of_mem headTok hq)
          have hmid := ih b1 b wf1 h hfr1 hpw2
          refine ⟨?_, Nat.le_refl _, ?_, ?_, ?_⟩
          · rw [hmid.root_eq, hroot1]
          · intro j hj hjr
            rw [hmid.old j (by omega) (by rw [hroot1]; exact hjr)]
            exact hold j hjr hj
          · obtain ⟨nr1, hbnr1, hnr1ch⟩ := hmid.rootn
            rw [hroot1] at hbnr1 hnr1ch
            refine ⟨nr1, hbnr1, ?_⟩
            rw [hnr1ch, hchb, hlen1,
              show chainStarts a.arena.length (p :: rest)
                = a.arena.length :: chainStarts (a.arena.length + p.length) rest
                from rfl,
              List.append_assoc]
            rfl
          · rw [chains_cons]
            refine ⟨?_, hver, ?_, ?_⟩
            · intro i di hdi
              have hilt : i < p.length := by
                have hl2 := lt_of_getElem?_some hdi
                rw [clearPath_length] at hl2
                exact hl2
              rw [hmid.old (a.arena.length + i) (by omega)
                (by rw [hroot1]; omega)]
              exact hnode i di hdi
            · intro hp0
              subst hp0
              simp [verifyActionPath] at hver
            · rw [← hroot1, ← hlen1]
              exact hmid.chains

theorem remove_MidSpec {a : Automaton} (wf : AutWF a) :
    ∀ (ps : List (List NodeState)) (d : Automaton) (base : Nat),
      MidSpec a d base ps →
      (∀ p ∈ ps, ∀ c ∈ childrenOf a a.root,
        (stateAt a c).action.action ≠ headTok p) →
      (ps.map headTok).Pairwise (fun s t => s ≠ t) →
      ∃ c, removePaths d ps = some c ∧
        c.root = a.root ∧
        (∀ j, j < a.arena.length → j ≠ a.root → c.arena[j]? = a.arena[j]?) ∧
        ∃ nrf : Node, c.arena[a.root]? = some nrf ∧
          nrf.children = childrenAt a a.root := by
  intro ps
  induction ps with
  | nil =>
      intro d base hmid _ _
      obtain ⟨nr, hdnr, hnrch⟩ := hmid.rootn
      refine ⟨d, rfl, hmid.root_eq, hmid.old, nr, hdnr, ?_⟩
      rw [hnrch,
        show chainStarts base ([] : List (List NodeState)) = [] from rfl,
        List.append_nil]
  | cons p rest ih =>
      intro d base hmid hfr hpw
      have hrlt : a.root < a.arena.length := isRemoved_false_lt wf.root_live
      obtain ⟨nr, hdnr, hnrch⟩ := hmid.rootn
      have hcs := hmid.chains
      rw [chains_cons] at hcs
      obtain ⟨hpc, hver, hpne, hrec⟩ := hcs
      rw [List.map_cons, List.pairwise_cons] at hpw
      obtain ⟨hphead, hpw2⟩ := hpw
      have hm : (clearPath p).length = p.length := clearPath_length p
      have hm1 : 1 ≤ p.length := List.length_pos.mpr hpne
      have hstep : ∀ i, i < p.length → ∃ di, (clearPath p)[i]? = some di := by
        intro i hi
        exact ⟨_, List.getElem?_eq_getElem (by omega)⟩
      have hn : ∀ i di, (clearPath p)[i]? = some di →
          stateAt d (base + i) = di ∧
          isRemoved d (base + i) = false ∧
          childrenOf d (base + i) =
            (if i = (clearPath p).length - 1 then []
             else [base + i + 1]) := by
        intro i di hdi
        have hfact := hpc i di hdi
        have hilt : i < p.length := by
          have hl2 := lt_of_getElem?_some hdi
          omega
        refine ⟨stateAt_eq_of_nodeAt hfact, isRemoved_eq_of_nodeAt hfact, ?_⟩
        rw [childrenOf_eq_filter, childrenAt_eq_of_nodeAt hfact]
        by_cases hi : i = p.length - 1
        · rw [if_pos (show i = p.length - 1 from hi),
            if_pos (show i = (clearPath p).length - 1 from by omega)]
          rfl
        · rw [if_neg (show ¬ i = p.length - 1 from hi),
            if_neg (show ¬ i = (clearPath p).length - 1 from by omega)]
          obtain ⟨di1, hdi1⟩ := hstep (i + 1) (by omega)
          have hfact1 := hpc (i + 1) di1 hdi1
          have hlive1 : isRemoved d (base + (i + 1)) = false :=
            isRemoved_eq_of_nodeAt hfact1
          rw [show base + (i + 1) = base + i + 1 from by omega] at hlive1
          simp [hlive1]
      have hchAt : childrenAt d a.root
          = childrenAt a a.root ++
            (base :: chainStarts (base + p.length) rest) := by
        rw [childrenAt_eq_of_nodeAt hdnr, hnrch]
        rfl
      have hfirst : ∀ d0, (clearPath p).head? = some d0 →
          getNodeIdFromChildren d a.root d0 = some base := by
        intro d0 hd0
        have hd0g : (clearPath p)[0]? = some d0 := by
          rw [← List.head?_eq_getElem?]
          exact hd0
        have hfact0 := hpc 0 d0 hd0g
        rw [Nat.add_zero] at hfact0
        have hst0 : stateAt d base = d0 := stateAt_eq_of_nodeAt hfact0
        have hlive0 : isRemoved d base = false := isRemoved_eq_of_nodeAt hfact0
        have htokd0 : d0.action.action = headTok p :=
          headTok_clearPath_getElem0 p d0 hd0g
        unfold getNodeIdFromChildren
        apply find?_unique
        · rw [childrenOf_eq_filter, hchAt, List.mem_filter]
          exact ⟨by simp, by simp [hlive0]⟩
        · rw [hlive0, hst0]
          simp [peq_refl]
        · intro x hx hpx
          have hxat : x ∈ childrenAt a a.root ++
              (base :: chainStarts (base + p.length) rest) := by
            rw [childrenOf_eq_filter, hchAt] at hx
            exact List.mem_of_mem_filter hx
          have hxlive : isRemoved d x = false := by
            rw [childrenOf_eq_filter] at hx
            have hfl := (List.mem_filter.mp hx).2
            simpa using hfl
          rw [Bool.and_eq_true] at hpx
          obtain ⟨_, hpeq⟩ := hpx
          unfold NodeState.peq at hpeq
          rw [Bool.and_eq_true] at hpeq
          obtain ⟨hact, _⟩ := hpeq
          rw [beq_iff_eq] at hact
          have hxtok : (stateAt d x).action.action = headTok p := by
            rw [← hact, htokd0]
          rcases List.mem_append.mp hxat with hxo | hxbt
          · exfalso
            have hxr : x ≠ a.root := fun hh => wf.root_not_child a.root (hh ▸ hxo)
            have hxl : x < a.arena.length := (wf.child_bounds _ _ hxo).1
            have hag : d.arena[x]? = a.arena[x]? := hmid.old x hxl hxr
            have hre : isRemoved d x = isRemoved a x := by
              unfold isRemoved
              rw [List.get?_eq_getElem?, List.get?_eq_getElem?, hag]
            have hxmema : x ∈ childrenOf a a.root := by
              rw [childrenOf_eq_filter, List.mem_filter]
              refine ⟨hxo, ?_⟩
              rw [← hre, hxlive]
              rfl
            have hse : stateAt d x = stateAt a x := by
              unfold stateAt
              rw [List.get?_eq_getElem?, List.get?_eq_getElem?, hag]
            have hcontra := hfr p (by simp) x hxmema
            rw [← hse] at hcontra
            exact hcontra hxtok
          · rcases List.mem_cons.mp hxbt with hxb | hxt
            · exact hxb
            · exfalso
              obtain ⟨q, hq, _, htkq⟩ :=
                chains_heads rest (base + p.length) hrec x hxt
              rw [hxtok] at htkq
              exact hphead (headTok q) (List.mem_map_of_mem headTok hq) htkq
      have hconv : convertIntoNodeIds d (clearPath p) =
          some ((List.range (clearPath p).length).map (fun i => base + i)) := by
        unfold convertIntoNodeIds
        rw [hmid.root_eq]
        exact convertGo_of_chain (clearPath p) a.root base hn hfirst
      have hNnot : base ∉ childrenAt a a.root := by
        intro hmem
        have hb := (wf.child_bounds _ _ hmem).1
        have hbg := hmid.base_ge
        omega
      have hnrch2 : nr.children = childrenAt a a.root ++
          (base :: chainStarts (base + p.length) rest) := by
        rw [hnrch,
          show chainStarts base (p :: rest)
            = base :: chainStarts (base + p.length) rest from rfl]
      obtain ⟨hlenc, holdc, hrootc, hchainc, hhighc⟩ :=
        removeChain_cascade
          (show a.root < base from by
            have hbg := hmid.base_ge
            omega)
          hNnot p.length d nr hm1
          (by
            intro i hi
            obtain ⟨di, hdi⟩ := hstep i hi
            have hnodei := hpc i di hdi
            exact ⟨⟨di, some (if i = 0 then a.root else base + i - 1),
              if i = p.length - 1 then [] else [base + i + 1], false⟩,
              hnodei, rfl, rfl, rfl⟩)
          hdnr hnrch2
      have hrop : removeOnePath d p = some
          (removeChain d
            ((List.range p.length).reverse.map (fun i => base + i))) := by
        unfold removeOnePath
        rw [show p.isEmpty = false from by
          cases p with
          | nil => exact absurd rfl hpne
          | cons x xs => rfl]
        rw [if_neg Bool.false_ne_true]
        dsimp only
        rw [if_pos (by rw [verify_clearPath]; exact hver)]
        rw [hconv]
        dsimp only
        rw [hm, ← List.map_reverse]
      have hmid2 : MidSpec a
          (removeChain d ((List.range p.length).reverse.map (fun i => base + i)))
          (base + p.length) rest := by
        refine ⟨?_, ?_, ?_, ?_, ?_⟩
        · rw [removeChain_root]
          exact hmid.root_eq
        · have hbg := hmid.base_ge
          omega
        · intro j hj hjr
          rw [holdc j (by have hbg := hmid.base_ge; omega) hjr]
          exact hmid.old j hj hjr
        · exact ⟨{ nr with
            children := childrenAt a a.root ++ chainStarts (base + p.length) rest },
            hrootc, rfl⟩
        · exact chains_transfer rest (base + p.length) hrec
            (fun j hj => hhighc j hj) hlenc
      have hfr2 : ∀ q ∈ rest, ∀ c ∈ childrenOf a a.root,
          (stateAt a c).action.action ≠ headTok q := by
        intro q hq
        exact hfr q (by simp [hq])
      obtain ⟨c, hrem, hcroot, hcold, nrf, hcnr, hcch⟩ :=
        ih (removeChain d ((List.range p.length).reverse.map (fun i => base + i)))
          (base + p.length) hmid2 hfr2 hpw2
      refine ⟨c, ?_, hcroot, hcold, nrf, hcnr, hcch⟩
      unfold removePaths
      rw [List.foldlM_cons, hrop]
      exact hrem

end Automaton

/-! ## Card and configuration data model (`src/card/…`, `src/config.rs`) -/

/-- `CardColor` from `src/card/card_color.rs`. -/
inductive CardColor where
  | red
  | black
  | undefined (s : String)
  deriving DecidableEq, Repr

/-- `CommonCardType` from `src/card/common_card_type.rs`. -/
inductive CommonCardType where
  | spade
  | diamond
  | club
  | heart
  deriving DecidableEq, Repr

/-- `CardType` from `src/card/card_type.rs`. -/
inductive CardType where
  | common (t : CommonCardType)
  | rule
  | jocker (desc : String) (color : CardColor)
  deriving DecidableEq, Repr

/-- `CardValue` from `src/card/card_value.rs`. -/
inductive CardValue where
  | number (n : Int)
  | minusInfinity
  | plusInfinity
  deriving DecidableEq, Repr

/-- `Card` from `src/card/card.rs`. -/
structure Card where
  value : CardValue
  sign : CardType
  rule : Option String
  owner_can_see_it : Bool
  deriving DecidableEq, Repr

/-- `CardEffectsKey` from `src/config.rs`. -/
structure CardEffectsKey where
  c_type : Option CardType
  value : Option CardValue
  deriving DecidableEq, Repr

/-- `SingOrMult<String>` from `src/config.rs` (word alternatives of a
`Say` requirement). -/
inductive SingOrMultStr where
  | single (w : String)
  | multiple (ws : List String)
  deriving DecidableEq, Repr

/-- `CardPlayerAction` from `src/config.rs`. -/
inductive CardPlayerAction where
  | say (words : List SingOrMultStr)
  | physical (name : String)
  deriving DecidableEq, Repr

/-- `PlayerTurnUpdater` from `src/mao/mao_core.rs` (`Set(usize)` /
`Update(isize)`). -/
inductive PlayerTurnUpdater where
  | set (i : Nat)
  | update (k : Int)
  deriving DecidableEq, Repr

/-- `PlayerTurnChange` from `src/mao/mao_core.rs`. -/
inductive PlayerTurnChange where
  | update (u : PlayerTurnUpdater)
  | rotate (u : PlayerTurnUpdater)
  deriving DecidableEq, Repr

/-- Rust `Default for PlayerTurnChange`: `Update(Update(1))`. -/
def PlayerTurnChange.defaultChange : PlayerTurnChange := .update (.update 1)

/-- `SingleCardEffect` from `src/config.rs`. -/
inductive SingleCardEffect where
  | playerTurnChange (c : PlayerTurnChange)
  | cardPlayerAction (a : CardPlayerAction)
  deriving DecidableEq, Repr

/-- `SingOrMult<SingleCardEffect>`: the value type `get_card_effect` in
`src/mao/mao_core.rs` matches the effect table against. -/
inductive SingOrMultEffect where
  | single (e : SingleCardEffect)
  | multiple (es : List SingleCardEffect)
  deriving DecidableEq, Repr

/-! ## Events and verdicts (`src/mao_event.rs`, `src/mao_event/mao_event_result.rs`) -/

/-- `StackTarget`. -/
inductive StackTarget where
  | player (i : Nat)
  | stack (i : Nat)
  deriving DecidableEq, Repr

/-- `CardEvent` from `src/mao_event/card_event.rs` (the played card carried
as the plain `Card` that `get_card_effects` consumes). -/
structure CardEvent where
  played_card : Card
  card_index : Nat
  player_index : Nat
  stack_index : Option Nat
  deriving DecidableEq, Repr

/-- `MaoEvent` from `src/mao_event.rs`. -/
inductive MaoEvent where
  | playedCardEvent (ce : CardEvent)
  | discardCardEvent (ce : CardEvent)
  | drawedCardEvent (ce : CardEvent)
  | giveCardEvent (card : Card) (from_player_index : Nat) (target : StackTarget)
  | stackPropertyRunsOut (empty_stack_index : StackTarget)
  | gameStart
  | endPlayerTurn (events : List MaoEvent)
  | playerPenality (player_target : Nat)
  | verifyEvent
  | sayEvent (message : String) (player_index : Nat)
  | physicalEvent (physical_name : String) (player_index : Nat)
  deriving Repr

instance : Inhabited MaoEvent := ⟨.gameStart⟩

mutual

/-- Rust `PartialEq for MaoEvent` (structural, recursing into the
`EndPlayerTurn` payload). -/
def beqEvent : MaoEvent → MaoEvent → Bool
  | .playedCardEvent a, .playedCardEvent b => a == b
  | .discardCardEvent a, .discardCardEvent b => a == b
  | .drawedCardEvent a, .drawedCardEvent b => a == b
  | .giveCardEvent c f t, .giveCardEvent c2 f2 t2 => c == c2 && f == f2 && t == t2
  | .stackPropertyRunsOut a, .stackPropertyRunsOut b => a == b
  | .gameStart, .gameStart => true
  | .endPlayerTurn es, .endPlayerTurn fs => beqEvents es fs
  | .playerPenality a, .playerPenality b => a == b
  | .verifyEvent, .verifyEvent => true
  | .sayEvent m p, .sayEvent m2 p2 => m == m2 && p == p2
  | .physicalEvent n p, .physicalEvent n2 p2 => n == n2 && p == p2
  | _, _ => false

/-- Element-wise `PartialEq` on event lists. -/
def beqEvents : List MaoEvent → List MaoEvent → Bool
  | [], [] => true
  | e :: es, f :: fs => beqEvent e f && beqEvents es fs
  | _, _ => false

end

/-- `MaoEvent::is_recordable`. -/
def MaoEvent.isRecordable : MaoEvent → Bool
  | .gameStart | .verifyEvent | .stackPropertyRunsOut _
  | .endPlayerTurn _ | .playerPenality _ => false
  | _ => true

/-- `MaoEvent::can_change_turn`. -/
def MaoEvent.canChangeTurn : MaoEvent → Bool
  | .playedCardEvent _ | .drawedCardEvent _ => true
  | _ => false

/-- The `player_index` extraction in the `on_turn_ends` backward walk. -/
def MaoEvent.playerRes : MaoEvent → Option Nat
  | .playedCardEvent ce | .discardCardEvent ce | .drawedCardEvent ce => some ce.player_index
  | .sayEvent _ pi | .physicalEvent _ pi => some pi
  | _ => none

/-- `Disallow` from `src/mao_event/mao_event_result.rs` (penalty hook as tag). -/
structure Disallow where
  rule : String
  msg : String
  penality : Option Nat
  deriving DecidableEq, Repr

/-- `CardPlayerActionType` (the `forgot_type` discriminator). -/
inductive CardPlayerActionType where
  | sayKind
  | doKind
  | otherKind (s : String)
  deriving DecidableEq, Repr

/-- `ForgotSomething` (penalty hook as tag). -/
structure ForgotSomething where
  msg : Option String
  forgot_type : CardPlayerActionType
  rule : Option String
  penality : Option Nat
  player_pseudo : String
  deriving DecidableEq, Repr

/-- `WrongPlayerInteraction`: the two variants `on_turn_ends` and the
resolution pipeline construct and match. -/
inductive WrongPlayerInteraction where
  | disallow (d : Disallow)
  | forgotSomething (f : ForgotSomething)
  deriving DecidableEq, Repr

/-- `WrongPlayerInteraction::forgot_saying_basic`. -/
def forgotSayingBasic (pseudo : String) : WrongPlayerInteraction :=
  .forgotSomething ⟨none, .sayKind, none, none, pseudo⟩

/-- `WrongPlayerInteraction::forgot_doing_basic`. -/
def forgotDoingBasic (pseudo : String) : WrongPlayerInteraction :=
  .forgotSomething ⟨none, .doKind, none, none, pseudo⟩

/-- `Necessary` from `src/mao_event/mao_event_result.rs`. -/
inductive Necessary where
  | basicRule (b : Bool)
  | importedRule (necessary : Bool) (rule_name : String)
  deriving DecidableEq, Repr

/-- `MaoEventResultType` (the three callback-carrying variants hold opaque
tags interpreted by the external-rule semantics). -/
inductive MaoEventResultType where
  | ignored
  | disallow (d : Disallow)
  | forgetSomething (f : ForgotSomething)
  | overrideBasicRule (cb : Nat)
  | executeBeforeTurnChange (cb : Nat)
  | executeAfterTurnChange (cb : Nat)
  deriving DecidableEq, Repr

/-- Is this verdict `Ignored`? -/
def MaoEventResultType.isIgnoredB : MaoEventResultType → Bool
  | .ignored => true
  | _ => false

/-- Is this verdict one of the three deferred (callback) kinds? -/
def MaoEventResultType.isDeferrableB : MaoEventResultType → Bool
  | .overrideBasicRule _ | .executeBeforeTurnChange _ | .executeAfterTurnChange _ => true
  | _ => false

/-- Is this verdict `OverrideBasicRule`? -/
def MaoEventResultType.isOverrideB : MaoEventResultType → Bool
  | .overrideBasicRule _ => true
  | _ => false

/-- `MaoEventResult` (the cross-rule callback as an opaque tag). -/
structure MaoEventResult where
  necessary : Necessary
  res_type : MaoEventResultType
  other_rules_callback : Option Nat
  deriving DecidableEq, Repr

/-- Ghost trace of the resolution pipeline's externally visible actions:
which hooks it invokes and whether it performs the engine's default
turn-advance, in execution order. -/
inductive TraceStep where
  | beforeHook (cb : Nat)
  | defaultTurnAdvance
  | afterHook (cb : Nat)
  deriving DecidableEq, Repr

/-! ## Game-core state (`src/mao/mao_core.rs`, `src/stack.rs`, `src/player.rs`) -/

/-- `StackType` from `src/stack/stack_type.rs`. -/
inductive StackType where
  | playable
  | drawable
  | discardable
  deriving DecidableEq, Repr

/-- `Stack` from `src/stack.rs`. -/
structure Stack where
  cards : List Card
  visible : Bool
  stack_type : List StackType
  in_fron_of : Option String
  deriving DecidableEq, Repr

/-- `Player` from `src/player.rs`. -/
structure Player where
  pseudo : String
  hand : List Card
  deriving DecidableEq, Repr

/-- A loaded rule module as the game core sees it: its declared name and
optional automaton paths (`RuleData`); the module's code itself is external
native code and is modelled by the `RuleSem` interpretation below. -/
structure Rule where
  name : String
  actions : Option (List (List NodeState))
  deriving DecidableEq, Repr

/-- `MaoCore` from `src/mao/mao_core.rs` (the `config` field reduced to its
`cards_effects` table, keyed as `get_card_effect` reads it). -/
structure MaoCore where
  available_rules : List Rule
  activated_rules : List Nat
  the_stacks : List Stack
  players : List Player
  player_turn : Nat
  previous_player_turn : Option Nat
  turn : Int
  player_events : List MaoEvent
  can_play_on_new_stack : Bool
  automaton : Automaton
  dealer : Nat
  cards_effects : List (CardEffectsKey × SingOrMultEffect)
  possible_actions : List String

/-- Behaviour of the externally loaded rule modules and of the function
pointers carried inside verdicts: `onEvent` interprets a rule's `on_event`
symbol, `crossCall` an `other_rules_callback`, `hookCall` a turn-change
`CallbackFunction`, `penCall` a `PenalityCallbackFunction`.  Each receives
and returns the whole game state, like the `&mut MaoCore` handle in Rust. -/
structure RuleSem where
  onEvent : Nat → MaoEvent → MaoCore → Res (MaoCore × MaoEventResult)
  crossCall : Nat → MaoCore → MaoEvent → List MaoEventResult → Res (MaoCore × MaoEventResult)
  hookCall : Nat → MaoCore → Nat → Res MaoCore
  penCall : Nat → MaoCore → Nat → Res MaoCore

namespace MaoCore

/-- `update_turn` (`src/mao/mao_core.rs`): `none` models the panic of
`%` / `rem_euclid` by a zero player count. -/
def updateTurn (m : MaoCore) (changes : PlayerTurnChange) : Option MaoCore :=
  let nbPlayers := m.players.length
  let stepIt : MaoCore → Int → Option MaoCore := fun c step =>
    if nbPlayers = 0 then none
    else
      some { c with player_turn :=
        (((c.player_turn : Int) + (c.turn * step).tmod (nbPlayers : Int)).emod
          (nbPlayers : Int)).toNat }
  match changes with
  | .update (.set i) => some { m with player_turn := i }
  | .update (.update k) => stepIt m k
  | .rotate (.set i) => some { m with turn := -m.turn, player_turn := i }
  | .rotate (.update k) => stepIt { m with turn := -m.turn } k

/-- `get_card_effect`, as a function of the effect table (`config.cards_effects.get(&key)`
unpacked into the single / multiple effect list). -/
def tableEffect (tbl : List (CardEffectsKey × SingOrMultEffect)) (key : CardEffectsKey) :
    List SingleCardEffect :=
  match tbl.find? (fun p => p.1 == key) with
  | some (_, .single s) => [s]
  | some (_, .multiple v) => v
  | none => []

/-- `get_card_effects` as a function of the effect table: the three lookups
(value only, type only, exact pair), concatenated. -/
def tableEffects (tbl : List (CardEffectsKey × SingOrMultEffect)) (card : Card) :
    List SingleCardEffect :=
  tableEffect tbl ⟨none, some card.value⟩ ++
  tableEffect tbl ⟨some card.sign, none⟩ ++
  tableEffect tbl ⟨some card.sign, some card.value⟩

/-- `get_card_effect`: single-key lookup in the state's effect table. -/
def getCardEffect (m : MaoCore) (key : CardEffectsKey) : List SingleCardEffect :=
  tableEffect m.cards_effects key

/-- `get_card_effects`: the three lookups on the state's effect table. -/
def getCardEffects (m : MaoCore) (card : Card) : List SingleCardEffect :=
  tableEffects m.cards_effects card

/-- The `for change in changes` loop of `next_player`. -/
def applyChanges (m : MaoCore) : List PlayerTurnChange → Option MaoCore
  | [] => some m
  | c :: rest => (updateTurn m c).bind (fun m2 => applyChanges m2 rest)

/-- `next_player`: the engine's default turn handling for an event.
`todo!()` / `unreachable!()` arms are `panicked`. -/
def nextPlayer (m : MaoCore) (player_index : Nat) (event : MaoEvent)
    (took_penality : Bool) : Res MaoCore :=
  match event with
  | .playedCardEvent ce =>
      if player_index = m.player_turn then
        if took_penality then
          match updateTurn m .defaultChange with
          | some m2 => .ok m2
          | none => .panicked
        else
          let m2 := { m with previous_player_turn := some m.player_turn }
          let changes := (getCardEffects m2 ce.played_card).filterMap (fun eff =>
            match eff with
            | .playerTurnChange ch => some ch
            | .cardPlayerAction _ => none)
          if changes.isEmpty then
            match updateTurn m2 .defaultChange with
            | some m3 => .ok m3
            | none => .panicked
          else
            match applyChanges m2 changes with
            | some m3 => .ok m3
            | none => .panicked
      else .ok m
  | .discardCardEvent _ => .panicked
  | .drawedCardEvent _ =>
      if player_index = m.player_turn then
        match updateTurn m .defaultChange with
        | some m2 => .ok { m2 with previous_player_turn := some m2.player_turn }
        | none => .panicked
      else .ok m
  | .giveCardEvent _ _ _ => .ok m
  | .stackPropertyRunsOut _ => .ok m
  | .gameStart => .ok m
  | .endPlayerTurn _ => .ok m
  | .verifyEvent => .panicked
  | .playerPenality _ => .ok m
  | .sayEvent _ _ => .panicked
  | .physicalEvent _ _ => .panicked

/-- `get_specific_stacks`: indexed stacks carrying any of the given types. -/
def getSpecificStacks (m : MaoCore) (types : List StackType) : List (Nat × Stack) :=
  m.the_stacks.enum.filter
    (fun p => p.2.stack_type.any (fun t => types.contains t))

/-- The rule-module dispatch loop of `on_event` (`for i in 0..len`,
re-reading `activated_rules[i]` each iteration; a missing rule index is the
`unwrap` panic). -/
def onEventLoop (sem : RuleSem) (event : MaoEvent) :
    Nat → Nat → MaoCore → List MaoEventResult → Res (MaoCore × List MaoEventResult)
  | 0, _, m, acc => .ok (m, acc)
  | remaining + 1, i, m, acc =>
      match m.activated_rules.get? i with
      | none => .panicked
      | some ridx =>
          match m.available_rules.get? ridx with
          | none => .panicked
          | some _ =>
              match sem.onEvent ridx event m with
              | .ok (m2, r) => onEventLoop sem event remaining (i + 1) m2 (acc ++ [r])
              | .error e => .error e
              | .panicked => .panicked

/-- `on_event`: record the event if recordable, then collect one verdict per
activated rule, in activation order. -/
def onEvent (sem : RuleSem) (m : MaoCore) (event : MaoEvent) :
    Res (MaoCore × List MaoEventResult) :=
  let m := if event.isRecordable
    then { m with player_events := m.player_events ++ [event] }
    else m
  onEventLoop sem event m.activated_rules.length 0 m []

/-- The cross-rule callback pass of the resolution pipeline: invoke every
verdict's `other_rules_callback` (over all verdicts, in order), passing the
first-pass deferred list. -/
def crossLoop (sem : RuleSem) (prev : MaoEvent) (notIgnored : List MaoEventResult) :
    List MaoEventResult → MaoCore → Res (MaoCore × List MaoEventResult)
  | [], m => .ok (m, [])
  | r :: rest, m =>
      match r.other_rules_callback with
      | none => crossLoop sem prev notIgnored rest m
      | some tag =>
          sem.crossCall tag m prev notIgnored >>= fun p =>
          (crossLoop sem prev notIgnored rest p.1).map (fun q => (q.1, p.2 :: q.2))

/-- Run a list of turn-change hooks in order, recording each invocation. -/
def hookLoop (sem : RuleSem) (player_index : Nat) (mk : Nat → TraceStep) :
    List Nat → MaoCore → Res (MaoCore × List TraceStep)
  | [], m => .ok (m, [])
  | f :: rest, m =>
      sem.hookCall f m player_index >>= fun m2 =>
      (hookLoop sem player_index mk rest m2).map (fun q => (q.1, mk f :: q.2))

/-- `propagate_on_event_results_and_execute`.  Returns the final state, the
`Disallow`/`ForgotSomething` violations handed back to the caller, and the
ghost trace of hook invocations / default turn-advance. -/
def propagate (sem : RuleSem) (m : MaoCore) (player_index : Nat)
    (previous_event : MaoEvent) (event_results : List MaoEventResult) :
    Res (MaoCore × List WrongPlayerInteraction × List TraceStep) :=
  if event_results.any (fun r => ! r.res_type.isIgnoredB) then
    let wrong := event_results.filterMap (fun r =>
      match r.res_type with
      | .disallow d => some (.disallow d)
      | .forgetSomething f => some (.forgotSomething f)
      | _ => none)
    let notIgnored := event_results.filter (fun r => r.res_type.isDeferrableB)
    crossLoop sem previous_event notIgnored event_results m >>= fun p =>
    let notIgnored2 := notIgnored ++ p.2.filter (fun r => r.res_type.isDeferrableB)
    let overrided := notIgnored2.any (fun v => ! v.res_type.isOverrideB)
    let before := notIgnored2.filterMap (fun v =>
      match v.res_type with
      | .executeBeforeTurnChange f => some f
      | _ => none)
    let after := notIgnored2.filterMap (fun v =>
      match v.res_type with
      | .executeAfterTurnChange f => some f
      | _ => none)
    hookLoop sem player_index .beforeHook before p.1 >>= fun q1 =>
    (if ! overrided then
       (nextPlayer q1.1 player_index previous_event false).map
         (fun m2 => (m2, [TraceStep.defaultTurnAdvance]))
     else .ok (q1.1, [])) >>= fun q2 =>
    hookLoop sem player_index .afterHook after q2.1 >>= fun q3 =>
    .ok (q3.1, wrong, q1.2 ++ q2.2 ++ q3.2)
  else .ok (m, [], [])

/-- The collapsing pass of `refill_drawable_stacks` over the playable /
discardable stacks, in index order: a playable stack keeps only its top
card, a (non-playable) discardable stack is emptied; everything collected
goes to the refill pile in traversal order. -/
def collapsePass : List Stack → List Card × List Stack
  | [] => ([], [])
  | s :: rest =>
      let (cards, rest2) := collapsePass rest
      if s.stack_type.any (fun t => [StackType.playable, StackType.discardable].contains t) then
        if s.stack_type.contains StackType.playable then
          match s.cards.getLast? with
          | some last =>
              (s.cards.dropLast ++ cards, { s with cards := [last] } :: rest2)
          | none => (cards, s :: rest2)
        else (s.cards ++ cards, { s with cards := [] } :: rest2)
      else (cards, s :: rest2)

/-- `refill_drawable_stacks`. -/
def refillDrawableStacks (sem : RuleSem) (m : MaoCore) (stack_index : Option Nat)
    (check_rules : Bool) : Res MaoCore :=
  (match stack_index with
   | some i => .ok i
   | none =>
       match (getSpecificStacks m [.drawable]).head? with
       | some p => .ok p.1
       | none => .error .noStackAvailable) >>= fun stackIndex =>
  (if check_rules then
     onEvent sem m (.stackPropertyRunsOut (.stack stackIndex)) >>= fun p =>
     if p.2.any (fun r => ! r.res_type.isIgnoredB) then .ok none
     else .ok (some p.1)
   else .ok (some m)) >>= fun state? =>
  match state? with
  | none => .ok m
  | some m =>
      let (cards, stacks2) := collapsePass m.the_stacks
      let m := { m with the_stacks := stacks2 }
      match m.the_stacks.get? stackIndex with
      | none => .error (.invalidStackIndex stackIndex m.the_stacks.length)
      | some s =>
          .ok { m with
            the_stacks := m.the_stacks.set stackIndex ({ s with cards := s.cards ++ cards }) }

/-- The inner `for` loop of `draw_multiple_cards_unchosen` over the
drawable stacks (`break` once `nb` cards have been gathered; a stack with
enough cards yields its top `nb` cards, otherwise it is emptied). -/
def drawPass : List Nat → MaoCore → Nat → List Card → MaoCore × Nat × List Card
  | [], m, nb, cards => (m, nb, cards)
  | idx :: rest, m, nb, cards =>
      match m.the_stacks.get? idx with
      | none => (m, nb, cards)
      | some s =>
          if s.cards.length ≥ nb then
            let taken := s.cards.drop (s.cards.length - nb)
            let m2 := { m with
              the_stacks := m.the_stacks.set idx ({ s with cards := s.cards.take (s.cards.length - nb) }) }
            (m2, 0, cards ++ taken)
          else
            let m2 := { m with
              the_stacks := m.the_stacks.set idx ({ s with cards := [] }) }
            drawPass rest m2 (nb - s.cards.length) (cards ++ s.cards)

/-- The `while nb != 0` loop of `draw_multiple_cards_unchosen`.  The fuel
bounds the iteration count; `2·nb + 3` iterations always suffice because
every pass through a non-empty drawable stack strictly decreases `nb` and
two consecutive all-empty passes abort with `NotEnoughCards`. -/
def drawLoop (sem : RuleSem) :
    Nat → MaoCore → Nat → Bool → List Card → Res (MaoCore × List Card)
  | 0, _, _, _, _ => .panicked
  | fuel + 1, m, nb, emptyFirst, cards =>
      if nb = 0 then .ok (m, cards)
      else
        let ds := getSpecificStacks m [.drawable]
        if ! ds.any (fun p => ! p.2.cards.isEmpty) then
          if emptyFirst then .error .notEnoughCards
          else
            refillDrawableStacks sem m none true >>= fun m2 =>
            drawLoop sem fuel m2 nb true cards
        else
          let r := drawPass (ds.map (fun p => p.1)) m nb cards
          refillDrawableStacks sem r.1 none false >>= fun m2 =>
          drawLoop sem fuel m2 r.2.1 emptyFirst r.2.2

/-- `draw_multiple_cards_unchosen`. -/
def drawMultipleCardsUnchosen (sem : RuleSem) (m : MaoCore) (nb : Nat) :
    Res (MaoCore × List Card) :=
  drawLoop sem (2 * nb + 3) m nb false []

/-- `common_penality_to_player`: draw one card into the player's hand. -/
def commonPenalityToPlayer (sem : RuleSem) (m : MaoCore) (player_index : Nat) :
    Res MaoCore :=
  drawMultipleCardsUnchosen sem m 1 >>= fun p =>
  match p.2.getLast? with
  | none => .panicked
  | some card =>
      match p.1.players.get? player_index with
      | some player =>
          .ok { p.1 with
            players := p.1.players.set player_index ({ player with hand := player.hand ++ [card] }) }
      | none => .error (.invalidPlayerIndex player_index p.1.players.length)

/-- `on_penality`: offer the penalty event to the rules; if they all ignore
it, apply the default one-card penalty. -/
def onPenality (sem : RuleSem) (m : MaoCore) (player_index : Nat) : Res MaoCore :=
  onEvent sem m (.playerPenality player_index) >>= fun p =>
  if p.2.all (fun ev => ev.res_type.isIgnoredB) then
    commonPenalityToPlayer sem p.1 player_index
  else .ok p.1

/-- Apply one violation's penalty: its own hook if present, else the
default `on_penality`. -/
def applyPenalty (sem : RuleSem) (m : MaoCore) (target : Nat) (pen : Option Nat) :
    Res MaoCore :=
  match pen with
  | some f => sem.penCall f m target
  | none => onPenality sem m target

/-- The penalty loop `on_turn_ends` runs over the pipeline's violations
(each one penalises the current `player_turn`). -/
def penalizeWrongLoop (sem : RuleSem) :
    List WrongPlayerInteraction → MaoCore → Res MaoCore
  | [], m => .ok m
  | i :: rest, m =>
      (match i with
       | .disallow d => applyPenalty sem m m.player_turn d.penality
       | .forgotSomething f => applyPenalty sem m m.player_turn f.penality) >>=
      penalizeWrongLoop sem rest

/-- The penalty loop `on_turn_ends` runs over the unmet-requirement
violations (each one penalises `previous_player_turn.unwrap()`; a
`Disallow` there is the Rust `unreachable!()`). -/
def penalizeForgotLoop (sem : RuleSem) :
    List WrongPlayerInteraction → MaoCore → Res MaoCore
  | [], m => .ok m
  | .forgotSomething f :: rest, m =>
      (match m.previous_player_turn with
       | some prev => applyPenalty sem m prev f.penality
       | none => .panicked) >>=
      penalizeForgotLoop sem rest
  | .disallow _ :: _, _ => .panicked

/-- The backward walk of `on_turn_ends` (`for i in (0..last_index).rev()`):
processes index `i - 1` down to `0`.  Returns the final `range` end (the
last — i.e. lowest-indexed — turn-changing event's `i + 1`) and the
`(index, remove)` list in push order (descending indices). -/
def walkGo (events : List MaoEvent) (pt : Nat) : Nat → Option Nat × List (Nat × Bool)
  | 0 => (none, [])
  | i + 1 =>
      let rest := walkGo events pt i
      let ev := events.getD i default
      if ev.canChangeTurn then
        (match rest.1 with
         | some r => some r
         | none => some (i + 1), rest.2)
      else
        let res := ev.playerRes
        let remove := res.isNone || res ≠ some pt
        (rest.1, (i, remove) :: rest.2)

/-- The draining pass of `on_turn_ends` over the collected `(index, remove)`
pairs: a `remove` entry is taken out of the log (`Vec::remove`), the others
are cloned and stay.  Returns the slice in push order and the shrunk log. -/
def drainIdx (events : List MaoEvent) : List (Nat × Bool) → List MaoEvent × List MaoEvent
  | [] => ([], events)
  | (index, remove) :: rest =>
      let d := events.getD index default
      if remove then
        let p := drainIdx (events.eraseIdx index) rest
        (d :: p.1, p.2)
      else
        let p := drainIdx events rest
        (d :: p.1, p.2)

/-- One `Say` requirement check: for each required word (or word list) in
order, look for a recorded say by the card's player containing it; the
first unmet requirement records a single `ForgotSomething` and `break`s. -/
def sayCheck (sayEvents : List (String × Nat)) (cardPlayer : Nat) (pseudo : String) :
    List SingOrMultStr → List WrongPlayerInteraction
  | [] => []
  | .single w :: rest =>
      if sayEvents.any (fun p => p.2 == cardPlayer && strContains p.1 w) then
        sayCheck sayEvents cardPlayer pseudo rest
      else [forgotSayingBasic pseudo]
  | .multiple ws :: rest =>
      if sayEvents.any (fun p => p.2 == cardPlayer && ws.any (fun w => strContains p.1 w)) then
        sayCheck sayEvents cardPlayer pseudo rest
      else [forgotSayingBasic pseudo]

/-- The end-of-turn requirement check of `on_turn_ends`: every played card
in the slice is checked against its configured `Say` / `Physical`
requirements; violations carry the closing player's pseudo. -/
def requirementChecks (m : MaoCore) (events : List MaoEvent) (pseudo : String) :
    List WrongPlayerInteraction :=
  let sayEvents : List (String × Nat) := events.filterMap (fun ev =>
    match ev with
    | .sayEvent msg pi => some (msg, pi)
    | _ => none)
  events.foldl (fun acc ev =>
    match ev with
    | .playedCardEvent ce =>
        (getCardEffects m ce.played_card).foldl (fun acc2 eff =>
          match eff with
          | .cardPlayerAction (.say wordsToSay) =>
              acc2 ++ sayCheck sayEvents ce.player_index pseudo wordsToSay
          | .cardPlayerAction (.physical name) =>
              if ! events.any (fun e => beqEvent e (.physicalEvent name ce.player_index)) then
                acc2 ++ [forgotDoingBasic pseudo]
              else acc2
          | .playerTurnChange _ => acc2) acc
    | _ => acc) []

/-- `on_turn_ends`: discard the last log entry when the closing action was a
violation, delimit the closed turn by the backward walk, drain the slice,
run it through the pipeline as `EndPlayerTurn`, then check the say /
physical requirements of every played card and penalise each unmet one.
An out-of-range `Vec::drain` range (stale after the removals) panics. -/
def onTurnEnds (sem : RuleSem) (m : MaoCore) (wrong_interaction : Bool) :
    Res (MaoCore × List WrongPlayerInteraction) :=
  let lastIndex := m.player_events.length - 1
  let m := if wrong_interaction
    then { m with player_events := m.player_events.dropLast }
    else m
  let w := walkGo m.player_events m.player_turn lastIndex
  let p := drainIdx m.player_events w.2
  (match w.1 with
   | some endIdx =>
       if endIdx ≤ p.2.length then
         .ok (p.1 ++ (p.2.take endIdx).reverse, p.2.drop endIdx)
       else .panicked
   | none => .ok (p.1, p.2)) >>= fun q =>
  let datas := q.1
  let m := { m with player_events := q.2 }
  if datas.isEmpty then .ok (m, [])
  else
    let event := MaoEvent.endPlayerTurn datas
    onEvent sem m event >>= fun r1 =>
    propagate sem r1.1 r1.1.player_turn event r1.2 >>= fun r2 =>
    let m := r2.1
    let wrongInt := r2.2.1
    if ! wrongInt.isEmpty then
      penalizeWrongLoop sem wrongInt m >>= fun m2 => .ok (m2, wrongInt)
    else
      match m.previous_player_turn.bind (fun i => m.players.get? i) with
      | none => .ok (m, [])
      | some player =>
          let pseudo := player.pseudo
          let wrong2 := requirementChecks m datas pseudo
          penalizeForgotLoop sem wrong2 m >>= fun m2 => .ok (m2, wrong2)

/-- `activate_rule_by_index`: merge the rule's declared automaton paths and
mark it activated; activating an already-activated rule is an error. -/
def activateRuleByIndex (m : MaoCore) (index : Nat) : Res MaoCore :=
  match m.available_rules.get? index with
  | some rule =>
      if m.activated_rules.contains index then
        .error (.ruleAlreadyActivated rule.name)
      else
        (match rule.actions with
         | some actions =>
             match Automaton.extend m.automaton actions with
             | some aut => .ok { m with automaton := aut }
             | none => .panicked
         | none => .ok m) >>= fun m2 =>
        .ok { m2 with activated_rules := m2.activated_rules ++ [index] }
  | none => .error (.invalidRuleIndex index m.available_rules.length)

/-- `deactivate_rule_by_index`: un-mark the rule; deactivating a rule that
is not active is an error.  Note the Rust body carries a
`TODO remove actions that the rule added` and leaves the automaton
untouched. -/
def deactivateRuleByIndex (m : MaoCore) (index : Nat) : Res MaoCore :=
  match m.available_rules.get? index with
  | none => .error (.invalidRuleIndex index m.available_rules.length)
  | some rule =>
      if ! m.activated_rules.contains index then
        .error (.ruleNotActivated rule.name)
      else
        .ok { m with activated_rules := m.activated_rules.filter (fun id => id ≠ index) }

end MaoCore

/-! ## Fixtures: concrete states used by counterexamples and witnesses -/

/-- External-rule semantics where every hook and penalty callback is a
no-op and every rule verdict is `Ignored` (no rule interferes). -/
def noRulesSem : RuleSem :=
  { onEvent := fun _ _ m => .ok (m, ⟨.basicRule true, .ignored, none⟩)
    crossCall := fun _ m _ _ => .ok (m, ⟨.basicRule true, .ignored, none⟩)
    hookCall := fun _ m _ => .ok m
    penCall := fun _ m _ => .ok m }

/-- An ace of spades. -/
def cardOne : Card := ⟨.number 1, .common .spade, none, true⟩

/-- A nine of clubs (no effects configured for it in `demoTable`). -/
def cardNine : Card := ⟨.number 9, .common .club, none, true⟩

/-- An effect table requiring the word "one" to be said when a value-1 card
is played. -/
def demoTable : List (CardEffectsKey × SingOrMultEffect) :=
  [(⟨none, some (.number 1)⟩, .single (.cardPlayerAction (.say [.single "one"])))]

/-- A two-player game state: bob (index 1) is playing, alice (index 0) has
just closed her turn; one drawable stack of two cards. -/
def demoCore : MaoCore :=
  { available_rules := []
    activated_rules := []
    the_stacks := [⟨[cardNine, cardNine], false, [.drawable], none⟩]
    players := [⟨"alice", []⟩, ⟨"bob", []⟩]
    player_turn := 1
    previous_player_turn := some 0
    turn := 1
    player_events := []
    can_play_on_new_stack := false
    automaton := Automaton.empty
    dealer := 0
    cards_effects := demoTable
    possible_actions := [] }

/-- A three-player state whose turn index was `Set` out of range (5 ≥ 3). -/
def demo3 : MaoCore :=
  { demoCore with players := [⟨"a", []⟩, ⟨"b", []⟩, ⟨"c", []⟩], player_turn := 5 }

/-- A state with no players at all. -/
def demo0 : MaoCore := { demoCore with players := [] }

/-- A played-card event by player 1 (bob) for `cardNine`. -/
def demoPlayEvent : MaoEvent := .playedCardEvent ⟨cardNine, 0, 1, some 0⟩

/-- A rule module declaring one single-step automaton path. -/
def ruleDemo : Rule := ⟨"librule", some [[⟨⟨none, .selectRule⟩, none, some 9⟩]]⟩

/-- `demoCore` with `ruleDemo` available (not yet activated). -/
def coreWithRule : MaoCore := { demoCore with available_rules := [ruleDemo] }

/-! ## Claim C5 — `update_turn` -/

/-- A Rust `%` (truncated remainder) summand inside a Euclidean remainder
collapses: the two remainders agree modulo `n`. -/
theorem emod_add_tmod (a b n : Int) : (a + b.tmod n).emod n = (a + b).emod n := by
  have h : a + b.tmod n = (a + b) + n * (-(b.tdiv n)) := by
    have h0 := Int.tdiv_add_tmod b n
    linarith
  have h2 : (a + b + n * (-(b.tdiv n))) % n = (a + b) % n :=
    Int.add_mul_emod_self_left (a + b) n (-(b.tdiv n))
  rw [h]
  exact h2

/-- Claim C5 (amended): for `N ≥ 1` players, `update_turn` realises the four
primitives — `Update(Set i)` sets the index; `Update(Step k)` sets the index
to the Euclidean remainder of `index + direction·k` mod `N` (direction
unchanged); `Rotate(Set i)` negates the direction and sets the index;
`Rotate(Step k)` negates the direction first and then steps with the new
direction — every `Rotate` flips the direction exactly once, and
`Update(Step 0)` is the identity whenever the current index is in range
(`index < N`; an out-of-range index is normalised instead, see the
counterexample). -/
theorem updateTurn_matches_spec (m : MaoCore) (hN : 1 ≤ m.players.length) :
    (∀ i, MaoCore.updateTurn m (.update (.set i)) = some { m with player_turn := i }) ∧
    (∀ k, MaoCore.updateTurn m (.update (.update k)) =
      some { m with player_turn :=
        (((m.player_turn : Int) + m.turn * k).emod (m.players.length : Int)).toNat }) ∧
    (∀ i, MaoCore.updateTurn m (.rotate (.set i)) =
      some { m with turn := -m.turn, player_turn := i }) ∧
    (∀ k, MaoCore.updateTurn m (.rotate (.update k)) =
      some { m with turn := -m.turn, player_turn :=
        (((m.player_turn : Int) + (-m.turn) * k).emod (m.players.length : Int)).toNat }) ∧
    (m.player_turn < m.players.length →
      MaoCore.updateTurn m (.update (.update 0)) = some m) ∧
    (∀ u m2, MaoCore.updateTurn m (.rotate u) = some m2 → m2.turn = -m.turn) := by
  have hz : m.players.length ≠ 0 := by omega
  refine ⟨fun i => rfl, fun k => ?_, fun i => rfl, fun k => ?_, fun hlt => ?_, fun u m2 h => ?_⟩
  · simp only [MaoCore.updateTurn, hz, if_false]
    rw [emod_add_tmod]
  · simp only [MaoCore.updateTurn, hz, if_false]
    rw [emod_add_tmod]
  · simp only [MaoCore.updateTurn, hz, if_false]
    have h1 : m.turn * 0 = 0 := by ring
    rw [h1]
    have h2 : Int.tmod 0 (m.players.length : Int) = 0 := Int.zero_tmod _
    rw [h2]
    have h3 : ((m.player_turn : Int) + 0).emod (m.players.length : Int) = (m.player_turn : Int) := by
      rw [add_zero]
      exact Int.emod_eq_of_lt (by positivity) (by exact_mod_cast hlt)
    rw [h3]
    simp
  · cases u with
    | set i =>
        simp only [MaoCore.updateTurn] at h
        cases h
        rfl
    | update k =>
        simp only [MaoCore.updateTurn, hz, if_false] at h
        cases h
        rfl

/-- Witness for C5: a concrete two-player state where `Update(Step 0)` is
the identity. -/
theorem updateTurn_matches_spec_witness :
    1 ≤ demoCore.players.length ∧ demoCore.player_turn < demoCore.players.length ∧
    MaoCore.updateTurn demoCore (.update (.update 0)) = some demoCore :=
  ⟨by decide, by decide,
    (updateTurn_matches_spec demoCore (by decide)).2.2.2.2.1 (by decide)⟩

/-- Counterexample for C5: with 3 players and an out-of-range index 5 (as
left by `Update(Set 5)`), `Update(Step 0)` is not the identity — it
normalises the index to `5 mod 3 = 2`. -/
theorem updateTurn_step_zero_not_identity :
    (MaoCore.updateTurn demo3 (.update (.update 0))).map (fun m => m.player_turn) = some 2 ∧
    demo3.player_turn = 5 ∧
    MaoCore.updateTurn demo3 (.update (.update 0)) ≠ some demo3 := by
  refine ⟨rfl, rfl, fun h => ?_⟩
  have h2 : (MaoCore.updateTurn demo3 (.update (.update 0))).map
      (fun m => m.player_turn) = some 2 := rfl
  rw [h] at h2
  have h3 : demo3.player_turn = 2 := by simpa using h2
  exact absurd h3 (by decide)

/-! ## Claim C9 — `update_turn` totality and the division-by-zero panic -/

/-- Claim C9: a `Step` updater takes a remainder by the player count with no
emptiness guard: for any state with at least one player both `Step` forms
are total (no panic), and with zero players both panic (remainder by
zero). -/
theorem updateTurn_step_guard (m : MaoCore) (k : Int) :
    (1 ≤ m.players.length →
      (MaoCore.updateTurn m (.update (.update k))).isSome ∧
      (MaoCore.updateTurn m (.rotate (.update k))).isSome) ∧
    (m.players.length = 0 →
      MaoCore.updateTurn m (.update (.update k)) = none ∧
      MaoCore.updateTurn m (.rotate (.update k)) = none) := by
  constructor
  · intro h
    have hz : m.players.length ≠ 0 := by omega
    constructor <;> simp [MaoCore.updateTurn, hz]
  · intro h
    constructor <;> simp [MaoCore.updateTurn, h]

/-- Witness for C9: totality with two players, panic with zero players. -/
theorem updateTurn_step_guard_witness :
    (1 ≤ demoCore.players.length ∧
      (MaoCore.updateTurn demoCore (.update (.update 3))).isSome) ∧
    (demo0.players.length = 0 ∧
      MaoCore.updateTurn demo0 (.update (.update 3)) = none) :=
  ⟨⟨by decide, ((updateTurn_step_guard demoCore 3).1 (by decide)).1⟩,
    ⟨by decide, ((updateTurn_step_guard demo0 3).2 (by decide)).1⟩⟩

/-! ## Claim C8 — card-effect lookup -/

/-- A second effect table where both the value-only key and the type-only
key of `cardOne` carry an effect. -/
def demoTable2 : List (CardEffectsKey × SingOrMultEffect) :=
  [(⟨none, some (.number 1)⟩, .single (.playerTurnChange (.update (.set 0)))),
   (⟨some (.common .spade), none⟩, .single (.playerTurnChange (.update (.set 7))))]

/-- `demoCore` with the two-key effect table. -/
def demoCoreTwoKeys : MaoCore := { demoCore with cards_effects := demoTable2 }

/-- Claim C8: `get_card_effects` is the union of the three independent
lookups — by value only, by type only, and by the exact (type, value) pair
— with no short-circuiting: every effect found under any of the three keys
is in the result, and the result's length is the sum of the three lookup
lengths (so one configured key never suppresses another). -/
theorem getCardEffects_unions (m : MaoCore) (card : Card) :
    (∀ e ∈ MaoCore.getCardEffect m ⟨none, some card.value⟩,
      e ∈ MaoCore.getCardEffects m card) ∧
    (∀ e ∈ MaoCore.getCardEffect m ⟨some card.sign, none⟩,
      e ∈ MaoCore.getCardEffects m card) ∧
    (∀ e ∈ MaoCore.getCardEffect m ⟨some card.sign, some card.value⟩,
      e ∈ MaoCore.getCardEffects m card) ∧
    (MaoCore.getCardEffects m card).length =
      (MaoCore.getCardEffect m ⟨none, some card.value⟩).length +
      (MaoCore.getCardEffect m ⟨some card.sign, none⟩).length +
      (MaoCore.getCardEffect m ⟨some card.sign, some card.value⟩).length := by
  refine ⟨fun e he => ?_, fun e he => ?_, fun e he => ?_, ?_⟩
  · simp only [MaoCore.getCardEffects, MaoCore.tableEffects, MaoCore.getCardEffect,
      List.mem_append] at he ⊢
    tauto
  · simp only [MaoCore.getCardEffects, MaoCore.tableEffects, MaoCore.getCardEffect,
      List.mem_append] at he ⊢
    tauto
  · simp only [MaoCore.getCardEffects, MaoCore.tableEffects, MaoCore.getCardEffect,
      List.mem_append] at he ⊢
    tauto
  · simp only [MaoCore.getCardEffects, MaoCore.tableEffects, MaoCore.getCardEffect,
      List.length_append]

/-- Witness for C8: with both a value-only and a type-only effect
configured for `cardOne`, both appear in the single lookup's result. -/
theorem getCardEffects_unions_witness :
    SingleCardEffect.playerTurnChange (.update (.set 0)) ∈
      MaoCore.getCardEffect demoCoreTwoKeys ⟨none, some cardOne.value⟩ ∧
    SingleCardEffect.playerTurnChange (.update (.set 7)) ∈
      MaoCore.getCardEffect demoCoreTwoKeys ⟨some cardOne.sign, none⟩ ∧
    SingleCardEffect.playerTurnChange (.update (.set 0)) ∈
      MaoCore.getCardEffects demoCoreTwoKeys cardOne ∧
    SingleCardEffect.playerTurnChange (.update (.set 7)) ∈
      MaoCore.getCardEffects demoCoreTwoKeys cardOne :=
  ⟨by decide, by decide,
    (getCardEffects_unions demoCoreTwoKeys cardOne).1 _ (by decide),
    (getCardEffects_unions demoCoreTwoKeys cardOne).2.1 _ (by decide)⟩

/-! ## Claim C1 — the resolution pipeline's override condition -/

/-- Claim C1 (code bug): the resolution algorithm computes its `overrided`
flag as "some deferred verdict is **not** `OverrideBasicRule`", so the
engine's default turn-advance runs exactly when **every** deferred verdict
is an override — the inverse of the claim (and of the spec and of the
verdict's own documentation).  Concretely: a lone `OverrideBasicRule`
verdict still triggers the default `next_player` advance, while a lone
`ExecuteBeforeTurnChange` hook suppresses it. -/
theorem propagate_override_condition_inverted :
    (MaoCore.propagate noRulesSem demoCore 1 demoPlayEvent
        [⟨.basicRule true, .overrideBasicRule 3, none⟩]).map (fun r => r.2.2) =
      .ok [TraceStep.defaultTurnAdvance] ∧
    (MaoCore.propagate noRulesSem demoCore 1 demoPlayEvent
        [⟨.basicRule true, .executeBeforeTurnChange 7, none⟩]).map (fun r => r.2.2) =
      .ok [TraceStep.beforeHook 7] ∧
    (MaoCore.propagate noRulesSem demoCore 1 demoPlayEvent
        [⟨.basicRule true, .disallow ⟨"r", "m", none⟩, none⟩]).map
        (fun r => (r.2.1, r.2.2)) =
      .ok ([.disallow ⟨"r", "m", none⟩], [TraceStep.defaultTurnAdvance]) := by
  refine ⟨by decide, by decide, by decide⟩

/-! ## Claim C2 — rule activation / deactivation -/

/-- Claim C2 (code bug): activating a rule merges its declared automaton
paths (the arena grows from the lone root to two nodes and stops being
structurally equal to the empty automaton) and double activation is the
`RuleAlreadyActivated` error; deactivating a non-active rule is the
`RuleNotActivated` error; but deactivating an activated rule only unmarks
it and does **not** un-merge the declared paths — the automaton still holds
the rule's path afterwards (the body carries a
`TODO remove actions that the rule added`). -/
theorem deactivate_does_not_unmerge_paths :
    (MaoCore.activateRuleByIndex coreWithRule 0).map
        (fun m => (m.activated_rules, m.automaton.arena.length,
          Automaton.beqAut m.automaton coreWithRule.automaton)) =
      .ok ([0], 2, false) ∧
    ((MaoCore.activateRuleByIndex coreWithRule 0).bind
        (fun m => MaoCore.activateRuleByIndex m 0)).map
        (fun m => m.activated_rules) =
      .error (.ruleAlreadyActivated "librule") ∧
    (MaoCore.deactivateRuleByIndex coreWithRule 0).map
        (fun m => m.activated_rules) =
      .error (.ruleNotActivated "librule") ∧
    ((MaoCore.activateRuleByIndex coreWithRule 0).bind
        (fun m => MaoCore.deactivateRuleByIndex m 0)).map
        (fun m => (m.activated_rules, m.automaton.arena.length,
          Automaton.beqAut m.automaton coreWithRule.automaton)) =
      .ok ([], 2, false) := by
  refine ⟨by decide, by decide, by decide, by decide⟩

/-! ## Claim C10 — `on_turn_ends` with no previous player -/

/-- Claim C10: when no turn has ever been completed (`previous_player_turn`
is unset) and no rule module is activated, `on_turn_ends` drains the closed
turn's played card out of the log but returns no violation at all and skips
the say / physical requirement checks entirely — whatever requirements the
played card carries and whether or not they were met; nothing else in the
state (in particular no hand, i.e. no penalty) changes. -/
theorem onTurnEnds_skips_checks_without_previous (sem : RuleSem) (m : MaoCore)
    (ceA ceB : CardEvent)
    (h1 : m.previous_player_turn = none)
    (h2 : m.activated_rules = [])
    (h3 : m.player_events = [.playedCardEvent ceA, .playedCardEvent ceB]) :
    MaoCore.onTurnEnds sem m false =
      .ok ({ m with player_events := [.playedCardEvent ceB] }, []) := by
  obtain ⟨f1, f2, f3, f4, f5, f6, f7, f8, f9, f10, f11, f12, f13⟩ := m
  simp only at h1 h2 h3
  subst h1 h2 h3
  rfl

/-- Witness for C10: concrete start-of-game state where the closed turn's
card does require saying "one" and nothing was said — still no violation. -/
theorem onTurnEnds_skips_checks_without_previous_witness :
    ({ demoCore with
        previous_player_turn := none
        player_events := [.playedCardEvent ⟨cardOne, 0, 0, some 0⟩,
          .playedCardEvent ⟨cardNine, 0, 1, some 0⟩] } : MaoCore).previous_player_turn
      = none ∧
    MaoCore.onTurnEnds noRulesSem
      { demoCore with
        previous_player_turn := none
        player_events := [.playedCardEvent ⟨cardOne, 0, 0, some 0⟩,
          .playedCardEvent ⟨cardNine, 0, 1, some 0⟩] } false =
      .ok ({ demoCore with
        previous_player_turn := none
        player_events := [.playedCardEvent ⟨cardNine, 0, 1, some 0⟩] }, []) :=
  ⟨rfl, onTurnEnds_skips_checks_without_previous noRulesSem _ _ _ rfl rfl rfl⟩

/-- The say events the closing player recorded before the play (none or one). -/
def sayPre (msgOpt : Option String) (p : Nat) : List MaoEvent :=
  match msgOpt with
  | some msg => [.sayEvent msg p]
  | none => []

/-- Did the (optional) recorded say contain the required word? -/
def saidB (msgOpt : Option String) (w : String) : Bool :=
  match msgOpt with
  | some msg => strContains msg w
  | none => false

/-- What remains in the log after the close (the stale drain range swallows
the in-progress play exactly when a say event preceded the closing play). -/
def leftoverLog (msgOpt : Option String) (e : MaoEvent) : List MaoEvent :=
  match msgOpt with
  | some _ => []
  | none => [e]

set_option maxHeartbeats 3200000 in
/-- Claim C7: in `on_turn_ends`, for a played card in the closed turn whose
configured effect requires a spoken phrase (`Say [w]`): if the closing
player recorded a say whose message contains `w` (substring match), zero
`ForgotSomething` violations are produced and no penalty is applied; if no
such say exists, exactly one `ForgotSomething` violation is produced,
reported with the closing player's display name, and penalised exactly once
(one card drawn into the closing player's hand).  Stated for a closed turn
consisting of an optional say by the closing player `p` followed by `p`'s
play, with the in-progress play on top of the log, no activated rule
modules and one one-card drawable stack. -/
theorem onTurnEnds_say_requirement (sem : RuleSem) (m : MaoCore)
    (p q ci cj : Nat) (player : Player) (card card2 : Card) (w : String)
    (msgOpt : Option String) (si sj : Option Nat)
    (topc : Card) (vis : Bool) (fr : Option String)
    (h_act : m.activated_rules = [])
    (h_prev : m.previous_player_turn = some p)
    (h_pl : m.players.get? p = some player)
    (h_ne : p ≠ m.player_turn)
    (h_eff : MaoCore.tableEffects m.cards_effects card =
      [.cardPlayerAction (.say [.single w])])
    (h_eff2 : MaoCore.tableEffects m.cards_effects card2 = [])
    (h_log : m.player_events = sayPre msgOpt p ++
      [.playedCardEvent ⟨card, ci, p, si⟩, .playedCardEvent ⟨card2, cj, q, sj⟩])
    (h_st : m.the_stacks = [⟨[topc], vis, [.drawable], fr⟩]) :
    (saidB msgOpt w = true →
      MaoCore.onTurnEnds sem m false = .ok ({ m with player_events := [] }, [])) ∧
    (saidB msgOpt w = false →
      MaoCore.onTurnEnds sem m false =
        .ok ({ m with
          player_events := leftoverLog msgOpt (.playedCardEvent ⟨card2, cj, q, sj⟩)
          the_stacks := [⟨[], vis, [.drawable], fr⟩]
          players := m.players.set p ({ player with hand := player.hand ++ [topc] }) },
          [forgotSayingBasic player.pseudo])) := by
  obtain ⟨f1, f2, f3, f4, f5, f6, f7, f8, f9, f10, f11, f12, f13⟩ := m
  simp only at h_act h_prev h_pl h_ne h_eff h_eff2 h_log h_st
  rw [List.get?_eq_getElem?] at h_pl
  subst h_act h_prev h_log h_st
  cases msgOpt with
  | none =>
      refine ⟨fun hT => absurd hT (by simp [saidB]), fun hF => ?_⟩
      simp [MaoCore.onTurnEnds, MaoCore.walkGo, MaoCore.drainIdx,
        MaoCore.onEvent, MaoCore.onEventLoop, MaoCore.propagate,
        MaoCore.requirementChecks, MaoCore.sayCheck, MaoCore.penalizeForgotLoop,
        MaoCore.applyPenalty, MaoCore.onPenality, MaoCore.commonPenalityToPlayer,
        MaoCore.drawMultipleCardsUnchosen, MaoCore.drawLoop, MaoCore.drawPass,
        MaoCore.refillDrawableStacks, MaoCore.collapsePass, MaoCore.getSpecificStacks,
        MaoCore.getCardEffects, h_eff, h_eff2, h_pl, sayPre, leftoverLog,
        MaoEvent.isRecordable, MaoEvent.canChangeTurn, MaoEvent.playerRes]
  | some msg =>
      constructor
      · intro hT
        simp only [saidB] at hT
        simp [MaoCore.onTurnEnds, MaoCore.walkGo, MaoCore.drainIdx,
          MaoCore.onEvent, MaoCore.onEventLoop, MaoCore.propagate,
          MaoCore.requirementChecks, MaoCore.sayCheck,
          MaoCore.penalizeForgotLoop, MaoCore.getSpecificStacks,
          MaoCore.getCardEffects, h_eff, h_eff2, h_pl, h_ne, hT, sayPre, leftoverLog,
          MaoEvent.isRecordable, MaoEvent.canChangeTurn, MaoEvent.playerRes]
      · intro hF
        simp only [saidB] at hF
        simp [MaoCore.onTurnEnds, MaoCore.walkGo, MaoCore.drainIdx,
          MaoCore.onEvent, MaoCore.onEventLoop, MaoCore.propagate,
          MaoCore.requirementChecks, MaoCore.sayCheck, MaoCore.penalizeForgotLoop,
          MaoCore.applyPenalty, MaoCore.onPenality, MaoCore.commonPenalityToPlayer,
          MaoCore.drawMultipleCardsUnchosen, MaoCore.drawLoop, MaoCore.drawPass,
          MaoCore.refillDrawableStacks, MaoCore.collapsePass, MaoCore.getSpecificStacks,
          MaoCore.getCardEffects, h_eff, h_eff2, h_pl, h_ne, hF, sayPre, leftoverLog,
          MaoEvent.isRecordable, MaoEvent.canChangeTurn, MaoEvent.playerRes]

/-- Fixture for the C7 witness: alice closed her turn playing `cardOne`
(which requires saying "one") without saying anything. -/
def demo7 : MaoCore :=
  { demoCore with
    the_stacks := [⟨[cardNine], false, [.drawable], none⟩]
    player_events := [.playedCardEvent ⟨cardOne, 0, 0, some 0⟩,
      .playedCardEvent ⟨cardNine, 0, 1, some 0⟩] }

/-- Witness for C7: the unmet case at a concrete state — one violation with
alice's pseudo and exactly one penalty card drawn into her hand. -/
theorem onTurnEnds_say_requirement_witness :
    saidB none "one" = false ∧
    MaoCore.onTurnEnds noRulesSem demo7 false =
      .ok ({ demo7 with
        player_events := leftoverLog none (.playedCardEvent ⟨cardNine, 0, 1, some 0⟩)
        the_stacks := [⟨[], false, [.drawable], none⟩]
        players := demo7.players.set 0 ({ (⟨"alice", []⟩ : Player) with
          hand := Player.hand ⟨"alice", []⟩ ++ [cardNine] }) },
        [forgotSayingBasic (Player.pseudo ⟨"alice", []⟩)]) :=
  ⟨rfl,
    (onTurnEnds_say_requirement noRulesSem demo7 0 1 0 0 ⟨"alice", []⟩ cardOne cardNine
      "one" none (some 0) (some 0) cardNine false none
      rfl rfl rfl (by decide) rfl rfl rfl rfl).2 rfl⟩


/-- Claim C3 (amended): every automaton reachable by the public operations —
`from_iter` builds, `extend`, `remove_paths` invoked while the cursor is at
the root, `on_action`, `on_action_indexed`, `cancel_last`, `reset` — keeps
its cursor on a valid, not-removed arena node reachable from the root, and
`reset` always returns the cursor to the root.  (Without the cursor-at-root
restriction on `remove_paths` the invariant fails:
`removePaths_can_remove_cursor`.) -/
theorem automaton_cursor_invariant (a : Automaton) (h : Automaton.Reachable a) :
    a.current_state < a.arena.length ∧
    Automaton.isRemoved a a.current_state = false ∧
    Automaton.NodeReach a a.current_state ∧
    (Automaton.reset a).current_state = (Automaton.reset a).root := by
  obtain ⟨wf, ck⟩ := Automaton.reachable_wf h
  exact ⟨Automaton.isRemoved_false_lt ck.live, ck.live, ck.reach, rfl⟩

theorem automaton_cursor_invariant_witness :
    Automaton.empty.current_state < Automaton.empty.arena.length ∧
    Automaton.isRemoved Automaton.empty Automaton.empty.current_state = false ∧
    Automaton.NodeReach Automaton.empty Automaton.empty.current_state ∧
    (Automaton.reset Automaton.empty).current_state =
      (Automaton.reset Automaton.empty).root :=
  automaton_cursor_invariant Automaton.empty
    (Automaton.Reachable.build [] Automaton.empty rfl)

/-- Counterexample to the unrestricted claim C3: building from a single
two-step path, advancing the cursor one step with `on_action`, then removing
that same path leaves the cursor on a removed node. -/
theorem removePaths_can_remove_cursor :
    ((Automaton.fromIter [Automaton.cursorPath]).bind (fun a =>
        Automaton.removePaths
          (Automaton.onAction a ⟨none, PlayerAction.selectCard⟩).1
          [Automaton.cursorPath])).map
      (fun c => Automaton.isRemoved c c.current_state) = some true := rfl

/-- First demonstration path: a two-step chain ending in a handler. -/
def c4p1 : List NodeState :=
  [⟨⟨none, .selectCard⟩, none, none⟩, ⟨⟨none, .selectPlayableStack⟩, none, some 5⟩]

/-- Second demonstration path: a single-step leaf with a distinct head token. -/
def c4p2 : List NodeState := [⟨⟨none, .doAction⟩, none, some 7⟩]

/-- Two pairwise-disjoint demonstration paths. -/
def c4ps : List (List NodeState) := [c4p1, c4p2]

/-- The automaton the demonstration paths build. -/
def c4aut : Automaton := (Automaton.fromIter c4ps).getD Automaton.empty

/-- Claim C4: for any set of action paths with pairwise-distinct first tokens
inserted into a fresh automaton, replaying any inserted path's interactions in
order through `on_action` yields `AdvancedNextState` for every non-final token
and a `Leaf` for the final one, whose returned interaction sequence equals the
replayed path and whose resulting cursor is reset to the root. -/
theorem fromIter_replay_paths (ps : List (List NodeState)) (a : Automaton)
    (hfi : Automaton.fromIter ps = some a)
    (hdisj : (ps.map Automaton.headTok).Pairwise (fun s t => s ≠ t))
    (p : List NodeState) (hp : p ∈ ps) :
    ∃ f : Nat,
      Automaton.replayGo a (p.map (fun d => d.action)) =
        ({ Automaton.reset a with
            previous_interactions := p.map (fun d => d.action) },
         List.replicate (p.length - 1) MaoInteractionResult.advancedNextState ++
           [MaoInteractionResult.leaf (p.map (fun d => d.action)) f]) := by
  obtain ⟨wfa, hcr, hmain⟩ := Automaton.fromIter_spines hfi hdisj
  obtain ⟨hver, ids, hsp⟩ := hmain p hp
  have hver2 := hver
  unfold Automaton.verifyActionPath at hver2
  rw [Bool.and_eq_true] at hver2
  obtain ⟨hlastv, hdropv⟩ := hver2
  have hpne : p ≠ [] := by
    intro hp0
    subst hp0
    simp at hlastv
  have hcne : Automaton.clearPath p ≠ [] := by
    intro hcp
    have hcl := Automaton.clearPath_length p
    rw [hcp] at hcl
    simp at hcl
    exact hpne (List.length_eq_zero.mp hcl.symm)
  have hfuncs : ∀ d ∈ (Automaton.clearPath p).dropLast, d.func = none := by
    intro d hd
    have hmm : d.func ∈ ((Automaton.clearPath p).dropLast).map (fun v => v.func) :=
      List.mem_map_of_mem _ hd
    rw [List.map_dropLast, Automaton.clearPath_map_func, ← List.map_dropLast] at hmm
    obtain ⟨e, he, hef⟩ := List.mem_map.mp hmm
    rw [List.all_eq_true] at hdropv
    have hbe := hdropv e he
    rw [beq_iff_eq] at hbe
    rw [← hef, hbe]
  have hlastf : ∀ dl, (Automaton.clearPath p).getLast? = some dl →
      dl.func.isSome = true := by
    intro dl hdl
    rw [Automaton.clearPath_getLast?] at hdl
    rw [hdl] at hlastv
    simpa using hlastv
  have hchain : Automaton.AncChain a a.root [a.root] :=
    Automaton.AncChain.base wfa.root_parent
  obtain ⟨f, hrep⟩ := Automaton.replayGo_spine (Automaton.clearPath p) a.root ids a
    [] [] wfa hsp hcr (Automaton.isRemoved_false_lt wfa.root_live) hchain
    (by simp) hcne hfuncs hlastf
  rw [Automaton.clearPath_map_action, Automaton.clearPath_length] at hrep
  exact ⟨f, by simpa using hrep⟩

theorem fromIter_replay_paths_witness :
    ∃ f : Nat,
      Automaton.replayGo c4aut (c4p1.map (fun d => d.action)) =
        ({ Automaton.reset c4aut with
            previous_interactions := c4p1.map (fun d => d.action) },
         List.replicate (c4p1.length - 1) MaoInteractionResult.advancedNextState ++
           [MaoInteractionResult.leaf (c4p1.map (fun d => d.action)) f]) :=
  fromIter_replay_paths c4ps c4aut rfl (by decide) c4p1 (by decide)

/-- A single-leaf automaton whose root child carries the `DoAction` token. -/
def c6base : List NodeState := [⟨⟨none, .doAction⟩, none, some 5⟩]

/-- The automaton built from `c6base`. -/
def c6aut : Automaton := (Automaton.fromIter [c6base]).getD Automaton.empty

/-- A two-step path whose head token is fresh for `c6aut`. -/
def c6fresh : List NodeState :=
  [⟨⟨none, .selectCard⟩, none, none⟩, ⟨⟨none, .selectPlayableStack⟩, none, some 6⟩]

/-- A second path, with a head token distinct from `c6fresh`'s and also fresh
for `c6aut`. -/
def c6fresh2 : List NodeState :=
  [⟨⟨none, .selectPlayer⟩, none, some 8⟩]

/-- `c6aut` extended with the family of both fresh paths. -/
def c6ext : Automaton :=
  (Automaton.extend c6aut [c6fresh, c6fresh2]).getD Automaton.empty

/-- A two-step path whose head token collides with the existing `DoAction`
leaf of `c6aut` (the leaf is not itself in the path, so the leaf-duplication
guard does not fire). -/
def c6collide : List NodeState :=
  [⟨⟨none, .doAction⟩, none, none⟩, ⟨⟨none, .selectCard⟩, none, some 6⟩]

/-- Claim C6 (amended): for every family of action paths whose first tokens
are pairwise distinct and differ from the token of every existing child of
the root, extending the automaton with the family and then removing the same
family yields an automaton structurally equal (under the order-independent
recursive comparison) to the one before the extension; pre-existing nodes
are untouched.  Some restriction on first tokens is necessary even when the
paths' leaves are absent: a first token matching a handler-carrying child
makes `convert_into_node_ids` resolve the wrong child and nothing is removed
(`extend_remove_roundtrip_fails`), and a first token matching a handler-less
child with a different payload makes insertion reuse that child (the walk
matches tokens only) while removal matches the full payload, so removal
again finds no path. -/
theorem extend_remove_structural (ps : List (List NodeState)) (a b : Automaton)
    (wf : Automaton.AutWF a)
    (hdisj : (ps.map Automaton.headTok).Pairwise (fun s t => s ≠ t))
    (hfresh : ∀ p ∈ ps, ∀ k ∈ Automaton.childrenOf a a.root,
      (Automaton.stateAt a k).action.action ≠ Automaton.headTok p)
    (hext : Automaton.extend a ps = some b) :
    (Automaton.removePaths b ps).map (fun c => Automaton.beqAut c a)
      = some true := by
  have hmid := Automaton.extend_MidSpec ps a b wf hext hfresh hdisj
  obtain ⟨c, hrem, hcroot, hcold, nrf, hcnr, hcch⟩ :=
    Automaton.remove_MidSpec wf ps b a.arena.length hmid hfresh hdisj
  rw [hrem]
  have hrlt : a.root < a.arena.length := Automaton.isRemoved_false_lt wf.root_live
  have hchk : ∀ k, k < a.arena.length →
      Automaton.childrenOf c k = Automaton.childrenOf a k := by
    intro k hk
    have hcAt : Automaton.childrenAt c k = Automaton.childrenAt a k := by
      by_cases hkr : k = a.root
      · subst hkr
        rw [Automaton.childrenAt_eq_of_nodeAt hcnr, hcch]
      · unfold Automaton.childrenAt
        rw [List.get?_eq_getElem?, List.get?_eq_getElem?, hcold k hk hkr]
    rw [Automaton.childrenOf_eq_filter, Automaton.childrenOf_eq_filter, hcAt]
    apply List.filter_congr
    intro x hx
    have hxr : x ≠ a.root := fun hh => wf.root_not_child k (hh ▸ hx)
    have hxl : x < a.arena.length := (wf.child_bounds _ _ hx).1
    have hne2 : c.arena[x]? = a.arena[x]? := hcold x hxl hxr
    have hre : Automaton.isRemoved c x = Automaton.isRemoved a x := by
      unfold Automaton.isRemoved
      rw [List.get?_eq_getElem?, List.get?_eq_getElem?, hne2]
    rw [hre]
  have hstk : ∀ k m, k < a.arena.length → m ∈ Automaton.childrenOf a k →
      Automaton.stateAt c m = Automaton.stateAt a m := by
    intro k m hk hm2
    have hx2 := Automaton.childrenOf_subset_childrenAt hm2
    have hxr : m ≠ a.root := fun hh => wf.root_not_child k (hh ▸ hx2)
    have hxl : m < a.arena.length := (wf.child_bounds _ _ hx2).1
    unfold Automaton.stateAt
    rw [List.get?_eq_getElem?, List.get?_eq_getElem?, hcold m hxl hxr]
  have hbeq : Automaton.beqAut c a = true := by
    unfold Automaton.beqAut
    rw [hcroot]
    exact Automaton.sameNode_of_eq wf hchk hstk _ a.root (by omega) hrlt
  rw [show (some c).map (fun c2 => Automaton.beqAut c2 a)
    = some (Automaton.beqAut c a) from rfl, hbeq]

theorem extend_remove_structural_witness :
    (Automaton.removePaths c6ext [c6fresh, c6fresh2]).map
      (fun c => Automaton.beqAut c c6aut) = some true :=
  extend_remove_structural [c6fresh, c6fresh2] c6aut c6ext
    (Automaton.fromIter_inv
      (show Automaton.fromIter [c6base] = some c6aut from rfl)).1
    (by decide)
    (by decide)
    rfl

/-- Counterexample to the unrestricted claim C6: the path's leaf is absent
from the base automaton, yet `extend` followed by `remove_paths` is not the
identity, because `convert_into_node_ids` matches the pre-existing
handler-carrying `DoAction` child (the `PartialEq` used for matching ignores
handlers), the chain resolution then fails and nothing is removed. -/
theorem extend_remove_roundtrip_fails :
    ((Automaton.fromIter [c6base]).bind (fun a =>
      (Automaton.extend a [c6collide]).bind (fun b =>
        (Automaton.removePaths b [c6collide]).map
          (fun c => Automaton.beqAut c a)))) = some false := rfl


end MaoSpec
